import Mathlib

/-!
# vigra_core: strided N-dimensional traversal engine

Shallow embedding of `include/vigra2/handle_nd.hxx`.

Conventions of the embedding.

* `ArrayIndex` (a signed machine integer) is `Int`; pointers into an array's
  storage are `Int` element addresses, so that `++p` is `p + 1` and
  `p += strides_[axis]` is `p + strides_[axis]`.
* `Shape<N>` / `TinyArray` values are `List Int`; element access `s[k]` is
  `List.getD s k 0`.
* Axis numbers (`int dim`, `int axis`) are `Nat`.
* The caller-supplied operation `f` acts on an abstract state `σ` (the memory
  it reads and writes, a counter, a log): `f a` is the effect of the call
  `f(*p)` for the element stored at address `a`.
-/

namespace vigra

/-! ## Shapes -/

/-- Modelled from the spec: `prod(shape)` of `tinyarray.hxx`, which is not part of the
sources at hand; the product of all entries of a shape. -/
def prod (s : List Int) : Int := s.prod

/-- Modelled from the spec: `dot(a, b)` of `tinyarray.hxx`, which is not part of the
sources at hand; the sum of the element-wise products. -/
def dot : List Int → List Int → Int
  | a :: as, b :: bs => a * b + dot as bs
  | _, _ => 0

/-- Modelled from the spec: `transpose(v, permutation)` of `tinyarray.hxx`, which is not
part of the sources at hand; entry `k` of the result is `v[permutation[k]]`. -/
def transpose (v : List Int) (permutation : List Nat) : List Int :=
  permutation.map (fun k => v.getD k 0)

/-- Modelled from the spec: the enumeration `MemoryOrder` of `config.hxx`: `C_ORDER` is the
last-axis-contiguous order, `F_ORDER` the first-axis-contiguous order. -/
inductive MemoryOrder where
  | C_ORDER
  | F_ORDER
  deriving DecidableEq, Repr

/-! ## HandleND -/

/-- The class `HandleND<N, T>` for `N != 0`: the strides and the element pointer. -/
structure HandleND where
  strides_ : List Int
  data_ : Int
  deriving DecidableEq, Repr

namespace HandleND

/-- The member `ndim()`. -/
def ndim (h : HandleND) : Nat := h.strides_.length

/-- The member `ptr()`. -/
def ptr (h : HandleND) : Int := h.data_

/-- The member `strides()`. -/
def strides (h : HandleND) : List Int := h.strides_

/-- The loop of `isConsecutive`: the first argument is `k + 1` for the loop variable `k`
that runs from `ndim() - 1` down to `axis`, the second is `size`. -/
def isConsecutiveLoop (h : HandleND) (shape : List Int) (axis : Nat) : Nat → Int → Int
  | 0, size => size
  | k + 1, size =>
    if k < axis then size
    else if size ≠ h.strides_.getD k 0 then 0
    else isConsecutiveLoop h shape axis k (size * shape.getD k 0)

/-- The member `isConsecutive(shape, axis)`: length of the consecutive array starting
from `axis`. -/
def isConsecutive (h : HandleND) (shape : List Int) (axis : Nat) : Int :=
  h.isConsecutiveLoop shape axis h.ndim 1

/-- The member `inc(int axis)`. -/
def inc (h : HandleND) (axis : Nat) : HandleND :=
  { h with data_ := h.data_ + h.strides_.getD axis 0 }

/-- The member `dec(int axis)`. -/
def dec (h : HandleND) (axis : Nat) : HandleND :=
  { h with data_ := h.data_ - h.strides_.getD axis 0 }

/-- The member `move(int axis, difference_type_1 diff)`. -/
def move (h : HandleND) (axis : Nat) (diff : Int) : HandleND :=
  { h with data_ := h.data_ + h.strides_.getD axis 0 * diff }

/-- The member `move(difference_type const & diff)`. -/
def moveBy (h : HandleND) (diff : List Int) : HandleND :=
  { h with data_ := h.data_ + dot h.strides_ diff }

end HandleND

/-! ## ArrayND -/

/-- Modelled from the spec: the array view of `array_nd.hxx`, which is not part of the
sources at hand: a shape, strides of the same length and a pointer to the first element. -/
structure ArrayND where
  shape_ : List Int
  strides_ : List Int
  data_ : Int
  deriving DecidableEq, Repr

namespace ArrayND

/-- The member `shape()`. -/
def shape (a : ArrayND) : List Int := a.shape_

/-- The member `strides()`. -/
def strides (a : ArrayND) : List Int := a.strides_

/-- The member `data()`. -/
def data (a : ArrayND) : Int := a.data_

/-- Modelled from the spec: the member `handle(permutation)` of `array_nd.hxx`: the handle
is constructed with the strides already relabelled by the permutation and points at the
first element. It stands for the member only when `permutation` is a permutation of the axes
of the array; what the member does with another argument is not modelled. -/
def handle (a : ArrayND) (permutation : List Nat) : HandleND :=
  { strides_ := transpose a.strides_ permutation, data_ := a.data_ }

/-- Modelled from the spec: `&a[index]` of `array_nd.hxx`, the address of the element at a
coordinate: the data pointer plus the stride-weighted coordinate. It stands for the member
only when `index` has the rank of the array; a check of the index against the shape, which
the member may make, is not modelled. -/
def addressOf (a : ArrayND) (index : List Int) : Int :=
  a.data_ + dot index a.strides_

end ArrayND

/-- Modelled from the spec: `shapeToStrides(shape, order)` of `shape.hxx`, the strides of a
contiguous array: under `C_ORDER` the stride of axis `k` is the product of the shape entries
after `k`, under `F_ORDER` the product of the entries before `k`. -/
def shapeToStrides (shape : List Int) (order : MemoryOrder) : List Int :=
  match order with
  | MemoryOrder.C_ORDER => (List.range shape.length).map (fun k => prod (shape.drop (k + 1)))
  | MemoryOrder.F_ORDER => (List.range shape.length).map (fun k => prod (shape.take k))

/-! ## std::sort

`std::sort` belongs to the C++ standard library. It is embedded as the insertion sort that
libstdc++ runs for a range of at most 16 elements (`std::__insertion_sort`); the ranges
sorted here have one element per array axis. For a comparator that is a strict weak
ordering the result is sorted (`stdSort_sorted`), as the standard requires of `std::sort`.
-/

/-- The function `std::__unguarded_linear_insert`: `val` travels from the right end of the
sorted prefix to the left while `comp(val, *next)` holds. -/
def unguardedLinearInsert {α : Type} (comp : α → α → Bool) (val : α) (sorted : List α) :
    List α :=
  sorted.rdropWhile (comp val) ++ val :: sorted.rtakeWhile (comp val)

/-- One round of the loop of `std::__insertion_sort`: when `comp(*i, *first)` the element
moves to the front, otherwise it is inserted by `unguardedLinearInsert`. -/
def insertionSortStep {α : Type} (comp : α → α → Bool) (sorted : List α) (val : α) : List α :=
  match sorted with
  | [] => [val]
  | first :: _ =>
    if comp val first then val :: sorted else unguardedLinearInsert comp val sorted

/-- The call `std::sort(begin, end, comp)`. -/
def stdSort {α : Type} (comp : α → α → Bool) (l : List α) : List α :=
  l.foldl (insertionSortStep comp) []

/-! ## permutationToOrder -/

/-- The comparator that `permutationToOrder` passes to `std::sort` for `C_ORDER`. -/
def compC (shape stride : List Int) (l r : Nat) : Bool :=
  if shape.getD l 0 = 1 ∨ shape.getD r 0 = 1 then decide (shape.getD l 0 < shape.getD r 0)
  else decide (stride.getD r 0 < stride.getD l 0)

/-- The comparator that `permutationToOrder` passes to `std::sort` for the other order. -/
def compF (shape stride : List Int) (l r : Nat) : Bool :=
  if shape.getD l 0 = 1 ∨ shape.getD r 0 = 1 then decide (shape.getD r 0 < shape.getD l 0)
  else decide (stride.getD l 0 < stride.getD r 0)

/-- The function `array_detail::permutationToOrder(shape, stride, order)`. -/
def permutationToOrder (shape stride : List Int) (order : MemoryOrder) : List Nat :=
  let res := List.range shape.length
  if order = MemoryOrder.C_ORDER then
    stdSort (compC shape stride) res
  else
    stdSort (compF shape stride) res

/-! ## genericArrayFunctionImpl -/

/-- A loop `for(ArrayIndex k=0; k<N; ++k, ...)` whose body may fail: the body runs
`N.toNat` times. -/
def forLoop {τ : Type} (body : τ → Option τ) : Nat → τ → Option τ
  | 0, t => some t
  | n + 1, t => (body t).bind (forLoop body n)

/-- The body of the one-handle `genericArrayFunctionImpl`. The first argument is the number
of axes from `dim` to the last one, on which the recursion descends; it is `0` exactly when
`dim >= shape.size()`, where `vigra_assert` fails (result `none`). -/
def genericArrayFunctionImplAux {σ : Type} (shape : List Int) (f : Int → σ → σ) :
    Nat → Nat → HandleND × σ → Option (HandleND × σ)
  | 0, _, _ => none
  | rest + 1, dim, (h, s) =>
    if ¬ dim < shape.length then none
    else
      let N := h.isConsecutive shape dim
      if N ≠ 0 then
        (forLoop (fun (ps : Int × σ) => some (ps.1 + 1, f ps.1 ps.2)) N.toNat (h.ptr, s)).map
          (fun ps => (h, ps.2))
      else
        let N := shape.getD dim 0
        let looped :=
          if dim = shape.length - 1 then
            forLoop (fun (hs : HandleND × σ) => some (hs.1.inc dim, f hs.1.data_ hs.2))
              N.toNat (h, s)
          else
            forLoop (fun (hs : HandleND × σ) =>
                (genericArrayFunctionImplAux shape f rest (dim + 1) hs).map
                  (fun hs1 => (hs1.1.inc dim, hs1.2)))
              N.toNat (h, s)
        looped.map (fun hs => (hs.1.move dim (-N), hs.2))

/-- The function `genericArrayFunctionImpl(h, shape, f, dim)` for one handle: the handle
and the state the operation acts on after the call, `none` when the assertion fails. -/
def genericArrayFunctionImpl {σ : Type} (h : HandleND) (shape : List Int) (f : Int → σ → σ)
    (dim : Nat) (s : σ) : Option (HandleND × σ) :=
  genericArrayFunctionImplAux shape f (shape.length - dim) dim (h, s)

/-- The function `genericArrayFunction(a, f)` for one array. -/
def genericArrayFunction {σ : Type} (a : ArrayND) (f : Int → σ → σ) (s : σ) : Option σ :=
  let p := permutationToOrder a.shape a.strides MemoryOrder.C_ORDER
  let h := a.handle p
  let sh := transpose a.shape p
  (genericArrayFunctionImpl h sh f 0 s).map (fun hs => hs.2)

/-- The body of the two-handle `genericArrayFunctionImpl`; the first argument is as in
`genericArrayFunctionImplAux`. -/
def genericArrayFunctionImpl2Aux {σ : Type} (shape : List Int) (f : Int → Int → σ → σ) :
    Nat → Nat → HandleND × HandleND × σ → Option (HandleND × HandleND × σ)
  | 0, _, _ => none
  | rest + 1, dim, (h1, h2, s) =>
    if ¬ dim < shape.length then none
    else
      let N := h1.isConsecutive shape dim
      if N ≠ 0 ∧ N = h2.isConsecutive shape dim then
        (forLoop (fun (ps : Int × Int × σ) => some (ps.1 + 1, ps.2.1 + 1, f ps.1 ps.2.1 ps.2.2))
            N.toNat (h1.ptr, h2.ptr, s)).map
          (fun ps => (h1, h2, ps.2.2))
      else
        let N := shape.getD dim 0
        let looped :=
          if dim = shape.length - 1 then
            forLoop (fun (hs : HandleND × HandleND × σ) =>
                some (hs.1.inc dim, hs.2.1.inc dim, f hs.1.data_ hs.2.1.data_ hs.2.2))
              N.toNat (h1, h2, s)
          else
            forLoop (fun (hs : HandleND × HandleND × σ) =>
                (genericArrayFunctionImpl2Aux shape f rest (dim + 1) hs).map
                  (fun hs1 => (hs1.1.inc dim, hs1.2.1.inc dim, hs1.2.2)))
              N.toNat (h1, h2, s)
        looped.map (fun hs => (hs.1.move dim (-N), hs.2.1.move dim (-N), hs.2.2))

/-- The function `genericArrayFunctionImpl(h1, h2, shape, f, dim)` for two handles. -/
def genericArrayFunctionImpl2 {σ : Type} (h1 h2 : HandleND) (shape : List Int)
    (f : Int → Int → σ → σ) (dim : Nat) (s : σ) : Option (HandleND × HandleND × σ) :=
  genericArrayFunctionImpl2Aux shape f (shape.length - dim) dim (h1, h2, s)

/-- What a call of the two-array `genericArrayFunction` did: whether the temporary
`TmpArray t2(a2)` was constructed, the handle that was traversed as the second operand,
and the state after the traversal. -/
structure TwoArrayRun (σ : Type) where
  temporary : Bool
  h2 : HandleND
  result : Option σ

/-- The function `genericArrayFunction(a1, a2, f)` for a mutable destination `a1` and a
source `a2`. The pointers `p1, q1, p2, q2` are element addresses; the casts to `char *`
scale them by the common element size and do not change their order. The construction
`TmpArray t2(a2)` of `array_nd.hxx`, which is not part of the sources at hand, is the
parameter `mkTemp`: it returns the temporary array and the state with the copy made. -/
def genericArrayFunction2 {σ : Type} (mkTemp : ArrayND → σ → ArrayND × σ)
    (a1 a2 : ArrayND) (f : Int → Int → σ → σ) (s : σ) : TwoArrayRun σ :=
  let last := a1.shape.map (fun n => n - 1)
  let p1 := a1.data
  let q1 := a1.addressOf last + 1
  let p2 := a2.data
  let q2 := a2.addressOf last + 1
  let no_overlap := decide (q1 ≤ p2) || decide (q2 ≤ p1)
  let compatible_layout := decide (p1 ≤ p2) && decide (a1.strides = a2.strides)
  let p := permutationToOrder a1.shape a1.strides MemoryOrder.C_ORDER
  let h1 := a1.handle p
  let sh := transpose a1.shape p
  if no_overlap || compatible_layout then
    let h2 := a2.handle p
    { temporary := false, h2 := h2,
      result := (genericArrayFunctionImpl2 h1 h2 sh f 0 s).map (fun r => r.2.2) }
  else
    let t2 := mkTemp a2 s
    let h2 := t2.1.handle p
    { temporary := true, h2 := h2,
      result := (genericArrayFunctionImpl2 h1 h2 sh f 0 t2.2).map (fun r => r.2.2) }

/-! ## Coordinates of a shape -/

/-- All coordinates of the iteration space of a shape, in lexicographic order with the last
axis running fastest. -/
def coordinates : List Int → List (List Int)
  | [] => [[]]
  | n :: rest =>
    (List.range n.toNat).flatMap (fun i => (coordinates rest).map (fun c => (i : Int) :: c))

/-- The element addresses of all coordinates of a shape, in the order of `coordinates`, for
an array whose first element is at `base`. -/
def offsetsFrom (shape strides : List Int) (base : Int) : List Int :=
  (coordinates shape).map (fun c => base + dot c strides)

/-- The pairs of element addresses of all coordinates of a shape, in the order of
`coordinates`, for two arrays whose first elements are at `base1` and `base2`: both
components of a pair belong to the same coordinate. -/
def offsetsFrom2 (shape strides1 strides2 : List Int) (base1 base2 : Int) : List (Int × Int) :=
  (coordinates shape).map (fun c => (base1 + dot c strides1, base2 + dot c strides2))

/-- The element addresses of an array given as the list of its axes, each a pair of the
axis length and the axis stride, in lexicographic order of the axes as listed. -/
def offsetsOfAxes : List (Int × Int) → Int → List Int
  | [], base => [base]
  | (n, st) :: rest, base =>
    (List.range n.toNat).flatMap (fun i => offsetsOfAxes rest (base + i * st))

/-- The operation applied to the elements at the given addresses, one after the other. -/
def applyAll {σ : Type} (f : Int → σ → σ) (s : σ) (l : List Int) : σ :=
  l.foldl (fun t a => f a t) s

/-- The two-operand operation applied to the given pairs of addresses, one after the
other. -/
def applyAll2 {σ : Type} (f : Int → Int → σ → σ) (s : σ) (l : List (Int × Int)) : σ :=
  l.foldl (fun t a => f a.1 a.2 t) s

/-- The operation that logs the address of the element it is applied to. -/
def logCall (a : Int) (log : List Int) : List Int := log ++ [a]

/-- The two-operand operation that logs the pair of addresses it is applied to. -/
def logCall2 (a b : Int) (log : List (Int × Int)) : List (Int × Int) := log ++ [(a, b)]

/-! ## Specification predicates -/

/-- Whether the strides of axes `axis .. n-1` are those of a contiguous block of the given
shape: `strides[k] = prod(shape[k+1 .. n-1])`. -/
def ContiguousFrom (strides shape : List Int) (axis : Nat) : Prop :=
  ∀ k, k < strides.length → axis ≤ k → strides.getD k 0 = prod (shape.drop (k + 1))

instance (strides shape : List Int) (axis : Nat) :
    Decidable (ContiguousFrom strides shape axis) := by
  unfold ContiguousFrom; infer_instance

/-- The requirement of `std::sort` on its comparator, for the elements satisfying `S`: a
strict weak ordering. -/
structure StrictWeakOn {α : Type} (comp : α → α → Bool) (S : α → Prop) : Prop where
  irrefl : ∀ a, S a → comp a a = false
  trans : ∀ a b c, S a → S b → S c → comp a b = true → comp b c = true → comp a c = true
  negTrans : ∀ a b c, S a → S b → S c → comp a b = false → comp b c = false → comp a c = false

/-! ## HandleND<0, T> -/

/-- The specialization `HandleND<0, T>`: the scalar handle, which holds the value
`data_` itself. -/
structure HandleND0 (T : Type) where
  data_ : T

namespace HandleND0

/-- The member `isConsecutive(s, dim)` of the scalar handle: the product of `s[dim..]`. -/
def isConsecutive {T : Type} (_h : HandleND0 T) (s : List Int) (dim : Nat) : Int :=
  (s.drop dim).foldl (fun res sk => res * sk) 1

/-- The member `noMemoryOverlap(char *, char *)`. -/
def noMemoryOverlap {T : Type} (_h : HandleND0 T) (_p1 _q1 : Int) : Bool := true

/-- The member `compatibleMemoryLayout(char *, SHAPE const &)`. -/
def compatibleMemoryLayout {T : Type} (_h : HandleND0 T) (_p1 : Int) (_strides : List Int) :
    Bool := true

/-- The member `inc()`. -/
def incPtr {T : Type} (h : HandleND0 T) : HandleND0 T := h

/-- The member `dec()`. -/
def decPtr {T : Type} (h : HandleND0 T) : HandleND0 T := h

/-- The member `move(difference_type_1)`. -/
def movePtr {T : Type} (h : HandleND0 T) (_diff : Int) : HandleND0 T := h

/-- The member `inc(int)`. -/
def inc {T : Type} (h : HandleND0 T) (_axis : Nat) : HandleND0 T := h

/-- The member `dec(int)`. -/
def dec {T : Type} (h : HandleND0 T) (_axis : Nat) : HandleND0 T := h

/-- The member `move(int, difference_type_1)`. -/
def move {T : Type} (h : HandleND0 T) (_axis : Nat) (_diff : Int) : HandleND0 T := h

/-- The member `move(difference_type const &)`. -/
def moveBy {T : Type} (h : HandleND0 T) (_diff : List Int) : HandleND0 T := h

/-- The member `operator*()`. -/
def deref {T : Type} (h : HandleND0 T) : T := h.data_

/-- The member `operator[](difference_type const &)`. -/
def index {T : Type} (h : HandleND0 T) (_index : List Int) : T := h.data_

/-- The member `ndim()`. -/
def ndim {T : Type} (_h : HandleND0 T) : Nat := 0

end HandleND0

/-- The positional operations of a handle: `inc()`, `dec()`, `move(d)`, `inc(axis)`,
`dec(axis)`, `move(axis, d)` and `move(diff)`. -/
inductive PositionalOp where
  | incPtr
  | decPtr
  | movePtr (diff : Int)
  | inc (axis : Nat)
  | dec (axis : Nat)
  | move (axis : Nat) (diff : Int)
  | moveBy (diff : List Int)

/-- One positional operation applied to a scalar handle. -/
def HandleND0.apply {T : Type} (h : HandleND0 T) : PositionalOp → HandleND0 T
  | PositionalOp.incPtr => h.incPtr
  | PositionalOp.decPtr => h.decPtr
  | PositionalOp.movePtr diff => h.movePtr diff
  | PositionalOp.inc axis => h.inc axis
  | PositionalOp.dec axis => h.dec axis
  | PositionalOp.move axis diff => h.move axis diff
  | PositionalOp.moveBy diff => h.moveBy diff

/-- The two-handle `genericArrayFunctionImpl` instantiated with an array handle
`HandleND<N, T>` as `h1` and the scalar handle `HandleND<0, T>` as `h2`. The operation
receives the address of the array element and the pointer it is given for the scalar,
as the offset of that pointer from `&data_`: `h2.ptr()` and `*h2` are offset 0, where the
value of the scalar is stored, and `++p2` adds 1. The first argument is as in
`genericArrayFunctionImplAux`. -/
def genericArrayFunctionImplScalarAux {σ T : Type} (shape : List Int)
    (f : Int → Int → σ → σ) :
    Nat → Nat → HandleND × HandleND0 T × σ → Option (HandleND × HandleND0 T × σ)
  | 0, _, _ => none
  | rest + 1, dim, (h1, h2, s) =>
    if ¬ dim < shape.length then none
    else
      let N := h1.isConsecutive shape dim
      if N ≠ 0 ∧ N = h2.isConsecutive shape dim then
        (forLoop (fun (ps : Int × Int × σ) => some (ps.1 + 1, ps.2.1 + 1, f ps.1 ps.2.1 ps.2.2))
            N.toNat (h1.ptr, 0, s)).map
          (fun ps => (h1, h2, ps.2.2))
      else
        let N := shape.getD dim 0
        let looped :=
          if dim = shape.length - 1 then
            forLoop (fun (hs : HandleND × HandleND0 T × σ) =>
                some (hs.1.inc dim, hs.2.1.inc dim, f hs.1.data_ 0 hs.2.2))
              N.toNat (h1, h2, s)
          else
            forLoop (fun (hs : HandleND × HandleND0 T × σ) =>
                (genericArrayFunctionImplScalarAux shape f rest (dim + 1) hs).map
                  (fun hs1 => (hs1.1.inc dim, hs1.2.1.inc dim, hs1.2.2)))
              N.toNat (h1, h2, s)
        looped.map (fun hs => (hs.1.move dim (-N), hs.2.1.move dim (-N), hs.2.2))

/-- The function `genericArrayFunctionImpl(h1, h2, shape, f, dim)` for an array handle and
a scalar handle. -/
def genericArrayFunctionImplScalar {σ T : Type} (h1 : HandleND) (h2 : HandleND0 T)
    (shape : List Int) (f : Int → Int → σ → σ) (dim : Nat) (s : σ) :
    Option (HandleND × HandleND0 T × σ) :=
  genericArrayFunctionImplScalarAux shape f (shape.length - dim) dim (h1, h2, s)

/-! ## HandleNDChain -/

/-- The class template `HandleNDChain<T, NEXT>`, which derives from `NEXT` and adds the
array handle `handle_`, and its specialization `HandleNDChain<Shape<N>, void>`
(`ShapeHandle<N>`), the coordinate link with `point_` and `shape_` that ends the chain. -/
inductive HandleNDChain where
  | shapeHandle (point_ shape_ : List Int)
  | link (handle_ : HandleND) (next : HandleNDChain)
  deriving DecidableEq, Repr

namespace HandleNDChain

/-- Modelled from the spec: the constructor `HandleNDChain(shape)` of the coordinate link
with `TinyArray`'s size constructor of `tinyarray.hxx`, which is not part of the sources at
hand: `point_` has the size of `shape` and all entries 0. -/
def ofShape (shape : List Int) : HandleNDChain :=
  shapeHandle (List.replicate shape.length 0) shape

/-- The static member `index`: 0 for the coordinate link, `base_type::index + 1` for an
array link. -/
def index : HandleNDChain → Nat
  | shapeHandle _ _ => 0
  | link _ next => next.index + 1

/-- The member `coord()` of the coordinate link, inherited by every link. -/
def coord : HandleNDChain → List Int
  | shapeHandle point_ _ => point_
  | link _ next => next.coord

/-- The member `shape()` of the coordinate link, inherited by every link. -/
def shape : HandleNDChain → List Int
  | shapeHandle _ shape_ => shape_
  | link _ next => next.shape

/-- The array handles of the chain, the outermost link first. -/
def links : HandleNDChain → List HandleND
  | shapeHandle _ _ => []
  | link handle_ next => handle_ :: next.links

/-- The member `inc(int dim)`: `++point_[dim]` in the coordinate link,
`base_type::inc(dim); handle_.inc(dim)` in an array link. -/
def inc : HandleNDChain → Nat → HandleNDChain
  | shapeHandle point_ shape_, dim => shapeHandle (point_.set dim (point_.getD dim 0 + 1)) shape_
  | link handle_ next, dim => link (handle_.inc dim) (next.inc dim)

/-- The member `dec(int dim)`. -/
def dec : HandleNDChain → Nat → HandleNDChain
  | shapeHandle point_ shape_, dim => shapeHandle (point_.set dim (point_.getD dim 0 - 1)) shape_
  | link handle_ next, dim => link (handle_.dec dim) (next.dec dim)

/-- The member `move(int dim, ArrayIndex diff)`. -/
def move : HandleNDChain → Nat → Int → HandleNDChain
  | shapeHandle point_ shape_, dim, diff =>
    shapeHandle (point_.set dim (point_.getD dim 0 + diff)) shape_
  | link handle_ next, dim, diff => link (handle_.move dim diff) (next.move dim diff)

/-- The member `move(difference_type const & diff)`: `point_ += diff` in the coordinate
link, the element-wise sum. -/
def moveBy : HandleNDChain → List Int → HandleNDChain
  | shapeHandle point_ shape_, diff => shapeHandle (List.zipWith (fun a b => a + b) point_ diff) shape_
  | link handle_ next, diff => link (handle_.moveBy diff) (next.moveBy diff)

end HandleNDChain

/-- The movements of a chained handle: `inc(dim)`, `dec(dim)`, `move(dim, d)` and
`move(diff)`. -/
inductive ChainOp where
  | inc (dim : Nat)
  | dec (dim : Nat)
  | move (dim : Nat) (diff : Int)
  | moveBy (diff : List Int)

/-- One movement applied to a chained handle. -/
def HandleNDChain.apply (c : HandleNDChain) : ChainOp → HandleNDChain
  | ChainOp.inc dim => c.inc dim
  | ChainOp.dec dim => c.dec dim
  | ChainOp.move dim diff => c.move dim diff
  | ChainOp.moveBy diff => c.moveBy diff

/-- The vector of rank `n` with `d` at position `dim` and 0 elsewhere. -/
def unitVector (n dim : Nat) (d : Int) : List Int := (List.replicate n 0).set dim d

/-- The coordinate delta of a movement in rank `n`. -/
def ChainOp.delta (n : Nat) : ChainOp → List Int
  | ChainOp.inc dim => unitVector n dim 1
  | ChainOp.dec dim => unitVector n dim (-1)
  | ChainOp.move dim diff => unitVector n dim diff
  | ChainOp.moveBy diff => diff

/-- A movement that is defined in rank `n`: the axis is below `n`, a coordinate delta has
`n` entries. -/
def ChainOp.WellFormed (n : Nat) : ChainOp → Prop
  | ChainOp.inc dim => dim < n
  | ChainOp.dec dim => dim < n
  | ChainOp.move dim _ => dim < n
  | ChainOp.moveBy diff => diff.length = n

/-- The element-wise sum of the coordinate deltas of a sequence of movements. -/
def sumDeltas (n : Nat) (ops : List ChainOp) : List Int :=
  ops.foldl (fun p op => List.zipWith (fun a b => a + b) p (op.delta n)) (List.replicate n 0)

/-- What dereferencing a link of a chain yields: the coordinate point for the coordinate
link, the element at the current position, given by its address, for an array link. -/
inductive ChainValue where
  | point (p : List Int)
  | element (address : Int)
  deriving DecidableEq, Repr

/-- The member `operator*()` of a link. -/
def HandleNDChain.deref : HandleNDChain → ChainValue
  | HandleNDChain.shapeHandle point_ _ => ChainValue.point point_
  | HandleNDChain.link handle_ _ => ChainValue.element handle_.data_

/-- The function `HandleChainCast<K, HANDLE>::cast(h)`: `h` itself when `K == HANDLE::index`,
otherwise the cast of the base class part; `none` where the template has no instance (the
coordinate link has no `base_type`). -/
def HandleChainCast (K : Nat) : HandleNDChain → Option HandleNDChain
  | HandleNDChain.shapeHandle point_ shape_ =>
    if K = 0 then some (HandleNDChain.shapeHandle point_ shape_) else none
  | HandleNDChain.link handle_ next =>
    if K = next.index + 1 then some (HandleNDChain.link handle_ next) else HandleChainCast K next

/-- The function `get<INDEX>(h)`. -/
def get (INDEX : Nat) (h : HandleNDChain) : Option ChainValue :=
  (HandleChainCast INDEX h).map HandleNDChain.deref

/-! ## Overlap of two arrays -/

/-- The local `no_overlap` of the two-array `genericArrayFunction`: `q1 <= p2 || q2 <= p1`,
with `last = a1.shape() - 1` used for both arrays, as in the source. -/
def noOverlap (a1 a2 : ArrayND) : Bool :=
  let last := a1.shape.map (fun n => n - 1)
  let p1 := a1.data
  let q1 := a1.addressOf last + 1
  let p2 := a2.data
  let q2 := a2.addressOf last + 1
  decide (q1 ≤ p2) || decide (q2 ≤ p1)

/-- The local `compatible_layout` of the two-array `genericArrayFunction`:
`p1 <= p2 && a1.strides() == a2.strides()`. -/
def compatibleLayout (a1 a2 : ArrayND) : Bool :=
  decide (a1.data ≤ a2.data) && decide (a1.strides = a2.strides)

/-- The addresses of the elements of an array are visited by the traversal in ascending
order: the element offsets, taken in lexicographic order of the axes as permuted by
`permutationToOrder(shape, strides, C_ORDER)`, increase strictly. -/
def AscendingTraversal (a : ArrayND) : Prop :=
  (offsetsFrom (transpose a.shape (permutationToOrder a.shape a.strides MemoryOrder.C_ORDER))
    (transpose a.strides (permutationToOrder a.shape a.strides MemoryOrder.C_ORDER))
    0).Pairwise (fun x y => x < y)

instance (a : ArrayND) : Decidable (AscendingTraversal a) := by
  unfold AscendingTraversal; infer_instance

/-! ## Operations on array elements

The state of an element-wise operation on stored arrays is the memory, a map from element
addresses to values.
-/

/-- An operation `f(x, y)` that writes only its first argument, `x = g(x, y)`, called for
the elements at the addresses `a1` and `a2`. -/
def writeFirst {V : Type} (g : V → V → V) (a1 a2 : Int) (mem : Int → V) : Int → V :=
  Function.update mem a1 (g (mem a1) (mem a2))

/-- The assignment `x = g(y)` with the value of `y` taken from a snapshot of the memory
instead of the current memory. -/
def writeFromSnapshot {V : Type} (g : V → V) (snapshot : Int → V) (a1 a2 : Int)
    (mem : Int → V) : Int → V :=
  Function.update mem a1 (g (snapshot a2))

/-- Modelled from the spec: the construction `TmpArray t2(a2)` of `array_nd.hxx`, which is
not part of the sources at hand: a temporary array of the shape of `a2` with contiguous
`C_ORDER` strides is allocated at the address `base`, and the elements of `a2` are copied
into it. -/
def makeTemporary {V : Type} (base : Int) (a2 : ArrayND) (mem : Int → V) :
    ArrayND × (Int → V) :=
  let t2 : ArrayND :=
    { shape_ := a2.shape_, strides_ := shapeToStrides a2.shape_ MemoryOrder.C_ORDER,
      data_ := base }
  (t2, (coordinates a2.shape_).foldl
    (fun m c => Function.update m (t2.addressOf c) (mem (a2.addressOf c))) mem)

/-! ## Element access of the array handle -/

/-- The member `operator*()` of `HandleND<N, T>`: the element `*data_`, given by its
address. -/
def HandleND.deref (h : HandleND) : Int := h.data_

/-- The member `operator[](difference_type const & index)` of `HandleND<N, T>`: the element
`data_[dot(index, strides_)]`, given by its address. The member is `const` and returns
the element only; the handle is not an output. -/
def HandleND.index (h : HandleND) (index : List Int) : Int := h.data_ + dot index h.strides_

/-! ## Axis tags (axistags.hxx) -/

/-- The enumeration `tags::AxisType`, whose values are combined bitwise: a flag word. -/
abbrev AxisType := Nat

/-- Modelled from the spec: the enumeration `tags::AxisTag` of `config.hxx`, which is not
part of the sources at hand. Its values index the tables `AxisTagKeys` and `AxisTagTypes`
(`order must conform to the indices of AxisTag`): `axis_unknown = 0`, `axis_c`, `axis_n`,
`axis_x`, `axis_y`, `axis_z`, `axis_t`, `axis_fx`, `axis_fy`, `axis_fz`, `axis_ft`,
`axis_e`, and `axis_end = 12` after the last one. -/
abbrev AxisTag := Nat

namespace tags

/-- The enumerator `Channels`. -/
def Channels : AxisType := 1
/-- The enumerator `Space`. -/
def Space : AxisType := 2
/-- The enumerator `Angle`. -/
def Angle : AxisType := 4
/-- The enumerator `Time`. -/
def Time : AxisType := 8
/-- The enumerator `Frequency`. -/
def Frequency : AxisType := 16
/-- The enumerator `Edge`. -/
def Edge : AxisType := 32
/-- The enumerator `UnknownAxisType`. -/
def UnknownAxisType : AxisType := 64

/-- The tag `axis_unknown`. -/
def axis_unknown : AxisTag := 0
/-- The tag `axis_c`. -/
def axis_c : AxisTag := 1
/-- The tag `axis_n`. -/
def axis_n : AxisTag := 2
/-- The tag `axis_x`. -/
def axis_x : AxisTag := 3
/-- The tag `axis_y`. -/
def axis_y : AxisTag := 4
/-- The tag `axis_z`. -/
def axis_z : AxisTag := 5
/-- The tag `axis_t`. -/
def axis_t : AxisTag := 6
/-- The tag `axis_fx`. -/
def axis_fx : AxisTag := 7
/-- The tag `axis_fy`. -/
def axis_fy : AxisTag := 8
/-- The tag `axis_fz`. -/
def axis_fz : AxisTag := 9
/-- The tag `axis_ft`. -/
def axis_ft : AxisTag := 10
/-- The tag `axis_e`. -/
def axis_e : AxisTag := 11
/-- The value `axis_end`. -/
def axis_end : Nat := 12

/-- The table `AxisTagKeys`, each key given by its characters. -/
def AxisTagKeys : List (List Char) :=
  [['?'], ['c'], ['n'], ['x'], ['y'], ['z'], ['t'], ['x'], ['y'], ['z'], ['t'], ['e']]

/-- The table `AxisTagTypes`. -/
def AxisTagTypes : List AxisType :=
  [UnknownAxisType, Channels, Space, Space, Space, Space, Time,
    Space ||| Frequency, Space ||| Frequency, Space ||| Frequency, Time ||| Frequency, Edge]

end tags

/-- The class `AxisInfo`. The `double` member `resolution_` is a rational number here; only
`toFrequencyDomain` computes with it, and no comparison reads it. -/
structure AxisInfo where
  key_ : String
  description_ : String
  resolution_ : Rat
  flags_ : AxisType
  deriving DecidableEq

namespace AxisInfo

/-- The member `key()`. -/
def key (a : AxisInfo) : String := a.key_

/-- The member `typeFlags()`. -/
def typeFlags (a : AxisInfo) : AxisType :=
  if a.flags_ = 0 then tags.UnknownAxisType else a.flags_

/-- The member `isType(type)`. -/
def isType (a : AxisInfo) (type : AxisType) : Bool := (a.typeFlags &&& type) != 0

/-- The member `isFrequency()`. -/
def isFrequency (a : AxisInfo) : Bool := a.isType tags.Frequency

/-- The member `operator==`. -/
def eq (a other : AxisInfo) : Bool :=
  a.typeFlags == other.typeFlags && a.key == other.key

/-- The member `operator!=`. -/
def ne (a other : AxisInfo) : Bool := !(a.eq other)

/-- The member `operator<`. -/
def lt (a other : AxisInfo) : Bool :=
  decide (a.typeFlags < other.typeFlags) ||
    (a.typeFlags == other.typeFlags && decide (a.key < other.key))

/-- The member `operator<=`. -/
def le (a other : AxisInfo) : Bool := !(other.lt a)

/-- The member `operator>`. -/
def gt (a other : AxisInfo) : Bool := other.lt a

/-- The member `operator>=`. -/
def ge (a other : AxisInfo) : Bool := !(a.lt other)

end AxisInfo

/-- The insertion `m[key] = value` into a `std::map`, kept as a list of entries: an entry
with the same key is replaced. -/
def mapInsert (m : List (Char × AxisTag)) (key : Char) (value : AxisTag) :
    List (Char × AxisTag) :=
  (key, value) :: m.filter (fun e => e.1 != key)

/-- The static map `charToTag` of `makeAxistags` after its initialisation loop: for every
`k < axis_end` with `(AxisTagTypes[k] & Frequency) == 0` the entry
`charToTag[AxisTagKeys[k][0]] = AxisTag(k)`. -/
def charToTag : List (Char × AxisTag) :=
  (List.range tags.axis_end).foldl
    (fun m k =>
      if tags.AxisTagTypes.getD k 0 &&& tags.Frequency = 0 then
        mapInsert m ((tags.AxisTagKeys.getD k []).getD 0 (Char.ofNat 0)) k
      else m)
    []

/-- The loop of `makeAxistags` over the characters of `spec`: the first character that is
not found in the map fails the precondition. -/
def makeAxistagsLoop : List Char → Except String (List AxisTag)
  | [] => Except.ok []
  | c :: rest =>
    match charToTag.lookup c with
    | none => Except.error ("makeAxistags(): invalid tag '" ++ String.singleton c ++ "'.")
    | some tag =>
      match makeAxistagsLoop rest with
      | Except.ok res => Except.ok (tag :: res)
      | Except.error e => Except.error e

/-- The function `makeAxistags(spec)`; `Except.error` is the failed `vigra_precondition`. -/
def makeAxistags (spec : String) : Except String (List AxisTag) :=
  makeAxistagsLoop spec.data

/-- The function `defaultAxistags(N, with_channels, order)`; `Except.error` is the failed
`vigra_precondition`. -/
def defaultAxistags (N : Int) (with_channels : Bool) (order : MemoryOrder) :
    Except String (List AxisTag) :=
  let std : List AxisTag := [tags.axis_t, tags.axis_z, tags.axis_y, tags.axis_x, tags.axis_c]
  let count : Int := if with_channels then 5 else 4
  if ¬ (0 ≤ N ∧ N ≤ count) then
    Except.error "defaultAxistags(): only defined for up to five dimensions."
  else
    let res := (std.take count.toNat).drop (count - N).toNat
    if order = MemoryOrder.C_ORDER then Except.ok res else Except.ok res.reverse

/-! ## Grid-graph neighbourhoods (test_gridgraph.cxx)

`unsigned int` values are natural numbers reduced modulo `2 ^ 32` where the source stores
the result of a shift or of a conversion in an `unsigned int`; offsets and coordinates are
lists of `Int`. -/

/-- Modelled from the spec: the enumeration `NeighborhoodType`, whose declaration is not part
of the sources at hand; `DirectNeighborhood` joins a point to the points that differ by one
step along one axis, `IndirectNeighborhood` to all points that differ by at most one step
along every axis. -/
inductive NeighborhoodType where
  | DirectNeighborhood
  | IndirectNeighborhood
  deriving DecidableEq, Repr

/-- The number of low binary digits of the non-negative integer `x` that do not fit into the
53-bit significand of a `double`: the number of `k` with `2 ^ (k + 53) <= x`, counted for
`x` below `2 ^ 64`, the range of the integers that a conversion to `ArrayIndex` can give. -/
def doubleExcessBits (x : Nat) : Nat :=
  ((List.range 11).filter (fun k => decide (2 ^ (k + 53) ≤ x))).length

/-- The `double` nearest to the non-negative integer `x` below `2 ^ 64`, as an integer: `x`
is rounded to a multiple of `2 ^ doubleExcessBits x`, to the nearest one and, half way
between two, to the one with the even significand. -/
def roundToDouble (x : Nat) : Nat :=
  let unit := 2 ^ doubleExcessBits x
  let q := x / unit
  let r := x % unit
  if 2 * r < unit then q * unit
  else if unit < 2 * r then (q + 1) * unit
  else if q % 2 = 0 then q * unit
  else (q + 1) * unit

/-- The function `gridGraphMaxDegree(N, t)`, which returns
`t == DirectNeighborhood ? 2 * N : pow(3, (int)N) - 1` as an `ArrayIndex`. The product
`2 * N` is an `unsigned int`, reduced modulo `2 ^ 32`. The other operand is a `double`:
`pow` of the C library is taken to return the `double` nearest to the exact power, and the
subtraction rounds its exact result to the nearest `double`. `(int)N` is `N` for
`N < 2 ^ 31`, and the conversion of the `double` to `ArrayIndex` is defined while the value
is below `2 ^ 63`. -/
def gridGraphMaxDegree (N : Nat) (t : NeighborhoodType) : Int :=
  match t with
  | NeighborhoodType.DirectNeighborhood => (((2 * N) % 2 ^ 32 : Nat) : Int)
  | NeighborhoodType.IndirectNeighborhood =>
    ((roundToDouble (roundToDouble (3 ^ N) - 1) : Nat) : Int)

/-- Modelled from the spec: the class `CoordinateIterator`, which is not part of the sources
at hand. Constructed from a shape and a memory order it enumerates the coordinates of the
shape in the scan order of that memory order: under `C_ORDER` the last axis runs fastest,
under `F_ORDER` the first axis. The result is the sequence of the values `*c` until
`c.isValid()` fails. -/
def coordinateIterator (shape : List Int) (order : MemoryOrder) : List (List Int) :=
  match order with
  | MemoryOrder.C_ORDER => coordinates shape
  | MemoryOrder.F_ORDER => (coordinates shape.reverse).map List.reverse

/-- The negation `-v` of a vector. -/
def negate (v : List Int) : List Int := v.map (fun x => -x)

/-- The first part of `makeArrayNeighborhood`: the list `neighborOffsets`. For the direct
neighbourhood the axes are taken in the order `axes` (reversed for `F_ORDER`), first the
negative unit vectors for `k = 0 .. ndim-1`, then the positive ones for `k = ndim-1 .. 0`.
For the indirect neighbourhood the coordinates of the shape `(3, ..., 3)` are scanned, the
centre (`*c == 1`, every entry equal to 1) is skipped and `*c - 1` is appended. -/
def neighborOffsetsOf (ndim : Nat) (neighborhoodType : NeighborhoodType) (order : MemoryOrder) :
    List (List Int) :=
  match neighborhoodType with
  | NeighborhoodType.DirectNeighborhood =>
    let axes : List Nat :=
      match order with
      | MemoryOrder.F_ORDER => (List.range ndim).reverse
      | MemoryOrder.C_ORDER => List.range ndim
    (List.range ndim).map (fun k => negate (unitVector ndim (axes.getD k 0) 1)) ++
      (List.range ndim).reverse.map (fun k => unitVector ndim (axes.getD k 0) 1)
  | NeighborhoodType.IndirectNeighborhood =>
    ((coordinateIterator (List.replicate ndim 3) order).filter
      (fun c => !(c.all (fun x => x == 1)))).map (fun c => c.map (fun x => x - 1))

/-- The loop over `k` in `makeArrayNeighborhood` that computes `inside` for one offset and
one border type `bt`: the first axis on which the offset points across a border that `bt`
marks makes the result `false` and ends the loop. The masks `1 << 2*k` and `2 << 2*k` are
32-bit values. -/
def neighborInside (offset : List Int) (bt : Nat) : List Nat → Bool
  | [] => true
  | k :: ks =>
    if (offset.getD k 0 < 0 ∧ bt &&& ((1 <<< (2 * k)) % 2 ^ 32) ≠ 0) ∨
        (offset.getD k 0 > 0 ∧ bt &&& ((2 <<< (2 * k)) % 2 ^ 32) ≠ 0) then false
    else neighborInside offset bt ks

/-- The second part of `makeArrayNeighborhood`: the table `neighborExists`, one row for every
border type below `borderTypeCount = 1 << 2*ndim` and in every row one flag for each of the
`degree = gridGraphMaxDegree(ndim, neighborhoodType)` offsets. Both counts are
`unsigned int`. -/
def neighborExistsOf (ndim : Nat) (neighborhoodType : NeighborhoodType)
    (neighborOffsets : List (List Int)) : List (List Bool) :=
  let borderTypeCount : Nat := (1 <<< (2 * ndim)) % 2 ^ 32
  let degree : Nat := (gridGraphMaxDegree ndim neighborhoodType).toNat % 2 ^ 32
  (List.range borderTypeCount).map (fun bt =>
    (List.range degree).map (fun o =>
      neighborInside (neighborOffsets.getD o []) bt (List.range ndim)))

/-- The function `detail::makeArrayNeighborhood(ndim, neighborhoodType, order, neighborOffsets,
neighborExists)`; the two output arguments are returned as a pair. -/
def makeArrayNeighborhood (ndim : Nat) (neighborhoodType : NeighborhoodType)
    (order : MemoryOrder) : List (List Int) × List (List Bool) :=
  let neighborOffsets := neighborOffsetsOf ndim neighborhoodType order
  (neighborOffsets, neighborExistsOf ndim neighborhoodType neighborOffsets)

/-- The sum of a list of vectors of rank `n`, accumulated with `+=` from the zero vector. -/
def vectorSum (n : Nat) (vs : List (List Int)) : List Int :=
  vs.foldl (fun acc v => List.zipWith (fun a b => a + b) acc v) (List.replicate n 0)

/-- The relation between the lengths `sh` and the strides `st` of the axes `0 .. n-1` of a
contiguous array, read off along the axes whose length is not 1: the stride of an axis is
the length times the stride of the axis with the next smaller stride, an axis with no
smaller stride below it has stride 1, and two such axes have different strides. -/
structure StrideChain (n : Nat) (sh st : Nat → Int) : Prop where
  next : ∀ a b, a < n → b < n → sh a ≠ 1 → sh b ≠ 1 → st b < st a →
    (∀ c, c < n → sh c ≠ 1 → ¬ (st b < st c ∧ st c < st a)) → st a = sh b * st b
  least : ∀ a, a < n → (∀ c, c < n → sh c ≠ 1 → ¬ st c < st a) → st a = 1
  distinct : ∀ a b, a < n → b < n → sh a ≠ 1 → sh b ≠ 1 → a ≠ b → st a ≠ st b

/-! ## The plain nested loop

The traversal that the optimised one is compared with: one loop per axis, no contiguous-run
fast path. -/

/-- The plain nested loop over the axes of a block, the first axis outermost and the last
axis innermost (fastest), that never uses the fast path: at the innermost level the
operation is applied to the element at the current offset; one step along an axis adds the
stride of that axis. The arguments are the lengths and the strides of the axes
`dim .. rank-1` and the offset of the first element. -/
def plainNestedLoop {σ : Type} (f : Int → σ → σ) : List Int → List Int → Int → σ → σ
  | [], _, p, s => f p s
  | n :: shape, strides, p, s =>
    (List.range n.toNat).foldl
      (fun t (k : Nat) =>
        plainNestedLoop f shape strides.tail (p + (k : Int) * strides.headD 0) t) s

/-- The plain nested loop for two operands that are stepped together. -/
def plainNestedLoop2 {σ : Type} (f : Int → Int → σ → σ) :
    List Int → List Int → List Int → Int → Int → σ → σ
  | [], _, _, p1, p2, s => f p1 p2 s
  | n :: shape, strides1, strides2, p1, p2, s =>
    (List.range n.toNat).foldl
      (fun t (k : Nat) => plainNestedLoop2 f shape strides1.tail strides2.tail
        (p1 + (k : Int) * strides1.headD 0) (p2 + (k : Int) * strides2.headD 0) t) s

/-! ## Axis tags: ordering and the frequency domain -/

/-- The function `detail::permutationToOrder(t, order)` of `axistags.hxx`: the axis indices
sorted by their tags, with `t[r] < t[l]` as comparator for `C_ORDER` and `t[l] < t[r]` for
the other order. -/
def detail.permutationToOrder (t : List AxisTag) (order : MemoryOrder) : List Nat :=
  let res := List.range t.length
  if order = MemoryOrder.C_ORDER then
    stdSort (fun l r => decide (t.getD r 0 < t.getD l 0)) res
  else
    stdSort (fun l r => decide (t.getD l 0 < t.getD r 0)) res

/-- The member `AxisInfo::toFrequencyDomain(size, sign)`; `Except.error` is the failed
`vigra_precondition`. The complement `~tags::Frequency` is taken in 32 bits, the width in
which the flags are held. -/
def AxisInfo.toFrequencyDomain (a : AxisInfo) (size : Nat) (sign : Int) :
    Except String AxisInfo :=
  let finish (type : AxisType) : AxisInfo :=
    let res : AxisInfo := AxisInfo.mk a.key_ a.description_ 0 type
    if 0 < a.resolution_ ∧ 0 < size then
      AxisInfo.mk res.key_ res.description_ (1 / (a.resolution_ * size)) res.flags_
    else res
  if sign = 1 then
    if a.isFrequency then
      Except.error "AxisInfo::toFrequencyDomain(): axis is already in the Fourier domain."
    else Except.ok (finish (tags.Frequency ||| a.flags_))
  else
    if !a.isFrequency then
      Except.error "AxisInfo::fromFrequencyDomain(): axis is not in the Fourier domain."
    else Except.ok (finish ((2 ^ 32 - 1 - tags.Frequency) &&& a.flags_))

/-- The member `AxisInfo::fromFrequencyDomain(size)`. -/
def AxisInfo.fromFrequencyDomain (a : AxisInfo) (size : Nat) : Except String AxisInfo :=
  a.toFrequencyDomain size (-1)

/-! ## An expression-like second operand -/

namespace HandleNDChain

/-- The member `noMemoryOverlap(char *, char *)` of the coordinate link
`HandleNDChain<Shape<N>, void>`, which every link inherits from its base class. -/
def noMemoryOverlap : HandleNDChain → Int → Int → Bool
  | shapeHandle _ _, _, _ => true
  | link _ next, p1, q1 => next.noMemoryOverlap p1 q1

/-- The member `compatibleMemoryLayout(char *, SHAPE const &)` of the coordinate link, which
every link inherits from its base class. -/
def compatibleMemoryLayout : HandleNDChain → Int → List Int → Bool
  | shapeHandle _ _, _, _ => true
  | link _ next, p1, strides => next.compatibleMemoryLayout p1 strides

end HandleNDChain

/-- Modelled from the spec: what the overload of `genericArrayFunction` for an
expression-like second operand (`ArrayMathConcept` of `concepts.hxx`, which is not part of
the sources at hand) uses of an operand of type `H`: the operand's own predicates
`noMemoryOverlap(p1, q1)` and `compatibleMemoryLayout(p1, strides)`, and its member
`transpose(p)`, by which the chosen permutation is communicated to it. -/
structure ArrayMathOperand (H : Type) where
  noMemoryOverlap : H → Int → Int → Bool
  compatibleMemoryLayout : H → Int → List Int → Bool
  transpose : H → List Nat → H

/-- What a call of `genericArrayFunction` with an expression-like second operand did:
whether the temporary `TmpArray t2(h2)` was constructed, and the state after the
traversal. -/
structure MathOperandRun (σ : Type) where
  temporary : Bool
  result : Option σ

/-- The function `genericArrayFunction(a1, h2, f)` for a mutable destination `a1` and an
expression-like second operand `h2`. The pointers `p1, q1` are element addresses. The call
`genericArrayFunctionImpl(h1, h2, s, f)` with the operand itself as second handle is the
parameter `traverse`, and the construction `TmpArray t2(h2)` of `array_nd.hxx`, which is not
part of the sources at hand, is the parameter `mkTemp`: it returns the temporary array and
the state with the operand evaluated into it. -/
def genericArrayFunctionMath {H σ : Type} (ops : ArrayMathOperand H)
    (traverse : HandleND → H → List Int → σ → Option σ) (mkTemp : H → σ → ArrayND × σ)
    (a1 : ArrayND) (h2 : H) (f : Int → Int → σ → σ) (s : σ) : MathOperandRun σ :=
  let last := a1.shape.map (fun n => n - 1)
  let p1 := a1.data
  let q1 := a1.addressOf last + 1
  let no_overlap := ops.noMemoryOverlap h2 p1 q1
  let compatible_layout := ops.compatibleMemoryLayout h2 p1 a1.strides
  let p := permutationToOrder a1.shape a1.strides MemoryOrder.C_ORDER
  let h1 := a1.handle p
  let sh := transpose a1.shape p
  if no_overlap || compatible_layout then
    { temporary := false, result := traverse h1 (ops.transpose h2 p) sh s }
  else
    let t2 := mkTemp h2 s
    let ht := t2.1.handle p
    { temporary := true,
      result := (genericArrayFunctionImpl2 h1 ht sh f 0 t2.2).map (fun r => r.2.2) }

/-! ## computeNeighborIncrements (test_gridgraph.cxx) -/

/-- The class `GridGraphArcDescriptor<N>`: its base class `Shape`, which holds the vertex
coordinates followed by the edge index, and the flag `is_reversed_`. -/
structure GridGraphArcDescriptor where
  base : List Int
  is_reversed_ : Bool
  deriving DecidableEq, Repr

namespace GridGraphArcDescriptor

/-- The constructor `GridGraphArcDescriptor(vertex, edge_index, reversed)`. -/
def ofVertex (vertex : List Int) (edge_index : Int) (reversed : Bool) :
    GridGraphArcDescriptor :=
  { base := vertex ++ [edge_index], is_reversed_ := reversed }

/-- The member `isReversed()`. -/
def isReversed (d : GridGraphArcDescriptor) : Bool := d.is_reversed_

end GridGraphArcDescriptor

/-- Modelled from the spec: the difference `a - b` of two vectors (`operator-` of
`tinyarray.hxx`, which is not part of the sources at hand), taken element by element. -/
def vectorDiff (a b : List Int) : List Int := List.zipWith (fun x y => x - y) a b

/-- The rows that `computeNeighborIncrements` fills for one border type. -/
structure BorderIncrements where
  adjacentNodeIncrements : List (List Int)
  adjacentArcIncrements : List GridGraphArcDescriptor
  indices : List Nat
  backIndices : List Nat
  deriving DecidableEq, Repr

/-- The body of the loop over `j` in `computeNeighborIncrements` for the border type whose
row of the existence table is `row`. `Shape()` is the default-constructed shape, whose class
is declared outside the sources at hand; it is the parameter `emptyShape`. A row is read
with `getD j false`: the source defines the read only for `j` inside the row. -/
def neighborIncrementsStep (emptyShape : List Int) (neighborOffsets : List (List Int))
    (row : List Bool) (directed : Bool) (st : BorderIncrements) (j : Nat) : BorderIncrements :=
  if row.getD j false then
    let offset := neighborOffsets.getD j []
    let previous := neighborOffsets.getD (st.indices.getLastD 0) []
    let node :=
      if st.adjacentNodeIncrements.length = 0 then offset else vectorDiff offset previous
    let firstForward :=
      match st.adjacentArcIncrements.getLast? with
      | none => true
      | some d => !d.isReversed
    let arc :=
      if directed ∨ j < neighborOffsets.length / 2 then
        GridGraphArcDescriptor.ofVertex emptyShape (j : Int) false
      else if firstForward then
        GridGraphArcDescriptor.ofVertex offset ((neighborOffsets.length - j - 1 : Nat) : Int) true
      else
        GridGraphArcDescriptor.ofVertex (vectorDiff offset previous)
          ((neighborOffsets.length - j - 1 : Nat) : Int) true
    { adjacentNodeIncrements := st.adjacentNodeIncrements ++ [node],
      adjacentArcIncrements := st.adjacentArcIncrements ++ [arc],
      indices := st.indices ++ [j],
      backIndices :=
        if j < neighborOffsets.length / 2 then st.backIndices ++ [j] else st.backIndices }
  else st

/-- The four outputs of `computeNeighborIncrements`, one row per border type each. -/
structure NeighborIncrements where
  adjacentNodeIncrements : List (List (List Int))
  adjacentArcIncrements : List (List GridGraphArcDescriptor)
  indices : List (List Nat)
  backIndices : List (List Nat)
  deriving DecidableEq, Repr

/-- The function `detail::computeNeighborIncrements(neighborOffsets, neighborExists,
adjacentNodeIncrements, adjacentArcIncrements, indices, backIndices, directed)`; the four
output arguments are returned. `borderTypeCount` is an `unsigned int`, as is the counter
`j`, which runs over a list of fewer than `2 ^ 32` offsets. -/
def computeNeighborIncrements (emptyShape : List Int) (neighborOffsets : List (List Int))
    (neighborExists : List (List Bool)) (directed : Bool) : NeighborIncrements :=
  let borderTypeCount : Nat := neighborExists.length % 2 ^ 32
  let rows : List BorderIncrements :=
    (List.range borderTypeCount).map (fun bt =>
      (List.range neighborOffsets.length).foldl
        (neighborIncrementsStep emptyShape neighborOffsets (neighborExists.getD bt []) directed)
        (BorderIncrements.mk [] [] [] []))
  { adjacentNodeIncrements := rows.map (fun r => r.adjacentNodeIncrements),
    adjacentArcIncrements := rows.map (fun r => r.adjacentArcIncrements),
    indices := rows.map (fun r => r.indices),
    backIndices := rows.map (fun r => r.backIndices) }

/-! # Theorems -/

/-! ## isConsecutive -/

theorem prod_drop_eq (shape : List Int) (k : Nat) (hk : k < shape.length) :
    prod (shape.drop k) = shape.getD k 0 * prod (shape.drop (k + 1)) := by
  unfold prod
  rw [List.drop_eq_getElem_cons hk, List.prod_cons, List.getD_eq_getElem _ _ hk]

theorem isConsecutiveLoop_spec (h : HandleND) (shape : List Int) (axis : Nat) :
    ∀ m, m ≤ shape.length → m ≤ h.strides_.length →
      h.isConsecutiveLoop shape axis m (prod (shape.drop m)) =
        if ∀ k, axis ≤ k → k < m → h.strides_.getD k 0 = prod (shape.drop (k + 1))
        then prod (shape.drop (min axis m)) else 0 := by
  intro m
  induction m with
  | zero =>
    intro _ _
    simp [HandleND.isConsecutiveLoop]
  | succ k ih =>
    intro hk hk2
    unfold HandleND.isConsecutiveLoop
    by_cases hlt : k < axis
    · have hmin : min axis (k + 1) = k + 1 := by omega
      have hall : ∀ j, axis ≤ j → j < k + 1 →
          h.strides_.getD j 0 = prod (shape.drop (j + 1)) := by
        intro j h1 h2; omega
      rw [if_pos hlt, if_pos hall, hmin]
    · rw [if_neg hlt]
      by_cases hne : prod (shape.drop (k + 1)) ≠ h.strides_.getD k 0
      · rw [if_pos hne, if_neg]
        intro hall
        exact hne (hall k (by omega) (by omega)).symm
      · rw [if_neg hne]
        have heq : h.strides_.getD k 0 = prod (shape.drop (k + 1)) := by
          push_neg at hne; exact hne.symm
        have hprod : prod (shape.drop (k + 1)) * shape.getD k 0 = prod (shape.drop k) := by
          rw [prod_drop_eq shape k (by omega)]; ring
        rw [hprod, ih (by omega) (by omega)]
        have hmin : min axis (k + 1) = min axis k := by omega
        rw [hmin]
        by_cases hall : ∀ j, axis ≤ j → j < k → h.strides_.getD j 0 = prod (shape.drop (j + 1))
        · rw [if_pos hall, if_pos]
          intro j h1 h2
          by_cases hjk : j = k
          · subst hjk; exact heq
          · exact hall j h1 (by omega)
        · rw [if_neg hall, if_neg]
          intro hall2
          exact hall (fun j h1 h2 => hall2 j h1 (by omega))

theorem isConsecutive_eq (h : HandleND) (shape : List Int) (axis : Nat)
    (hlen : shape.length = h.ndim) :
    h.isConsecutive shape axis =
      if ContiguousFrom h.strides_ shape axis then prod (shape.drop axis) else 0 := by
  unfold HandleND.isConsecutive
  have h1 : (1 : Int) = prod (shape.drop h.ndim) := by
    rw [← hlen]; simp [prod]
  have := isConsecutiveLoop_spec h shape axis h.ndim (by omega) (by simp [HandleND.ndim])
  rw [← h1] at this
  rw [this]
  have hdrop : prod (shape.drop (min axis h.ndim)) = prod (shape.drop axis) := by
    by_cases hle : axis ≤ h.ndim
    · rw [Nat.min_eq_left hle]
    · have e1 : shape.drop (min axis h.ndim) = [] := by
        apply List.drop_eq_nil_of_le; omega
      have e2 : shape.drop axis = [] := by
        apply List.drop_eq_nil_of_le; omega
      rw [e1, e2]
  rw [hdrop]
  have hiff : (∀ k, axis ≤ k → k < h.ndim → h.strides_.getD k 0 = prod (shape.drop (k + 1))) ↔
      ContiguousFrom h.strides_ shape axis := by
    unfold ContiguousFrom HandleND.ndim
    exact ⟨fun H k h1 h2 => H k h2 h1, fun H k h1 h2 => H k h2 h1⟩
  simp only [hiff]

/-! ## Loops and coordinate enumeration -/

theorem forLoop_eq {τ : Type} (body : τ → Option τ) (n : Nat) :
    ∀ (st : Nat → τ), (∀ i, i < n → body (st i) = some (st (i + 1))) →
      forLoop body n (st 0) = some (st n) := by
  induction n with
  | zero => intro st _; rfl
  | succ n ih =>
    intro st hstep
    unfold forLoop
    rw [hstep 0 (by omega)]
    exact ih (fun i => st (i + 1)) (fun i hi => hstep (i + 1) (by omega))

theorem applyAll_append {σ : Type} (f : Int → σ → σ) (s : σ) (l1 l2 : List Int) :
    applyAll f s (l1 ++ l2) = applyAll f (applyAll f s l1) l2 := by
  simp [applyAll, List.foldl_append]

theorem offsetsFrom_nil (strides : List Int) (base : Int) :
    offsetsFrom [] strides base = [base] := by
  cases strides <;> simp [offsetsFrom, coordinates, dot]

theorem offsetsFrom_cons (n : Int) (shape : List Int) (st : Int) (strides : List Int)
    (base : Int) :
    offsetsFrom (n :: shape) (st :: strides) base =
      (List.range n.toNat).flatMap (fun i => offsetsFrom shape strides (base + i * st)) := by
  simp only [offsetsFrom, coordinates, List.map_flatMap, List.map_map]
  congr 1
  funext i
  apply List.map_congr_left
  intro c _
  simp only [Function.comp, dot]
  ring

theorem range_flatMap_mul {β : Type} (g : Nat → β) (a b : Nat) :
    (List.range a).flatMap (fun i => (List.range b).map (fun k => g (i * b + k))) =
      (List.range (a * b)).map g := by
  induction a with
  | zero => simp
  | succ a ih =>
    rw [List.range_succ, List.flatMap_append, ih, Nat.succ_mul, List.range_add, List.map_append]
    simp [List.map_map, Function.comp]

theorem drop_eq_getD_cons (l : List Int) (k : Nat) (hk : k < l.length) :
    l.drop k = l.getD k 0 :: l.drop (k + 1) := by
  rw [List.drop_eq_getElem_cons hk, List.getD_eq_getElem _ _ hk]

theorem prod_nonneg_of (l : List Int) (h : ∀ x ∈ l, 0 ≤ x) : 0 ≤ prod l := by
  unfold prod
  exact List.prod_nonneg h

theorem prod_drop_nonneg (l : List Int) (h : ∀ x ∈ l, 0 ≤ x) (k : Nat) :
    0 ≤ prod (l.drop k) :=
  prod_nonneg_of _ (fun x hx => h x (List.mem_of_mem_drop hx))

theorem getD_nonneg (l : List Int) (h : ∀ x ∈ l, 0 ≤ x) (k : Nat) : 0 ≤ l.getD k 0 := by
  by_cases hk : k < l.length
  · rw [List.getD_eq_getElem _ _ hk]
    exact h _ (List.getElem_mem _)
  · rw [List.getD_eq_default _ _ (by omega)]

theorem toNat_mul_of_nonneg (a b : Int) (ha : 0 ≤ a) (hb : 0 ≤ b) :
    (a * b).toNat = a.toNat * b.toNat := by
  obtain ⟨x, rfl⟩ := Int.eq_ofNat_of_zero_le ha
  obtain ⟨y, rfl⟩ := Int.eq_ofNat_of_zero_le hb
  simp only [Int.toNat_ofNat]
  exact Int.toNat_ofNat (x * y)

theorem ContiguousFrom.succ {strides shape : List Int} {dim : Nat}
    (h : ContiguousFrom strides shape dim) : ContiguousFrom strides shape (dim + 1) :=
  fun k hk hdim => h k hk (by omega)

/-- A block whose strides are contiguous from `dim` on occupies the consecutive addresses
`base, base + 1, ...` in lexicographic order. -/
theorem offsetsFrom_contiguous (shape strides : List Int)
    (hlen : shape.length = strides.length) (hnn : ∀ x ∈ shape, 0 ≤ x) :
    ∀ rest dim base, rest + dim = shape.length → ContiguousFrom strides shape dim →
      offsetsFrom (shape.drop dim) (strides.drop dim) base =
        (List.range (prod (shape.drop dim)).toNat).map (fun (k : Nat) => base + (k : Int)) := by
  intro rest
  induction rest with
  | zero =>
    intro dim base hdim _
    have e1 : shape.drop dim = [] := List.drop_eq_nil_of_le (by omega)
    rw [e1, offsetsFrom_nil]
    simp [prod, List.range_succ]
  | succ rest ih =>
    intro dim base hdim hc
    have hP := prod_drop_nonneg shape hnn (dim + 1)
    have hn := getD_nonneg shape hnn dim
    have hst : strides.getD dim 0 = prod (shape.drop (dim + 1)) := hc dim (by omega) (le_refl _)
    rw [prod_drop_eq shape dim (by omega), drop_eq_getD_cons shape dim (by omega),
      drop_eq_getD_cons strides dim (by omega), offsetsFrom_cons, hst,
      toNat_mul_of_nonneg _ _ hn hP,
      ← range_flatMap_mul (fun (k : Nat) => base + (k : Int))]
    congr 1
    funext i
    rw [ih (dim + 1) _ (by omega) hc.succ]
    apply List.map_congr_left
    intro k _
    have hcast : ((prod (shape.drop (dim + 1))).toNat : Int) = prod (shape.drop (dim + 1)) :=
      Int.toNat_of_nonneg hP
    push_cast
    rw [hcast]
    ring

/-! ## The one-handle traversal -/

theorem flatLoop_eq {σ : Type} (f : Int → σ → σ) (n : Nat) (p : Int) (s : σ) :
    forLoop (fun (ps : Int × σ) => some (ps.1 + 1, f ps.1 ps.2)) n (p, s) =
      some (p + (n : Int),
        applyAll f s ((List.range n).map (fun (k : Nat) => p + (k : Int)))) := by
  have key := forLoop_eq (fun (ps : Int × σ) => some (ps.1 + 1, f ps.1 ps.2)) n
    (fun i => (p + (i : Int),
      applyAll f s ((List.range i).map (fun (k : Nat) => p + (k : Int)))))
    (by
      intro i _
      simp only [List.range_succ, List.map_append, applyAll_append, List.map_cons, List.map_nil]
      simp [applyAll, add_assoc])
  simpa [applyAll] using key

theorem axisLoop_eq {σ : Type} (f : Int → σ → σ) (h : HandleND) (dim : Nat)
    (block : Int → List Int) (body : HandleND × σ → Option (HandleND × σ))
    (hbody : ∀ (p : Int) (t : σ), body (⟨h.strides_, p⟩, t) =
      some (⟨h.strides_, p + h.strides_.getD dim 0⟩, applyAll f t (block p)))
    (n : Nat) (s : σ) :
    forLoop body n (h, s) =
      some (⟨h.strides_, h.data_ + (n : Int) * h.strides_.getD dim 0⟩,
        applyAll f s ((List.range n).flatMap
          (fun i => block (h.data_ + (i : Int) * h.strides_.getD dim 0)))) := by
  have key := forLoop_eq body n
    (fun i => ((⟨h.strides_, h.data_ + (i : Int) * h.strides_.getD dim 0⟩ : HandleND),
      applyAll f s ((List.range i).flatMap
          (fun j => block (h.data_ + (j : Int) * h.strides_.getD dim 0)))))
    (by
      intro i _
      simp only [hbody, List.range_succ, List.flatMap_append, applyAll_append,
        List.flatMap_cons, List.flatMap_nil, List.append_nil]
      congr 3
      push_cast
      ring)
  simpa [applyAll] using key

theorem genericArrayFunctionImplAux_eq {σ : Type} (shape : List Int) (f : Int → σ → σ)
    (hnn : ∀ x ∈ shape, 0 ≤ x) :
    ∀ (rest dim : Nat) (h : HandleND) (s : σ), rest + dim = shape.length → 0 < rest →
      shape.length = h.strides_.length →
      genericArrayFunctionImplAux shape f rest dim (h, s) =
        some (h, applyAll f s
          (offsetsFrom (shape.drop dim) (h.strides_.drop dim) h.data_)) := by
  intro rest
  induction rest with
  | zero => intro dim h s _ hpos; omega
  | succ rest ih =>
    intro dim h s hdim _ hlen
    have hlt : dim < shape.length := by omega
    unfold genericArrayFunctionImplAux
    simp only [not_lt, Nat.not_le.mpr hlt, if_false]
    rw [isConsecutive_eq h shape dim hlen]
    by_cases hc : ContiguousFrom h.strides_ shape dim ∧ prod (shape.drop dim) ≠ 0
    · obtain ⟨hc1, hc2⟩ := hc
      simp only [if_pos hc1, hc2, ne_eq, not_false_eq_true, if_true]
      rw [HandleND.ptr, flatLoop_eq, offsetsFrom_contiguous shape h.strides_ hlen hnn
        (rest + 1) dim h.data_ hdim hc1]
      rfl
    · have hz : (if ContiguousFrom h.strides_ shape dim then prod (shape.drop dim) else 0) = 0 := by
        by_cases hc1 : ContiguousFrom h.strides_ shape dim
        · rw [if_pos hc1]
          by_contra hne
          exact hc ⟨hc1, hne⟩
        · rw [if_neg hc1]
      simp only [hz, ne_eq, not_true_eq_false, if_false]
      have hN := getD_nonneg shape hnn dim
      have hcast : (((shape.getD dim 0).toNat : Nat) : Int) = shape.getD dim 0 :=
        Int.toNat_of_nonneg hN
      have hfinal : ∀ (t : σ),
          Option.map (fun (hs : HandleND × σ) => (hs.1.move dim (-(shape.getD dim 0)), hs.2))
            (some ((⟨h.strides_, h.data_ +
              ((shape.getD dim 0).toNat : Int) * h.strides_.getD dim 0⟩ : HandleND), t)) =
            some (h, t) := by
        intro t
        simp only [Option.map_some', HandleND.move, hcast]
        congr 2
        cases h
        simp only [HandleND.mk.injEq, true_and]
        ring
      rw [drop_eq_getD_cons shape dim hlt, drop_eq_getD_cons h.strides_ dim (by omega),
        offsetsFrom_cons]
      by_cases hlast : dim = shape.length - 1
      · rw [if_pos hlast]
        have e1 : shape.drop (dim + 1) = [] := List.drop_eq_nil_of_le (by omega)
        rw [axisLoop_eq f h dim (fun p => [p]) _ (by
          intro p t
          simp [HandleND.inc, applyAll]), hfinal, e1]
        simp only [offsetsFrom_nil]
      · rw [if_neg hlast]
        rw [axisLoop_eq f h dim
          (fun p => offsetsFrom (shape.drop (dim + 1)) (h.strides_.drop (dim + 1)) p) _ (by
            intro p t
            rw [ih (dim + 1) ⟨h.strides_, p⟩ t (by omega) (by omega) hlen]
            simp [HandleND.inc]), hfinal]

/-! ## The two-handle traversal -/

theorem applyAll2_append {σ : Type} (f : Int → Int → σ → σ) (s : σ)
    (l1 l2 : List (Int × Int)) :
    applyAll2 f s (l1 ++ l2) = applyAll2 f (applyAll2 f s l1) l2 := by
  simp [applyAll2, List.foldl_append]

theorem offsetsFrom2_nil (strides1 strides2 : List Int) (base1 base2 : Int) :
    offsetsFrom2 [] strides1 strides2 base1 base2 = [(base1, base2)] := by
  cases strides1 <;> cases strides2 <;> simp [offsetsFrom2, coordinates, dot]

theorem offsetsFrom2_cons (n : Int) (shape : List Int) (st1 : Int) (strides1 : List Int)
    (st2 : Int) (strides2 : List Int) (base1 base2 : Int) :
    offsetsFrom2 (n :: shape) (st1 :: strides1) (st2 :: strides2) base1 base2 =
      (List.range n.toNat).flatMap
        (fun i => offsetsFrom2 shape strides1 strides2 (base1 + i * st1) (base2 + i * st2)) := by
  simp only [offsetsFrom2, coordinates, List.map_flatMap, List.map_map]
  congr 1
  funext i
  apply List.map_congr_left
  intro c _
  simp only [Function.comp, dot, Prod.mk.injEq]
  constructor <;> ring

theorem offsetsFrom2_eq_zip (shape strides1 strides2 : List Int) (base1 base2 : Int) :
    offsetsFrom2 shape strides1 strides2 base1 base2 =
      List.zip (offsetsFrom shape strides1 base1) (offsetsFrom shape strides2 base2) := by
  simp only [offsetsFrom2, offsetsFrom, List.zip_map']

theorem flatLoop2_eq {σ : Type} (f : Int → Int → σ → σ) (n : Nat) (p1 p2 : Int) (s : σ) :
    forLoop (fun (ps : Int × Int × σ) => some (ps.1 + 1, ps.2.1 + 1, f ps.1 ps.2.1 ps.2.2)) n
        (p1, p2, s) =
      some (p1 + (n : Int), p2 + (n : Int),
        applyAll2 f s ((List.range n).map (fun (k : Nat) => (p1 + (k : Int), p2 + (k : Int))))) := by
  have key := forLoop_eq
    (fun (ps : Int × Int × σ) => some (ps.1 + 1, ps.2.1 + 1, f ps.1 ps.2.1 ps.2.2)) n
    (fun i => (p1 + (i : Int), p2 + (i : Int),
      applyAll2 f s ((List.range i).map (fun (k : Nat) => (p1 + (k : Int), p2 + (k : Int))))))
    (by
      intro i _
      simp only [List.range_succ, List.map_append, applyAll2_append, List.map_cons,
        List.map_nil]
      simp [applyAll2, add_assoc])
  simpa [applyAll2] using key

theorem axisLoop2_eq {σ : Type} (f : Int → Int → σ → σ) (h1 h2 : HandleND) (dim : Nat)
    (block : Int → Int → List (Int × Int))
    (body : HandleND × HandleND × σ → Option (HandleND × HandleND × σ))
    (hbody : ∀ (p1 p2 : Int) (t : σ), body (⟨h1.strides_, p1⟩, ⟨h2.strides_, p2⟩, t) =
      some (⟨h1.strides_, p1 + h1.strides_.getD dim 0⟩, ⟨h2.strides_, p2 + h2.strides_.getD dim 0⟩,
        applyAll2 f t (block p1 p2)))
    (n : Nat) (s : σ) :
    forLoop body n (h1, h2, s) =
      some (⟨h1.strides_, h1.data_ + (n : Int) * h1.strides_.getD dim 0⟩,
        ⟨h2.strides_, h2.data_ + (n : Int) * h2.strides_.getD dim 0⟩,
        applyAll2 f s ((List.range n).flatMap
          (fun i => block (h1.data_ + (i : Int) * h1.strides_.getD dim 0)
            (h2.data_ + (i : Int) * h2.strides_.getD dim 0)))) := by
  have key := forLoop_eq body n
    (fun i => ((⟨h1.strides_, h1.data_ + (i : Int) * h1.strides_.getD dim 0⟩ : HandleND),
      (⟨h2.strides_, h2.data_ + (i : Int) * h2.strides_.getD dim 0⟩ : HandleND),
      applyAll2 f s ((List.range i).flatMap
          (fun j => block (h1.data_ + (j : Int) * h1.strides_.getD dim 0)
            (h2.data_ + (j : Int) * h2.strides_.getD dim 0)))))
    (by
      intro i _
      simp only [hbody, List.range_succ, List.flatMap_append, applyAll2_append,
        List.flatMap_cons, List.flatMap_nil, List.append_nil]
      simp only [Option.some.injEq, Prod.mk.injEq, HandleND.mk.injEq, true_and, and_true]
      constructor <;> (push_cast; ring))
  simpa [applyAll2] using key

theorem genericArrayFunctionImpl2Aux_eq {σ : Type} (shape : List Int) (f : Int → Int → σ → σ)
    (hnn : ∀ x ∈ shape, 0 ≤ x) :
    ∀ (rest dim : Nat) (h1 h2 : HandleND) (s : σ), rest + dim = shape.length → 0 < rest →
      shape.length = h1.strides_.length → shape.length = h2.strides_.length →
      genericArrayFunctionImpl2Aux shape f rest dim (h1, h2, s) =
        some (h1, h2, applyAll2 f s
          (offsetsFrom2 (shape.drop dim) (h1.strides_.drop dim) (h2.strides_.drop dim)
            h1.data_ h2.data_)) := by
  intro rest
  induction rest with
  | zero => intro dim h1 h2 s _ hpos; omega
  | succ rest ih =>
    intro dim h1 h2 s hdim _ hlen1 hlen2
    have hlt : dim < shape.length := by omega
    unfold genericArrayFunctionImpl2Aux
    simp only [not_lt, Nat.not_le.mpr hlt, if_false]
    by_cases hflat : h1.isConsecutive shape dim ≠ 0 ∧
        h1.isConsecutive shape dim = h2.isConsecutive shape dim
    · rw [if_pos hflat]
      obtain ⟨hne, heq⟩ := hflat
      have hne2 : h2.isConsecutive shape dim ≠ 0 := heq ▸ hne
      rw [isConsecutive_eq h1 shape dim hlen1] at hne
      rw [isConsecutive_eq h2 shape dim hlen2] at hne2
      have hc1 : ContiguousFrom h1.strides_ shape dim := by
        by_contra hc; rw [if_neg hc] at hne; exact hne rfl
      have hc2 : ContiguousFrom h2.strides_ shape dim := by
        by_contra hc; rw [if_neg hc] at hne2; exact hne2 rfl
      rw [isConsecutive_eq h1 shape dim hlen1, if_pos hc1, HandleND.ptr, HandleND.ptr,
        flatLoop2_eq, offsetsFrom2_eq_zip,
        offsetsFrom_contiguous shape h1.strides_ hlen1 hnn (rest + 1) dim h1.data_ hdim hc1,
        offsetsFrom_contiguous shape h2.strides_ hlen2 hnn (rest + 1) dim h2.data_ hdim hc2,
        List.zip_map']
      rfl
    · rw [if_neg hflat]
      have hN := getD_nonneg shape hnn dim
      have hcast : (((shape.getD dim 0).toNat : Nat) : Int) = shape.getD dim 0 :=
        Int.toNat_of_nonneg hN
      have hfinal : ∀ (t : σ),
          Option.map (fun (hs : HandleND × HandleND × σ) =>
              (hs.1.move dim (-(shape.getD dim 0)), hs.2.1.move dim (-(shape.getD dim 0)),
                hs.2.2))
            (some ((⟨h1.strides_, h1.data_ +
              ((shape.getD dim 0).toNat : Int) * h1.strides_.getD dim 0⟩ : HandleND),
              (⟨h2.strides_, h2.data_ +
              ((shape.getD dim 0).toNat : Int) * h2.strides_.getD dim 0⟩ : HandleND), t)) =
            some (h1, h2, t) := by
        intro t
        simp only [Option.map_some', HandleND.move, hcast]
        congr 2
        · cases h1
          simp only [HandleND.mk.injEq, true_and]
          ring
        · congr 1
          cases h2
          simp only [HandleND.mk.injEq, true_and]
          ring
      rw [drop_eq_getD_cons shape dim hlt, drop_eq_getD_cons h1.strides_ dim (by omega),
        drop_eq_getD_cons h2.strides_ dim (by omega), offsetsFrom2_cons]
      by_cases hlast : dim = shape.length - 1
      · rw [if_pos hlast]
        have e1 : shape.drop (dim + 1) = [] := List.drop_eq_nil_of_le (by omega)
        rw [axisLoop2_eq f h1 h2 dim (fun p1 p2 => [(p1, p2)]) _ (by
          intro p1 p2 t
          simp [HandleND.inc, applyAll2]), hfinal, e1]
        simp only [offsetsFrom2_nil]
      · rw [if_neg hlast]
        rw [axisLoop2_eq f h1 h2 dim
          (fun p1 p2 => offsetsFrom2 (shape.drop (dim + 1)) (h1.strides_.drop (dim + 1))
            (h2.strides_.drop (dim + 1)) p1 p2) _ (by
            intro p1 p2 t
            rw [ih (dim + 1) ⟨h1.strides_, p1⟩ ⟨h2.strides_, p2⟩ t (by omega) (by omega)
              hlen1 hlen2]
            simp [HandleND.inc]), hfinal]

/-! ## std::sort -/

theorem rdropWhile_append_rtakeWhile {α : Type} (p : α → Bool) (l : List α) :
    l.rdropWhile p ++ l.rtakeWhile p = l := by
  unfold List.rdropWhile List.rtakeWhile
  rw [← List.reverse_append, List.takeWhile_append_dropWhile, List.reverse_reverse]

theorem unguardedLinearInsert_perm {α : Type} (comp : α → α → Bool) (val : α) (l : List α) :
    (unguardedLinearInsert comp val l).Perm (val :: l) := by
  unfold unguardedLinearInsert
  have h := rdropWhile_append_rtakeWhile (comp val) l
  calc (l.rdropWhile (comp val) ++ val :: l.rtakeWhile (comp val)).Perm
        (val :: (l.rdropWhile (comp val) ++ l.rtakeWhile (comp val))) := List.perm_middle
    _ = val :: l := by rw [h]

theorem insertionSortStep_perm {α : Type} (comp : α → α → Bool) (acc : List α) (val : α) :
    (insertionSortStep comp acc val).Perm (val :: acc) := by
  unfold insertionSortStep
  cases acc with
  | nil => exact List.Perm.refl _
  | cons first tl =>
    simp only
    split
    · exact List.Perm.refl _
    · exact unguardedLinearInsert_perm comp val _

theorem foldl_insertionSortStep_perm {α : Type} (comp : α → α → Bool) (l : List α) :
    ∀ acc : List α, (l.foldl (insertionSortStep comp) acc).Perm (acc ++ l) := by
  induction l with
  | nil => intro acc; simp
  | cons x l ih =>
    intro acc
    rw [List.foldl_cons]
    refine (ih _).trans ?_
    have h1 : (insertionSortStep comp acc x ++ l).Perm ((x :: acc) ++ l) :=
      (insertionSortStep_perm comp acc x).append_right l
    refine h1.trans ?_
    simpa using (List.perm_middle : (acc ++ x :: l).Perm (x :: (acc ++ l))).symm

/-- The result of `std::sort` is a rearrangement of its input, whatever the comparator. -/
theorem stdSort_perm {α : Type} (comp : α → α → Bool) (l : List α) :
    (stdSort comp l).Perm l := by
  simpa [stdSort] using foldl_insertionSortStep_perm comp l []

theorem StrictWeakOn.asymm {α : Type} {comp : α → α → Bool} {S : α → Prop}
    (hs : StrictWeakOn comp S) (a b : α) (ha : S a) (hb : S b) (hab : comp a b = true) :
    comp b a = false := by
  by_contra hba
  have hba1 : comp b a = true := by simpa using hba
  have := hs.trans a b a ha hb ha hab hba1
  rw [hs.irrefl a ha] at this
  exact Bool.noConfusion this

theorem insertionSortStep_sorted {α : Type} (comp : α → α → Bool) (S : α → Prop)
    (hs : StrictWeakOn comp S) (acc : List α) (val : α) (hacc : ∀ e ∈ acc, S e) (hval : S val)
    (hsorted : acc.Pairwise (fun a b => comp b a = false)) :
    (insertionSortStep comp acc val).Pairwise (fun a b => comp b a = false) := by
  unfold insertionSortStep
  cases acc with
  | nil => simp
  | cons first tl =>
    simp only
    split
    · rename_i hfirst
      rw [List.pairwise_cons]
      refine ⟨?_, hsorted⟩
      intro e he
      rw [List.pairwise_cons] at hsorted
      rcases List.mem_cons.mp he with rfl | hetl
      · exact hs.asymm val e hval (hacc e (List.mem_cons_self _ _)) hfirst
      · by_contra hc
        have hc1 : comp e val = true := by simpa using hc
        have hS : S e := hacc e he
        have := hs.trans e val first hS hval (hacc first (List.mem_cons_self _ _)) hc1 hfirst
        rw [hsorted.1 e hetl] at this
        exact Bool.noConfusion this
    · unfold unguardedLinearInsert
      have hsplit := rdropWhile_append_rtakeWhile (comp val) (first :: tl)
      rw [← hsplit] at hsorted
      rw [List.pairwise_append] at hsorted
      obtain ⟨hA, hB, hAB⟩ := hsorted
      have hmemA : ∀ e ∈ (first :: tl).rdropWhile (comp val), S e := by
        intro e he
        apply hacc
        rw [← hsplit]
        exact List.mem_append_left _ he
      have hmemB : ∀ e ∈ (first :: tl).rtakeWhile (comp val), S e := by
        intro e he
        apply hacc
        rw [← hsplit]
        exact List.mem_append_right _ he
      rw [List.pairwise_append]
      refine ⟨hA, ?_, ?_⟩
      · rw [List.pairwise_cons]
        refine ⟨?_, hB⟩
        intro b hb
        exact hs.asymm val b hval (hmemB b hb) (List.mem_rtakeWhile_imp hb)
      · intro a ha b hb
        rcases List.mem_cons.mp hb with rfl | hbB
        · have hne : (first :: tl).rdropWhile (comp b) ≠ [] := List.ne_nil_of_mem ha
          have hlast := List.rdropWhile_last_not (comp b) (first :: tl) hne
          have hlast1 : comp b (((first :: tl).rdropWhile (comp b)).getLast hne) = false := by
            simpa using hlast
          have hlastS : S (((first :: tl).rdropWhile (comp b)).getLast hne) :=
            hmemA _ (List.getLast_mem hne)
          rw [← List.dropLast_append_getLast hne] at ha hA
          rcases List.mem_append.mp ha with ha1 | ha2
          · rw [List.pairwise_append] at hA
            have h2 := hA.2.2 a ha1 _ (List.mem_singleton_self _)
            exact hs.negTrans b _ a hval hlastS
              (hmemA a (by
                have := List.mem_append_left
                  [((first :: tl).rdropWhile (comp b)).getLast hne] ha1
                rw [List.dropLast_append_getLast hne] at this
                exact this)) hlast1 h2
          · rw [List.mem_singleton] at ha2
            rw [ha2]
            exact hlast1
        · exact hAB a ha b hbB

theorem foldl_insertionSortStep_sorted {α : Type} (comp : α → α → Bool) (S : α → Prop)
    (hs : StrictWeakOn comp S) (l : List α) (hl : ∀ e ∈ l, S e) :
    ∀ acc : List α, (∀ e ∈ acc, S e) → acc.Pairwise (fun a b => comp b a = false) →
      (l.foldl (insertionSortStep comp) acc).Pairwise (fun a b => comp b a = false) := by
  induction l with
  | nil => intro acc _ h; simpa using h
  | cons x l ih =>
    intro acc hacc hsorted
    rw [List.foldl_cons]
    apply ih (fun e he => hl e (List.mem_cons_of_mem _ he))
    · intro e he
      have := (insertionSortStep_perm comp acc x).mem_iff.mp he
      rcases List.mem_cons.mp this with rfl | h
      · exact hl _ (List.mem_cons_self _ _)
      · exact hacc e h
    · exact insertionSortStep_sorted comp S hs acc x hacc (hl x (List.mem_cons_self _ _)) hsorted

/-- For a comparator that is a strict weak ordering on the elements of the input, the
result of `std::sort` is sorted: no element is less than one that precedes it. -/
theorem stdSort_sorted {α : Type} (comp : α → α → Bool) (S : α → Prop)
    (hs : StrictWeakOn comp S) (l : List α) (hl : ∀ e ∈ l, S e) :
    (stdSort comp l).Pairwise (fun a b => comp b a = false) :=
  foldl_insertionSortStep_sorted comp S hs l hl [] (by simp) List.Pairwise.nil

/-! ## Coordinates and axis permutations -/

theorem mem_coordinates_iff (shape : List Int) :
    ∀ c : List Int, c ∈ coordinates shape ↔ List.Forall₂ (fun ci n => 0 ≤ ci ∧ ci < n) c shape := by
  induction shape with
  | nil =>
    intro c
    simp [coordinates]
  | cons n rest ih =>
    intro c
    simp only [coordinates, List.mem_flatMap, List.mem_range, List.mem_map]
    constructor
    · rintro ⟨i, hi, c1, hc1, rfl⟩
      refine List.Forall₂.cons ⟨by omega, by omega⟩ ((ih c1).mp hc1)
    · intro h
      cases h with
      | cons hhead htail =>
        rename_i ci c1
        refine ⟨ci.toNat, by omega, c1, (ih c1).mpr htail, ?_⟩
        rw [Int.toNat_of_nonneg hhead.1]

theorem coordinates_nodup (shape : List Int) : (coordinates shape).Nodup := by
  induction shape with
  | nil => simp [coordinates]
  | cons n rest ih =>
    simp only [coordinates]
    rw [List.nodup_flatMap]
    refine ⟨?_, ?_⟩
    · intro i _
      exact ih.map (fun a b hab => by simpa using hab)
    · refine (List.nodup_range _).pairwise_of_forall_ne ?_
      intro i _ j _ hij
      simp only [Function.onFun, List.Disjoint, List.mem_map]
      rintro c ⟨c1, _, rfl⟩ ⟨c2, _, h2⟩
      simp only [List.cons.injEq, Nat.cast_inj] at h2
      exact hij h2.1.symm

theorem length_flatMap_const {α β : Type} (l : List α) (f : α → List β) (m : Nat)
    (h : ∀ a ∈ l, (f a).length = m) : (l.flatMap f).length = l.length * m := by
  induction l with
  | nil => simp
  | cons a l ih =>
    rw [List.flatMap_cons, List.length_append, h a (List.mem_cons_self _ _),
      ih (fun b hb => h b (List.mem_cons_of_mem _ hb)), List.length_cons]
    ring

theorem coordinates_length (shape : List Int) (hnn : ∀ x ∈ shape, 0 ≤ x) :
    (coordinates shape).length = (prod shape).toNat := by
  induction shape with
  | nil => simp [coordinates, prod]
  | cons n rest ih =>
    have hrest : ∀ x ∈ rest, 0 ≤ x := fun x hx => hnn x (List.mem_cons_of_mem _ hx)
    have hn : 0 ≤ n := hnn n (List.mem_cons_self _ _)
    simp only [coordinates]
    rw [length_flatMap_const _ _ (coordinates rest).length (by intro a _; simp),
      List.length_range, ih hrest]
    have : prod (n :: rest) = n * prod rest := by simp [prod]
    rw [this, toNat_mul_of_nonneg n (prod rest) hn (prod_nonneg_of rest hrest)]

theorem offsetsFrom_length (shape strides : List Int) (base : Int) (hnn : ∀ x ∈ shape, 0 ≤ x) :
    ((offsetsFrom shape strides base).length : Int) = prod shape := by
  rw [offsetsFrom, List.length_map, coordinates_length shape hnn,
    Int.toNat_of_nonneg (prod_nonneg_of shape hnn)]

theorem offsetsFrom_eq_offsetsOfAxes (shape : List Int) :
    ∀ (strides : List Int) (base : Int), shape.length = strides.length →
      offsetsFrom shape strides base = offsetsOfAxes (shape.zip strides) base := by
  induction shape with
  | nil =>
    intro strides base _
    rw [offsetsFrom_nil]
    simp [offsetsOfAxes]
  | cons n rest ih =>
    intro strides base hlen
    cases strides with
    | nil => simp at hlen
    | cons st strides =>
      rw [offsetsFrom_cons, List.zip_cons_cons, offsetsOfAxes]
      congr 1
      funext i
      exact ih strides _ (by simpa using hlen)

theorem offsetsOfAxes_perm {l1 l2 : List (Int × Int)} (hp : l1.Perm l2) :
    ∀ base : Int, (offsetsOfAxes l1 base).Perm (offsetsOfAxes l2 base) := by
  induction hp with
  | nil => intro base; exact List.Perm.refl _
  | cons x _ ih =>
    intro base
    obtain ⟨n, st⟩ := x
    simp only [offsetsOfAxes]
    exact List.Perm.flatMap_left _ (fun i _ => ih _)
  | swap x y l =>
    intro base
    obtain ⟨nx, sx⟩ := x
    obtain ⟨ny, sy⟩ := y
    simp only [offsetsOfAxes]
    rw [← Multiset.coe_eq_coe]
    simp only [← Multiset.coe_bind]
    rw [Multiset.bind_bind]
    congr 1
    funext i
    congr 1
    funext j
    congr 2
    ring
  | trans _ _ ih1 ih2 =>
    intro base
    exact (ih1 base).trans (ih2 base)

theorem zip_eq_map_range (shape strides : List Int) (hlen : shape.length = strides.length) :
    shape.zip strides =
      (List.range shape.length).map (fun k => (shape.getD k 0, strides.getD k 0)) := by
  apply List.ext_getElem
  · simp [hlen]
  · intro i h1 h2
    simp only [List.length_zip, lt_min_iff] at h1
    simp [List.getElem?_eq_getElem h1.1, List.getElem?_eq_getElem h1.2]

theorem zip_transpose_perm (shape strides : List Int) (p : List Nat)
    (hlen : shape.length = strides.length) (hp : p.Perm (List.range shape.length)) :
    ((transpose shape p).zip (transpose strides p)).Perm (shape.zip strides) := by
  rw [zip_eq_map_range shape strides hlen]
  simp only [transpose, List.zip_map']
  exact hp.map _

/-- Relabelling the axes of an array by a permutation rearranges the element addresses
without adding or losing any. -/
theorem offsetsFrom_transpose_perm (shape strides : List Int) (p : List Nat) (base : Int)
    (hlen : shape.length = strides.length) (hp : p.Perm (List.range shape.length)) :
    (offsetsFrom (transpose shape p) (transpose strides p) base).Perm
      (offsetsFrom shape strides base) := by
  rw [offsetsFrom_eq_offsetsOfAxes _ _ _ (by simp [transpose]),
    offsetsFrom_eq_offsetsOfAxes _ _ _ hlen]
  exact offsetsOfAxes_perm (zip_transpose_perm shape strides p hlen hp) base

theorem permutationToOrder_perm (shape stride : List Int) (order : MemoryOrder) :
    (permutationToOrder shape stride order).Perm (List.range shape.length) := by
  unfold permutationToOrder
  simp only
  split <;> exact stdSort_perm _ _

theorem transpose_nonneg (shape : List Int) (p : List Nat) (hnn : ∀ x ∈ shape, 0 ≤ x) :
    ∀ x ∈ transpose shape p, 0 ≤ x := by
  intro x hx
  simp only [transpose, List.mem_map] at hx
  obtain ⟨k, _, rfl⟩ := hx
  exact getD_nonneg shape hnn k

/-! ## The traversal contracts -/

theorem applyAll_logCall (l : List Int) : ∀ acc : List Int, applyAll logCall acc l = acc ++ l := by
  induction l with
  | nil => intro acc; simp [applyAll]
  | cons a l ih =>
    intro acc
    have := ih (acc ++ [a])
    simp only [applyAll, List.foldl_cons, logCall] at this ⊢
    rw [this]
    simp

theorem applyAll2_logCall2 (l : List (Int × Int)) :
    ∀ acc : List (Int × Int), applyAll2 logCall2 acc l = acc ++ l := by
  induction l with
  | nil => intro acc; simp [applyAll2]
  | cons a l ih =>
    intro acc
    have := ih (acc ++ [a])
    simp only [applyAll2, List.foldl_cons, logCall2] at this ⊢
    rw [this]
    simp

theorem genericArrayFunctionImpl_eq {σ : Type} (h : HandleND) (shape : List Int)
    (f : Int → σ → σ) (dim : Nat) (s : σ) (hnn : ∀ x ∈ shape, 0 ≤ x) (hdim : dim < shape.length)
    (hlen : h.strides_.length = shape.length) :
    genericArrayFunctionImpl h shape f dim s =
      some (h, applyAll f s (offsetsFrom (shape.drop dim) (h.strides_.drop dim) h.data_)) :=
  genericArrayFunctionImplAux_eq shape f hnn (shape.length - dim) dim h s (by omega) (by omega)
    hlen.symm

theorem genericArrayFunctionImpl2_eq {σ : Type} (h1 h2 : HandleND) (shape : List Int)
    (f : Int → Int → σ → σ) (dim : Nat) (s : σ) (hnn : ∀ x ∈ shape, 0 ≤ x)
    (hdim : dim < shape.length) (hlen1 : h1.strides_.length = shape.length)
    (hlen2 : h2.strides_.length = shape.length) :
    genericArrayFunctionImpl2 h1 h2 shape f dim s =
      some (h1, h2, applyAll2 f s
        (offsetsFrom2 (shape.drop dim) (h1.strides_.drop dim) (h2.strides_.drop dim)
          h1.data_ h2.data_)) :=
  genericArrayFunctionImpl2Aux_eq shape f hnn (shape.length - dim) dim h1 h2 s (by omega)
    (by omega) hlen1.symm hlen2.symm

theorem genericArrayFunction_eq {σ : Type} (a : ArrayND) (f : Int → σ → σ) (s : σ)
    (hrank : 1 ≤ a.shape.length) (hlen : a.strides.length = a.shape.length)
    (hnn : ∀ x ∈ a.shape, 0 ≤ x) :
    genericArrayFunction a f s =
      some (applyAll f s
        (offsetsFrom (transpose a.shape (permutationToOrder a.shape a.strides MemoryOrder.C_ORDER))
          (transpose a.strides (permutationToOrder a.shape a.strides MemoryOrder.C_ORDER))
          a.data)) := by
  have hplen : (permutationToOrder a.shape a.strides MemoryOrder.C_ORDER).length =
      a.shape.length := by
    rw [(permutationToOrder_perm a.shape a.strides MemoryOrder.C_ORDER).length_eq,
      List.length_range]
  unfold genericArrayFunction
  simp only
  rw [genericArrayFunctionImpl_eq _ _ f 0 s (transpose_nonneg _ _ hnn)
    (by simp [transpose, hplen]; omega) (by simp [transpose, ArrayND.handle])]
  simp [ArrayND.handle, ArrayND.data, ArrayND.strides]

/-- C1: for an array of rank at least 1 whose shape entries are all at least 1, with any
strides, the one-array traversal `genericArrayFunction` applies the operation to a sequence
`calls` of element addresses of length `prod(shape)`, and as a multiset `calls` is the
multiset of the addresses `data + dot(c, strides)` of all coordinates `c` of the shape:
every coordinate is visited exactly once. The coordinates are those of `coordinates`, which
lists each `c` with `0 <= c[k] < shape[k]` once. -/
theorem genericArrayFunction_visits_each_coordinate_once (a : ArrayND)
    (hrank : 1 ≤ a.shape.length) (hlen : a.strides.length = a.shape.length)
    (hpos : ∀ x ∈ a.shape, 1 ≤ x) :
    ∃ calls : List Int,
      (∀ (σ : Type) (f : Int → σ → σ) (s : σ),
        genericArrayFunction a f s = some (applyAll f s calls)) ∧
      genericArrayFunction a logCall [] = some calls ∧
      (calls.length : Int) = prod a.shape ∧
      (calls : Multiset Int) =
        Multiset.map (fun c => a.data + dot c a.strides)
          (coordinates a.shape : Multiset (List Int)) ∧
      (coordinates a.shape).Nodup ∧
      (∀ c, c ∈ coordinates a.shape ↔
        List.Forall₂ (fun ci n => 0 ≤ ci ∧ ci < n) c a.shape) := by
  have hnn : ∀ x ∈ a.shape, 0 ≤ x := fun x hx => le_trans (by decide) (hpos x hx)
  have hperm := offsetsFrom_transpose_perm a.shape a.strides
    (permutationToOrder a.shape a.strides MemoryOrder.C_ORDER) a.data hlen.symm
    (permutationToOrder_perm a.shape a.strides MemoryOrder.C_ORDER)
  refine ⟨_, fun σ f s => genericArrayFunction_eq a f s hrank hlen hnn, ?_, ?_, ?_,
    coordinates_nodup _, mem_coordinates_iff _⟩
  · rw [genericArrayFunction_eq a logCall [] hrank hlen hnn, applyAll_logCall]
    simp
  · rw [hperm.length_eq]
    exact offsetsFrom_length _ _ _ hnn
  · rw [Multiset.map_coe, Multiset.coe_eq_coe]
    exact hperm

theorem genericArrayFunction_visits_each_coordinate_once_witness :
    ∃ calls : List Int,
      (∀ (σ : Type) (f : Int → σ → σ) (s : σ),
        genericArrayFunction ⟨[2, 3], [1, 4], 100⟩ f s = some (applyAll f s calls)) ∧
      genericArrayFunction ⟨[2, 3], [1, 4], 100⟩ logCall [] = some calls ∧
      (calls.length : Int) = prod [2, 3] ∧
      (calls : Multiset Int) =
        Multiset.map (fun c => 100 + dot c [1, 4])
          (coordinates [2, 3] : Multiset (List Int)) ∧
      (coordinates [2, 3]).Nodup ∧
      (∀ c, c ∈ coordinates [2, 3] ↔
        List.Forall₂ (fun ci n => 0 ≤ ci ∧ ci < n) c [2, 3]) :=
  genericArrayFunction_visits_each_coordinate_once ⟨[2, 3], [1, 4], 100⟩ (by decide) (by decide)
    (by decide)

/-- C2: for a shape of rank at least 1 with all entries at least 1 and two array handles
with arbitrary strides of that rank, the two-handle `genericArrayFunctionImpl` from axis 0
applies the operation to the pairs `(h1 + dot(c, strides1), h2 + dot(c, strides2))`, one
pair for each coordinate `c` of the shape in the order of `coordinates` (which lists every
coordinate once): both components always belong to the same coordinate. -/
theorem genericArrayFunctionImpl2_lockstep (h1 h2 : HandleND) (shape : List Int)
    (hrank : 1 ≤ shape.length) (hlen1 : h1.strides_.length = shape.length)
    (hlen2 : h2.strides_.length = shape.length) (hpos : ∀ x ∈ shape, 1 ≤ x) :
    (∀ (σ : Type) (f : Int → Int → σ → σ) (s : σ),
      genericArrayFunctionImpl2 h1 h2 shape f 0 s =
        some (h1, h2, applyAll2 f s
          ((coordinates shape).map
            (fun c => (h1.data_ + dot c h1.strides_, h2.data_ + dot c h2.strides_))))) ∧
    genericArrayFunctionImpl2 h1 h2 shape logCall2 0 [] =
      some (h1, h2, (coordinates shape).map
        (fun c => (h1.data_ + dot c h1.strides_, h2.data_ + dot c h2.strides_))) ∧
    (coordinates shape).Nodup ∧
    (∀ c, c ∈ coordinates shape ↔ List.Forall₂ (fun ci n => 0 ≤ ci ∧ ci < n) c shape) := by
  have hnn : ∀ x ∈ shape, 0 ≤ x := fun x hx => le_trans (by decide) (hpos x hx)
  have key : ∀ (σ : Type) (f : Int → Int → σ → σ) (s : σ),
      genericArrayFunctionImpl2 h1 h2 shape f 0 s =
        some (h1, h2, applyAll2 f s
          ((coordinates shape).map
            (fun c => (h1.data_ + dot c h1.strides_, h2.data_ + dot c h2.strides_)))) := by
    intro σ f s
    rw [genericArrayFunctionImpl2_eq h1 h2 shape f 0 s hnn (by omega) hlen1 hlen2]
    simp [offsetsFrom2]
  refine ⟨key, ?_, coordinates_nodup _, mem_coordinates_iff _⟩
  rw [key, applyAll2_logCall2]
  simp

theorem genericArrayFunctionImpl2_lockstep_witness :
    (∀ (σ : Type) (f : Int → Int → σ → σ) (s : σ),
      genericArrayFunctionImpl2 ⟨[1, 4], 100⟩ ⟨[3, 1], 0⟩ [2, 3] f 0 s =
        some (⟨[1, 4], 100⟩, ⟨[3, 1], 0⟩, applyAll2 f s
          ((coordinates [2, 3]).map
            (fun c => ((100 : Int) + dot c [1, 4], (0 : Int) + dot c [3, 1]))))) ∧
    genericArrayFunctionImpl2 ⟨[1, 4], 100⟩ ⟨[3, 1], 0⟩ [2, 3] logCall2 0 [] =
      some (⟨[1, 4], 100⟩, ⟨[3, 1], 0⟩, (coordinates [2, 3]).map
        (fun c => ((100 : Int) + dot c [1, 4], (0 : Int) + dot c [3, 1]))) ∧
    (coordinates [2, 3]).Nodup ∧
    (∀ c, c ∈ coordinates [2, 3] ↔ List.Forall₂ (fun ci n => 0 ≤ ci ∧ ci < n) c [2, 3]) :=
  genericArrayFunctionImpl2_lockstep ⟨[1, 4], 100⟩ ⟨[3, 1], 0⟩ [2, 3] (by decide) (by decide)
    (by decide) (by decide)

theorem coordinates_eq_nil_of_zero_mem (shape : List Int) (hzero : (0 : Int) ∈ shape) :
    coordinates shape = [] := by
  induction shape with
  | nil => simp at hzero
  | cons n rest ih =>
    simp only [coordinates]
    rcases List.mem_cons.mp hzero with h0 | hrest
    · rw [← h0]
      simp
    · rw [ih hrest]
      simp

/-- C4: for a shape of rank at least 1 with non-negative entries one of which is 0, and
for handles with any strides at any position, the traversal from axis 0 returns with the
state the operation acts on unchanged and every handle where it was, for every operation
and state, in the one-handle and in the two-handle form; with the logging operation the log
of calls stays empty: the operation is invoked zero times. -/
theorem genericArrayFunctionImpl_zero_size (shape : List Int) (hrank : 1 ≤ shape.length)
    (hnn : ∀ x ∈ shape, 0 ≤ x) (hzero : (0 : Int) ∈ shape) :
    (∀ (σ : Type) (h : HandleND) (f : Int → σ → σ) (s : σ), h.strides_.length = shape.length →
      genericArrayFunctionImpl h shape f 0 s = some (h, s)) ∧
    (∀ (σ : Type) (h1 h2 : HandleND) (f : Int → Int → σ → σ) (s : σ),
      h1.strides_.length = shape.length → h2.strides_.length = shape.length →
      genericArrayFunctionImpl2 h1 h2 shape f 0 s = some (h1, h2, s)) ∧
    (∀ (h : HandleND), h.strides_.length = shape.length →
      genericArrayFunctionImpl h shape logCall 0 [] = some (h, [])) ∧
    (∀ (h1 h2 : HandleND), h1.strides_.length = shape.length →
      h2.strides_.length = shape.length →
      genericArrayFunctionImpl2 h1 h2 shape logCall2 0 [] = some (h1, h2, [])) := by
  have hc := coordinates_eq_nil_of_zero_mem shape hzero
  have k1 : ∀ (σ : Type) (h : HandleND) (f : Int → σ → σ) (s : σ),
      h.strides_.length = shape.length →
      genericArrayFunctionImpl h shape f 0 s = some (h, s) := by
    intro σ h f s hlen
    rw [genericArrayFunctionImpl_eq h shape f 0 s hnn (by omega) hlen]
    simp [offsetsFrom, hc, applyAll]
  have k2 : ∀ (σ : Type) (h1 h2 : HandleND) (f : Int → Int → σ → σ) (s : σ),
      h1.strides_.length = shape.length → h2.strides_.length = shape.length →
      genericArrayFunctionImpl2 h1 h2 shape f 0 s = some (h1, h2, s) := by
    intro σ h1 h2 f s hlen1 hlen2
    rw [genericArrayFunctionImpl2_eq h1 h2 shape f 0 s hnn (by omega) hlen1 hlen2]
    simp [offsetsFrom2, hc, applyAll2]
  exact ⟨k1, k2, fun h hlen => k1 _ h logCall [] hlen,
    fun h1 h2 hlen1 hlen2 => k2 _ h1 h2 logCall2 [] hlen1 hlen2⟩

theorem genericArrayFunctionImpl_zero_size_witness :
    (∀ (σ : Type) (h : HandleND) (f : Int → σ → σ) (s : σ),
      h.strides_.length = [2, 0, 3].length →
      genericArrayFunctionImpl h [2, 0, 3] f 0 s = some (h, s)) ∧
    (∀ (σ : Type) (h1 h2 : HandleND) (f : Int → Int → σ → σ) (s : σ),
      h1.strides_.length = [2, 0, 3].length → h2.strides_.length = [2, 0, 3].length →
      genericArrayFunctionImpl2 h1 h2 [2, 0, 3] f 0 s = some (h1, h2, s)) ∧
    (∀ (h : HandleND), h.strides_.length = [2, 0, 3].length →
      genericArrayFunctionImpl h [2, 0, 3] logCall 0 [] = some (h, [])) ∧
    (∀ (h1 h2 : HandleND), h1.strides_.length = [2, 0, 3].length →
      h2.strides_.length = [2, 0, 3].length →
      genericArrayFunctionImpl2 h1 h2 [2, 0, 3] logCall2 0 [] = some (h1, h2, [])) :=
  genericArrayFunctionImpl_zero_size [2, 0, 3] (by decide) (by decide) (by decide)

/-- C5: for an array handle of rank `n`, a shape of length `n` and an axis,
`isConsecutive(shape, axis)` returns `prod(shape[axis..n-1])` when
`strides[k] = prod(shape[k+1..n-1])` for every `k` with `axis <= k < n`, and returns 0 when
one of these equalities fails. -/
theorem isConsecutive_spec (h : HandleND) (shape : List Int) (axis : Nat)
    (hlen : shape.length = h.ndim) :
    ((∀ k, axis ≤ k → k < h.ndim → h.strides_.getD k 0 = prod (shape.drop (k + 1))) →
      h.isConsecutive shape axis = prod (shape.drop axis)) ∧
    ((¬ ∀ k, axis ≤ k → k < h.ndim → h.strides_.getD k 0 = prod (shape.drop (k + 1))) →
      h.isConsecutive shape axis = 0) := by
  have hiff : (∀ k, axis ≤ k → k < h.ndim → h.strides_.getD k 0 = prod (shape.drop (k + 1))) ↔
      ContiguousFrom h.strides_ shape axis := by
    unfold ContiguousFrom HandleND.ndim
    exact ⟨fun H k h1 h2 => H k h2 h1, fun H k h1 h2 => H k h2 h1⟩
  rw [isConsecutive_eq h shape axis hlen, hiff]
  exact ⟨fun hc => if_pos hc, fun hc => if_neg hc⟩

theorem isConsecutive_spec_witness :
    (HandleND.mk [7, 4, 1] 0).isConsecutive [5, 3, 4] 1 = prod (([5, 3, 4] : List Int).drop 1) ∧
    (HandleND.mk [12, 5, 1] 0).isConsecutive [5, 3, 4] 1 = 0 :=
  ⟨(isConsecutive_spec (HandleND.mk [7, 4, 1] 0) [5, 3, 4] 1 (by decide)).1 (by
      intro k h1 h2
      have h3 : k < 3 := h2
      interval_cases k <;> decide),
    (isConsecutive_spec (HandleND.mk [12, 5, 1] 0) [5, 3, 4] 1 (by decide)).2 (by
      intro hall
      have := hall 1 (le_refl _) (by decide)
      revert this
      decide)⟩

/-- C6: for every shape and stride vector and either memory order, `permutationToOrder`
returns a rearrangement of `0 .. n-1` for the rank `n` of the shape, so every axis index
occurs exactly once; for `n <= 1` it is the identity `0 .. n-1`. -/
theorem permutationToOrder_is_permutation (shape stride : List Int) (order : MemoryOrder) :
    (permutationToOrder shape stride order).Perm (List.range shape.length) ∧
    (permutationToOrder shape stride order).Nodup ∧
    (shape.length ≤ 1 → permutationToOrder shape stride order = List.range shape.length) := by
  have hp := permutationToOrder_perm shape stride order
  refine ⟨hp, hp.nodup_iff.mpr (List.nodup_range _), ?_⟩
  intro hle
  have hlen : (List.range shape.length).length ≤ 1 := by simpa using hle
  generalize List.range shape.length = r at hp hlen
  match r, hlen with
  | [], _ => exact List.perm_nil.mp hp
  | [x], _ => exact List.perm_singleton.mp hp

theorem permutationToOrder_is_permutation_witness :
    (permutationToOrder [5] [1] MemoryOrder.F_ORDER).Perm (List.range 1) ∧
    (permutationToOrder [5] [1] MemoryOrder.F_ORDER).Nodup ∧
    permutationToOrder [5] [1] MemoryOrder.F_ORDER = List.range 1 :=
  ⟨(permutationToOrder_is_permutation [5] [1] MemoryOrder.F_ORDER).1,
    (permutationToOrder_is_permutation [5] [1] MemoryOrder.F_ORDER).2.1,
    (permutationToOrder_is_permutation [5] [1] MemoryOrder.F_ORDER).2.2 (by decide)⟩

/-- C8: for shape (2,3), with the first-axis-contiguous strides (1,2) and with the
last-axis-contiguous strides (3,1), after the permutation that `genericArrayFunction`
computes (`permutationToOrder` with `C_ORDER`) is applied to shape and strides,
`isConsecutive` at axis 0 is 6 in both cases; the two permutations, (1,0) and (0,1),
differ. -/
theorem isConsecutive_shape_2_3 :
    shapeToStrides [2, 3] MemoryOrder.F_ORDER = [1, 2] ∧
    shapeToStrides [2, 3] MemoryOrder.C_ORDER = [3, 1] ∧
    permutationToOrder [2, 3] [1, 2] MemoryOrder.C_ORDER = [1, 0] ∧
    permutationToOrder [2, 3] [3, 1] MemoryOrder.C_ORDER = [0, 1] ∧
    ((ArrayND.mk [2, 3] [1, 2] 0).handle
        (permutationToOrder [2, 3] [1, 2] MemoryOrder.C_ORDER)).isConsecutive
      (transpose [2, 3] (permutationToOrder [2, 3] [1, 2] MemoryOrder.C_ORDER)) 0 = 6 ∧
    ((ArrayND.mk [2, 3] [3, 1] 0).handle
        (permutationToOrder [2, 3] [3, 1] MemoryOrder.C_ORDER)).isConsecutive
      (transpose [2, 3] (permutationToOrder [2, 3] [3, 1] MemoryOrder.C_ORDER)) 0 = 6 ∧
    permutationToOrder [2, 3] [1, 2] MemoryOrder.C_ORDER ≠
      permutationToOrder [2, 3] [3, 1] MemoryOrder.C_ORDER := by
  decide

/-! ## The two-array entry point -/

/-- C10: in the two-array `genericArrayFunction(a1, a2, f)` with a mutable destination, the
temporary is constructed, and the traversal runs against the handle of the temporary and on
the state in which the copy was made, if and only if neither `q1 <= p2 or q2 <= p1` nor
`p1 <= p2 and a1.strides() == a2.strides()` holds; in every other case the second handle is
the handle of `a2` itself, at `a2.data()`, and no copy is made. Here `p` is the data pointer
and `q` the address one past the element at coordinate `a1.shape() - 1`. -/
theorem genericArrayFunction2_temporary_iff {σ : Type} (mkTemp : ArrayND → σ → ArrayND × σ)
    (a1 a2 : ArrayND) (f : Int → Int → σ → σ) (s : σ) :
    let last := a1.shape.map (fun n => n - 1)
    let p1 := a1.data
    let q1 := a1.addressOf last + 1
    let p2 := a2.data
    let q2 := a2.addressOf last + 1
    let p := permutationToOrder a1.shape a1.strides MemoryOrder.C_ORDER
    let run := genericArrayFunction2 mkTemp a1 a2 f s
    (run.temporary = true ↔
      (¬ (q1 ≤ p2 ∨ q2 ≤ p1) ∧ ¬ (p1 ≤ p2 ∧ a1.strides = a2.strides))) ∧
    (run.temporary = true →
      run.h2 = (mkTemp a2 s).1.handle p ∧
      run.result = (genericArrayFunctionImpl2 (a1.handle p) ((mkTemp a2 s).1.handle p)
        (transpose a1.shape p) f 0 (mkTemp a2 s).2).map (fun r => r.2.2)) ∧
    (run.temporary = false →
      run.h2 = a2.handle p ∧ run.h2.data_ = a2.data ∧
      run.result = (genericArrayFunctionImpl2 (a1.handle p) (a2.handle p)
        (transpose a1.shape p) f 0 s).map (fun r => r.2.2)) := by
  intro last p1 q1 p2 q2 p run
  by_cases hcond : (q1 ≤ p2 ∨ q2 ≤ p1) ∨ (p1 ≤ p2 ∧ a1.strides = a2.strides)
  · have hrun : run = TwoArrayRun.mk false (a2.handle p)
        ((genericArrayFunctionImpl2 (a1.handle p) (a2.handle p)
          (transpose a1.shape p) f 0 s).map (fun r => r.2.2)) := by
      show genericArrayFunction2 mkTemp a1 a2 f s = _
      unfold genericArrayFunction2
      simp only
      rw [if_pos]
      simpa [Bool.or_eq_true, Bool.and_eq_true, decide_eq_true_eq] using hcond
    rw [hrun]
    refine ⟨?_, ?_, ?_⟩
    · constructor
      · intro h; exact absurd h (by simp)
      · rintro ⟨h1, h2⟩
        rcases hcond with h | h
        · exact absurd h h1
        · exact absurd h h2
    · intro h; exact absurd h (by simp)
    · intro _; exact ⟨rfl, rfl, rfl⟩
  · have hrun : run = TwoArrayRun.mk true ((mkTemp a2 s).1.handle p)
        ((genericArrayFunctionImpl2 (a1.handle p) ((mkTemp a2 s).1.handle p)
          (transpose a1.shape p) f 0 (mkTemp a2 s).2).map (fun r => r.2.2)) := by
      show genericArrayFunction2 mkTemp a1 a2 f s = _
      unfold genericArrayFunction2
      simp only
      rw [if_neg]
      simpa [Bool.or_eq_true, Bool.and_eq_true, decide_eq_true_eq] using hcond
    rw [hrun]
    refine ⟨?_, ?_, ?_⟩
    · simp only [true_iff]
      exact ⟨fun h => hcond (Or.inl h), fun h => hcond (Or.inr h)⟩
    · intro _; exact ⟨rfl, rfl⟩
    · intro h; exact absurd h (by simp)

/-! ## The order computed by permutationToOrder -/

theorem getD_pos_of (shape : List Int) (hpos : ∀ x ∈ shape, 1 ≤ x) (k : Nat)
    (hk : k < shape.length) : 1 ≤ shape.getD k 0 := by
  rw [List.getD_eq_getElem _ _ hk]
  exact hpos _ (List.getElem_mem _)

theorem compC_strictWeak (shape stride : List Int) (hpos : ∀ x ∈ shape, 1 ≤ x) :
    StrictWeakOn (compC shape stride) (fun k => k < shape.length) := by
  constructor
  · intro a _
    simp [compC]
  · intro a b c ha hb hc
    have h1 := getD_pos_of shape hpos a ha
    have h2 := getD_pos_of shape hpos b hb
    have h3 := getD_pos_of shape hpos c hc
    simp only [compC]
    split_ifs <;> simp only [decide_eq_true_eq] <;> omega
  · intro a b c ha hb hc
    have h1 := getD_pos_of shape hpos a ha
    have h2 := getD_pos_of shape hpos b hb
    have h3 := getD_pos_of shape hpos c hc
    simp only [compC]
    split_ifs <;> simp only [decide_eq_false_iff_not] <;> omega

theorem compF_strictWeak (shape stride : List Int) (hpos : ∀ x ∈ shape, 1 ≤ x) :
    StrictWeakOn (compF shape stride) (fun k => k < shape.length) := by
  constructor
  · intro a _
    simp [compF]
  · intro a b c ha hb hc
    have h1 := getD_pos_of shape hpos a ha
    have h2 := getD_pos_of shape hpos b hb
    have h3 := getD_pos_of shape hpos c hc
    simp only [compF]
    split_ifs <;> simp only [decide_eq_true_eq] <;> omega
  · intro a b c ha hb hc
    have h1 := getD_pos_of shape hpos a ha
    have h2 := getD_pos_of shape hpos b hb
    have h3 := getD_pos_of shape hpos c hc
    simp only [compF]
    split_ifs <;> simp only [decide_eq_false_iff_not] <;> omega

theorem permutationToOrder_C_sorted (shape stride : List Int) (hpos : ∀ x ∈ shape, 1 ≤ x) :
    (permutationToOrder shape stride MemoryOrder.C_ORDER).Pairwise
      (fun a b => compC shape stride b a = false) := by
  unfold permutationToOrder
  simp only [if_true]
  exact stdSort_sorted _ _ (compC_strictWeak shape stride hpos) _
    (fun e he => List.mem_range.mp he)

theorem permutationToOrder_F_sorted (shape stride : List Int) (hpos : ∀ x ∈ shape, 1 ≤ x) :
    (permutationToOrder shape stride MemoryOrder.F_ORDER).Pairwise
      (fun a b => compF shape stride b a = false) := by
  unfold permutationToOrder
  simp only [reduceCtorEq, if_false]
  exact stdSort_sorted _ _ (compF_strictWeak shape stride hpos) _
    (fun e he => List.mem_range.mp he)

/-- C9, as the code has it: for a shape whose entries are all at least 1, in the result of
`permutationToOrder(shape, stride, order)` the axes whose length is not 1 are ordered by
non-increasing stride (signed comparison) when the order is `C_ORDER`, the
last-axis-contiguous order, and by non-decreasing stride when it is `F_ORDER`, the
first-axis-contiguous order. -/
theorem permutationToOrder_orders_by_stride (shape stride : List Int)
    (hpos : ∀ x ∈ shape, 1 ≤ x) :
    (((permutationToOrder shape stride MemoryOrder.C_ORDER).filter
        (fun k => decide (shape.getD k 0 ≠ 1))).map (fun k => stride.getD k 0)).Pairwise
      (fun x y => y ≤ x) ∧
    (((permutationToOrder shape stride MemoryOrder.F_ORDER).filter
        (fun k => decide (shape.getD k 0 ≠ 1))).map (fun k => stride.getD k 0)).Pairwise
      (fun x y => x ≤ y) := by
  constructor
  · rw [List.pairwise_map]
    refine ((permutationToOrder_C_sorted shape stride hpos).filter _).imp_of_mem ?_
    intro a b ha hb hab
    simp only [List.mem_filter, decide_eq_true_eq] at ha hb
    simp only [compC, ha.2, hb.2, or_self, if_false, decide_eq_false_iff_not, not_lt] at hab
    exact hab
  · rw [List.pairwise_map]
    refine ((permutationToOrder_F_sorted shape stride hpos).filter _).imp_of_mem ?_
    intro a b ha hb hab
    simp only [List.mem_filter, decide_eq_true_eq] at ha hb
    simp only [compF, ha.2, hb.2, or_self, if_false, decide_eq_false_iff_not, not_lt] at hab
    exact hab

theorem permutationToOrder_orders_by_stride_witness :
    (((permutationToOrder [2, 1, 3] [3, 3, 1] MemoryOrder.C_ORDER).filter
        (fun k => decide (([2, 1, 3] : List Int).getD k 0 ≠ 1))).map
          (fun k => ([3, 3, 1] : List Int).getD k 0)).Pairwise (fun x y => y ≤ x) ∧
    (((permutationToOrder [2, 1, 3] [3, 3, 1] MemoryOrder.F_ORDER).filter
        (fun k => decide (([2, 1, 3] : List Int).getD k 0 ≠ 1))).map
          (fun k => ([3, 3, 1] : List Int).getD k 0)).Pairwise (fun x y => x ≤ y) :=
  permutationToOrder_orders_by_stride [2, 1, 3] [3, 3, 1] (by decide)

/-- C9 as stated fails: for shape (2,3) with strides (1,2), the first-axis-contiguous order
`F_ORDER` yields the axes (0,1), whose strides 1, 2 do not decrease in magnitude, and the
last-axis-contiguous order `C_ORDER` yields the axes (1,0), whose strides 2, 1 do not
increase. -/
theorem permutationToOrder_direction_counterexample :
    permutationToOrder [2, 3] [1, 2] MemoryOrder.F_ORDER = [0, 1] ∧
    ¬ (((permutationToOrder [2, 3] [1, 2] MemoryOrder.F_ORDER).filter
        (fun k => decide (([2, 3] : List Int).getD k 0 ≠ 1))).map
          (fun k => (([1, 2] : List Int).getD k 0).natAbs)).Pairwise (fun x y => y ≤ x) ∧
    permutationToOrder [2, 3] [1, 2] MemoryOrder.C_ORDER = [1, 0] ∧
    ¬ (((permutationToOrder [2, 3] [1, 2] MemoryOrder.C_ORDER).filter
        (fun k => decide (([2, 3] : List Int).getD k 0 ≠ 1))).map
          (fun k => (([1, 2] : List Int).getD k 0).natAbs)).Pairwise (fun x y => x ≤ y) := by
  decide

/-- Outside the shapes with entries at least 1 the order by stride can be lost: for shape
(2,1,0) with strides (5,7,1) the `C_ORDER` comparator puts axis 2 before axis 1 and axis 1
before axis 0, and the result (2,1,0) lists the axes of length other than 1 with strides
1, 5. -/
theorem permutationToOrder_zero_length_example :
    compC [2, 1, 0] [5, 7, 1] 1 0 = true ∧ compC [2, 1, 0] [5, 7, 1] 2 1 = true ∧
    permutationToOrder [2, 1, 0] [5, 7, 1] MemoryOrder.C_ORDER = [2, 1, 0] ∧
    ((permutationToOrder [2, 1, 0] [5, 7, 1] MemoryOrder.C_ORDER).filter
        (fun k => decide (([2, 1, 0] : List Int).getD k 0 ≠ 1))).map
          (fun k => ([5, 7, 1] : List Int).getD k 0) = [1, 5] := by
  decide

/-! ## Contiguous arrays after the permutation -/

theorem transpose_range (v : List Int) : transpose v (List.range v.length) = v := by
  apply List.ext_getElem
  · simp [transpose]
  · intro i h1 h2
    simp [transpose, List.getElem?_eq_getElem h2]

theorem transpose_reverse_range (v : List Int) :
    transpose v (List.range v.length).reverse = v.reverse := by
  have h := transpose_range v
  unfold transpose at h ⊢
  rw [List.map_reverse, h]

theorem prod_transpose_of_perm (shape : List Int) (p : List Nat)
    (hp : p.Perm (List.range shape.length)) : prod (transpose shape p) = prod shape := by
  have h1 : (transpose shape p).Perm (transpose shape (List.range shape.length)) := by
    unfold transpose
    exact hp.map _
  rw [transpose_range] at h1
  unfold prod
  exact h1.prod_eq

theorem shapeToStrides_length (shape : List Int) (order : MemoryOrder) :
    (shapeToStrides shape order).length = shape.length := by
  cases order <;> simp [shapeToStrides]

theorem shapeToStrides_C_getD (shape : List Int) (k : Nat) (hk : k < shape.length) :
    (shapeToStrides shape MemoryOrder.C_ORDER).getD k 0 = prod (shape.drop (k + 1)) := by
  have hk2 : k < (shapeToStrides shape MemoryOrder.C_ORDER).length := by
    rw [shapeToStrides_length]; exact hk
  rw [List.getD_eq_getElem _ _ hk2]
  simp [shapeToStrides]

theorem shapeToStrides_F_getD (shape : List Int) (k : Nat) (hk : k < shape.length) :
    (shapeToStrides shape MemoryOrder.F_ORDER).getD k 0 = prod (shape.take k) := by
  have hk2 : k < (shapeToStrides shape MemoryOrder.F_ORDER).length := by
    rw [shapeToStrides_length]; exact hk
  rw [List.getD_eq_getElem _ _ hk2]
  simp [shapeToStrides]

theorem prod_pos_of (l : List Int) (h : ∀ x ∈ l, 1 ≤ x) : 1 ≤ prod l := by
  unfold prod
  exact List.one_le_prod h

theorem getD_two_le (shape : List Int) (h2 : ∀ x ∈ shape, 2 ≤ x) (k : Nat)
    (hk : k < shape.length) : 2 ≤ shape.getD k 0 := by
  rw [List.getD_eq_getElem _ _ hk]
  exact h2 _ (List.getElem_mem _)

theorem prod_drop_strictAnti (shape : List Int) (h2 : ∀ x ∈ shape, 2 ≤ x) :
    ∀ r l : Nat, l < r → r ≤ shape.length → prod (shape.drop r) < prod (shape.drop l) := by
  have hone : ∀ k, 1 ≤ prod (shape.drop k) := fun k =>
    prod_pos_of _ (fun x hx => le_trans (by decide) (h2 x (List.mem_of_mem_drop hx)))
  have hstep : ∀ k, k < shape.length → prod (shape.drop (k + 1)) < prod (shape.drop k) := by
    intro k hk
    rw [prod_drop_eq shape k hk]
    have := getD_two_le shape h2 k hk
    have := hone (k + 1)
    nlinarith
  intro r
  induction r with
  | zero => intro l hl; omega
  | succ r ih =>
    intro l hl hr
    by_cases hlr : l = r
    · subst hlr; exact hstep l (by omega)
    · exact lt_trans (hstep r (by omega)) (ih l (by omega) (by omega))

theorem prod_take_strictMono (shape : List Int) (h2 : ∀ x ∈ shape, 2 ≤ x) :
    ∀ r l : Nat, l < r → r ≤ shape.length → prod (shape.take l) < prod (shape.take r) := by
  have hone : ∀ k, 1 ≤ prod (shape.take k) := fun k =>
    prod_pos_of _ (fun x hx => le_trans (by decide) (h2 x (List.mem_of_mem_take hx)))
  have hstep : ∀ k, k < shape.length → prod (shape.take k) < prod (shape.take (k + 1)) := by
    intro k hk
    unfold prod
    rw [List.prod_take_succ shape k hk]
    have h3 := h2 _ (List.getElem_mem hk)
    have h4 := hone k
    unfold prod at h4
    nlinarith
  intro r
  induction r with
  | zero => intro l hl; omega
  | succ r ih =>
    intro l hl hr
    by_cases hlr : l = r
    · subst hlr; exact hstep l (by omega)
    · exact lt_trans (ih l (by omega) (by omega)) (hstep r (by omega))

theorem compC_of_no_unit (shape stride : List Int) (h2 : ∀ x ∈ shape, 2 ≤ x) (l r : Nat)
    (hl : l < shape.length) (hr : r < shape.length) :
    compC shape stride l r = decide (stride.getD r 0 < stride.getD l 0) := by
  have h3 := getD_two_le shape h2 l hl
  have h4 := getD_two_le shape h2 r hr
  unfold compC
  rw [if_neg]
  omega

theorem permutationToOrder_C_of_C_contiguous (shape : List Int) (h2 : ∀ x ∈ shape, 2 ≤ x) :
    permutationToOrder shape (shapeToStrides shape MemoryOrder.C_ORDER) MemoryOrder.C_ORDER =
      List.range shape.length := by
  have hpos : ∀ x ∈ shape, 1 ≤ x := fun x hx => le_trans (by decide) (h2 x hx)
  have hperm := permutationToOrder_perm shape (shapeToStrides shape MemoryOrder.C_ORDER)
    MemoryOrder.C_ORDER
  have hsorted := permutationToOrder_C_sorted shape (shapeToStrides shape MemoryOrder.C_ORDER)
    hpos
  refine List.eq_of_perm_of_sorted (r := fun (a b : Nat) => a ≤ b) hperm ?_
    (List.sorted_le_range _)
  refine hsorted.imp_of_mem ?_
  intro a b ha hb hab
  have ha1 : a < shape.length := List.mem_range.mp (hperm.mem_iff.mp ha)
  have hb1 : b < shape.length := List.mem_range.mp (hperm.mem_iff.mp hb)
  rw [compC_of_no_unit shape _ h2 b a hb1 ha1, shapeToStrides_C_getD shape a ha1,
    shapeToStrides_C_getD shape b hb1, decide_eq_false_iff_not] at hab
  by_contra hlt
  exact hab (prod_drop_strictAnti shape h2 (a + 1) (b + 1) (by omega) (by omega))

theorem permutationToOrder_C_of_F_contiguous (shape : List Int) (h2 : ∀ x ∈ shape, 2 ≤ x) :
    permutationToOrder shape (shapeToStrides shape MemoryOrder.F_ORDER) MemoryOrder.C_ORDER =
      (List.range shape.length).reverse := by
  have hpos : ∀ x ∈ shape, 1 ≤ x := fun x hx => le_trans (by decide) (h2 x hx)
  have hperm := permutationToOrder_perm shape (shapeToStrides shape MemoryOrder.F_ORDER)
    MemoryOrder.C_ORDER
  have hsorted := permutationToOrder_C_sorted shape (shapeToStrides shape MemoryOrder.F_ORDER)
    hpos
  refine List.eq_of_perm_of_sorted (r := fun (a b : Nat) => b ≤ a)
    (hperm.trans (List.reverse_perm _).symm) ?_ ?_
  · refine hsorted.imp_of_mem ?_
    intro a b ha hb hab
    have ha1 : a < shape.length := List.mem_range.mp (hperm.mem_iff.mp ha)
    have hb1 : b < shape.length := List.mem_range.mp (hperm.mem_iff.mp hb)
    rw [compC_of_no_unit shape _ h2 b a hb1 ha1, shapeToStrides_F_getD shape a ha1,
      shapeToStrides_F_getD shape b hb1, decide_eq_false_iff_not] at hab
    by_contra hlt
    exact hab (prod_take_strictMono shape h2 b a (by omega) (by omega))
  · exact List.pairwise_reverse.mpr (List.sorted_le_range _)

theorem contiguousFrom_C (shape : List Int) :
    ContiguousFrom (shapeToStrides shape MemoryOrder.C_ORDER) shape 0 := by
  intro k hk _
  rw [shapeToStrides_length] at hk
  exact shapeToStrides_C_getD shape k hk

theorem contiguousFrom_F_reverse (shape : List Int) :
    ContiguousFrom (shapeToStrides shape MemoryOrder.F_ORDER).reverse shape.reverse 0 := by
  intro k hk _
  rw [List.length_reverse, shapeToStrides_length] at hk
  have hk2 : k < (shapeToStrides shape MemoryOrder.F_ORDER).reverse.length := by
    rw [List.length_reverse, shapeToStrides_length]; exact hk
  rw [List.getD_eq_getElem _ _ hk2, List.getElem_reverse, List.drop_reverse]
  have hlenS := shapeToStrides_length shape MemoryOrder.F_ORDER
  have key : ∀ j (hj : j < (shapeToStrides shape MemoryOrder.F_ORDER).length),
      (shapeToStrides shape MemoryOrder.F_ORDER)[j] = prod (shape.take j) := by
    intro j hj
    simp [shapeToStrides]
  rw [key]
  unfold prod
  rw [List.prod_reverse]
  congr 2
  omega

/-- C7, as the code has it: for each of the two memory orders `O` and every shape with
non-negative entries none of which is 1, taking the contiguous strides of the shape under
`O` and the permutation `p = permutationToOrder(shape, strides, C_ORDER)` that the traversal
computes, the handle whose strides are transposed by `p` reports
`isConsecutive(transpose(shape, p), 0) == prod(shape)`. -/
theorem isConsecutive_after_permutation (order : MemoryOrder) (shape : List Int) (data : Int)
    (hshape : ∀ x ∈ shape, 0 ≤ x ∧ x ≠ 1) :
    ((ArrayND.mk shape (shapeToStrides shape order) data).handle
        (permutationToOrder shape (shapeToStrides shape order) MemoryOrder.C_ORDER)).isConsecutive
      (transpose shape
        (permutationToOrder shape (shapeToStrides shape order) MemoryOrder.C_ORDER)) 0 =
      prod shape := by
  have hperm := permutationToOrder_perm shape (shapeToStrides shape order) MemoryOrder.C_ORDER
  by_cases hzero : (0 : Int) ∈ shape
  · have hprod : prod shape = 0 := by
      unfold prod
      exact List.prod_eq_zero hzero
    rw [isConsecutive_eq _ _ _ (by simp [transpose, ArrayND.handle, HandleND.ndim])]
    split
    · rw [List.drop_zero, prod_transpose_of_perm shape _ hperm]
    · exact hprod.symm
  · have h2 : ∀ x ∈ shape, 2 ≤ x := by
      intro x hx
      have h := hshape x hx
      have hne : x ≠ 0 := fun h0 => hzero (h0 ▸ hx)
      omega
    cases order with
    | C_ORDER =>
      rw [permutationToOrder_C_of_C_contiguous shape h2]
      simp only [ArrayND.handle]
      have e1 : transpose (shapeToStrides shape MemoryOrder.C_ORDER) (List.range shape.length) =
          shapeToStrides shape MemoryOrder.C_ORDER := by
        have := transpose_range (shapeToStrides shape MemoryOrder.C_ORDER)
        rwa [shapeToStrides_length] at this
      rw [e1, transpose_range,
        isConsecutive_eq _ _ _ (by simp [HandleND.ndim, shapeToStrides_length]),
        if_pos (contiguousFrom_C shape), List.drop_zero]
    | F_ORDER =>
      rw [permutationToOrder_C_of_F_contiguous shape h2]
      simp only [ArrayND.handle]
      have e1 : transpose (shapeToStrides shape MemoryOrder.F_ORDER)
          (List.range shape.length).reverse =
          (shapeToStrides shape MemoryOrder.F_ORDER).reverse := by
        have := transpose_reverse_range (shapeToStrides shape MemoryOrder.F_ORDER)
        rwa [shapeToStrides_length] at this
      rw [e1, transpose_reverse_range,
        isConsecutive_eq _ _ _ (by simp [HandleND.ndim, shapeToStrides_length]),
        if_pos (contiguousFrom_F_reverse shape), List.drop_zero]
      unfold prod
      exact List.prod_reverse _

theorem isConsecutive_after_permutation_witness :
    ((ArrayND.mk [2, 3, 4] (shapeToStrides [2, 3, 4] MemoryOrder.F_ORDER) 0).handle
        (permutationToOrder [2, 3, 4] (shapeToStrides [2, 3, 4] MemoryOrder.F_ORDER)
          MemoryOrder.C_ORDER)).isConsecutive
      (transpose [2, 3, 4]
        (permutationToOrder [2, 3, 4] (shapeToStrides [2, 3, 4] MemoryOrder.F_ORDER)
          MemoryOrder.C_ORDER)) 0 =
      prod [2, 3, 4] :=
  isConsecutive_after_permutation MemoryOrder.F_ORDER [2, 3, 4] 0 (by decide)

/-- C7 as stated fails. For shape (2,3) under `F_ORDER` the contiguous strides are (1,2),
`permutationToOrder` for `F_ORDER` keeps the axes as (0,1) and `isConsecutive` at axis 0 is
0, not 6. For shape (3,1) under `C_ORDER` the contiguous strides are (1,1), the permutation
is (1,0), which puts the axis of length 1 first, and `isConsecutive` at axis 0 is 0, not 3. -/
theorem isConsecutive_after_permutation_counterexample :
    prod [2, 3] = 6 ∧
    ((ArrayND.mk [2, 3] (shapeToStrides [2, 3] MemoryOrder.F_ORDER) 0).handle
        (permutationToOrder [2, 3] (shapeToStrides [2, 3] MemoryOrder.F_ORDER)
          MemoryOrder.F_ORDER)).isConsecutive
      (transpose [2, 3]
        (permutationToOrder [2, 3] (shapeToStrides [2, 3] MemoryOrder.F_ORDER)
          MemoryOrder.F_ORDER)) 0 = 0 ∧
    prod [3, 1] = 3 ∧
    ((ArrayND.mk [3, 1] (shapeToStrides [3, 1] MemoryOrder.C_ORDER) 0).handle
        (permutationToOrder [3, 1] (shapeToStrides [3, 1] MemoryOrder.C_ORDER)
          MemoryOrder.C_ORDER)).isConsecutive
      (transpose [3, 1]
        (permutationToOrder [3, 1] (shapeToStrides [3, 1] MemoryOrder.C_ORDER)
          MemoryOrder.C_ORDER)) 0 = 0 := by
  decide

/-! ## The scalar handle -/

/-- C16: for a scalar handle `HandleND<0, T>` holding the value `v`, every sequence of the
positional operations `inc()`, `dec()`, `move(d)`, `inc(axis)`, `dec(axis)`,
`move(axis, d)` and `move(diff)` leaves the handle unchanged, and after the sequence `*h`
and `h[index]`, for every `index`, are `v`. -/
theorem HandleND0_positional_ops_noop {T : Type} (v : T) (ops : List PositionalOp)
    (index : List Int) :
    ops.foldl HandleND0.apply (HandleND0.mk v) = HandleND0.mk v ∧
    (ops.foldl HandleND0.apply (HandleND0.mk v)).deref = v ∧
    (ops.foldl HandleND0.apply (HandleND0.mk v)).index index = v := by
  have key : ops.foldl HandleND0.apply (HandleND0.mk v) = HandleND0.mk v := by
    induction ops with
    | nil => rfl
    | cons op ops ih =>
      rw [List.foldl_cons]
      cases op <;> exact ih
  rw [key]
  exact ⟨rfl, rfl, rfl⟩

/-- C17, the code at a contiguous array: the array handle with strides (3,1) over shape
(2,3) and the scalar handle both report `isConsecutive` 6 at axis 0, so the flat loop runs
and the pointer `p2 = h2.ptr()` into the scalar is incremented with `p1`: the operation is
called with the pointers `&data_ + 0, ..., &data_ + 5` for its second argument, of which
only the first points at the value of the scalar. With strides (4,1) the same happens in
each row at axis 1. With strides (6,2) no run is consecutive, the handles are stepped axis
by axis and every call receives the scalar itself. -/
theorem genericArrayFunctionImplScalar_flat_path_leaves_scalar :
    (HandleND.mk [3, 1] 0).isConsecutive [2, 3] 0 = 6 ∧
    (HandleND0.mk (7 : Int)).isConsecutive [2, 3] 0 = 6 ∧
    (genericArrayFunctionImplScalar (HandleND.mk [3, 1] 0) (HandleND0.mk (7 : Int)) [2, 3]
        logCall2 0 []).map (fun r => r.2.2) =
      some [(0, 0), (1, 1), (2, 2), (3, 3), (4, 4), (5, 5)] ∧
    (genericArrayFunctionImplScalar (HandleND.mk [4, 1] 0) (HandleND0.mk (7 : Int)) [2, 3]
        logCall2 0 []).map (fun r => r.2.2) =
      some [(0, 0), (1, 1), (2, 2), (4, 0), (5, 1), (6, 2)] ∧
    (genericArrayFunctionImplScalar (HandleND.mk [6, 2] 0) (HandleND0.mk (7 : Int)) [2, 3]
        logCall2 0 []).map (fun r => r.2.2) =
      some [(0, 0), (2, 0), (4, 0), (6, 0), (8, 0), (10, 0)] := by
  decide

/-! ## Movements of the array handle -/

theorem dot_add_right (st : List Int) :
    ∀ d1 d2 : List Int, d1.length = d2.length →
      dot st (List.zipWith (fun a b => a + b) d1 d2) = dot st d1 + dot st d2 := by
  induction st with
  | nil => intro d1 d2 _; simp [dot]
  | cons s st ih =>
    intro d1 d2 hlen
    cases d1 with
    | nil =>
      cases d2 with
      | nil => simp [dot]
      | cons b d2 => simp at hlen
    | cons a d1 =>
      cases d2 with
      | nil => simp at hlen
      | cons b d2 =>
        simp only [List.zipWith_cons_cons, dot]
        rw [ih d1 d2 (by simpa using hlen)]
        ring

theorem inc_iterate (h : HandleND) (axis : Nat) (n : Nat) :
    (fun x : HandleND => x.inc axis)^[n] h =
      HandleND.mk h.strides_ (h.data_ + (n : Int) * h.strides_.getD axis 0) := by
  induction n generalizing h with
  | zero => simp
  | succ n ih =>
    rw [Function.iterate_succ_apply, ih]
    simp only [HandleND.inc, HandleND.mk.injEq, true_and]
    push_cast
    ring

/-- C20: for an array handle with strides `st`, `inc(axis)` changes the position by
`+st[axis]`, `dec(axis)` by `-st[axis]`, `move(axis, d)` by `d*st[axis]` for every signed
`d` and `move(diff)` by `dot(st, diff)`, and none changes the strides; `move(axis, n)` for
`n >= 0` is `n` applications of `inc(axis)`, `inc(axis)` followed by `dec(axis)` (and the
reverse) is the identity, `move(axis, d1)` followed by `move(axis, d2)` is
`move(axis, d1 + d2)`, and `move(diff1)` followed by `move(diff2)` is
`move(diff1 + diff2)` for coordinate deltas of the same length. -/
theorem HandleND_movements (h : HandleND) (axis : Nat) (d d1 d2 : Int)
    (diff diff1 diff2 : List Int) (hlen : diff1.length = diff2.length) :
    (h.inc axis = HandleND.mk h.strides_ (h.data_ + h.strides_.getD axis 0)) ∧
    (h.dec axis = HandleND.mk h.strides_ (h.data_ - h.strides_.getD axis 0)) ∧
    (h.move axis d = HandleND.mk h.strides_ (h.data_ + d * h.strides_.getD axis 0)) ∧
    (h.moveBy diff = HandleND.mk h.strides_ (h.data_ + dot h.strides_ diff)) ∧
    (∀ n : Nat, h.move axis (n : Int) = (fun x : HandleND => x.inc axis)^[n] h) ∧
    ((h.inc axis).dec axis = h) ∧
    ((h.dec axis).inc axis = h) ∧
    ((h.move axis d1).move axis d2 = h.move axis (d1 + d2)) ∧
    ((h.moveBy diff1).moveBy diff2 =
      h.moveBy (List.zipWith (fun a b => a + b) diff1 diff2)) := by
  refine ⟨rfl, rfl, ?_, rfl, ?_, ?_, ?_, ?_, ?_⟩
  · simp only [HandleND.move, HandleND.mk.injEq, true_and]
    ring
  · intro n
    rw [inc_iterate]
    simp only [HandleND.move, HandleND.mk.injEq, true_and]
    ring
  · cases h
    simp [HandleND.inc, HandleND.dec]
  · cases h
    simp [HandleND.inc, HandleND.dec]
  · simp only [HandleND.move, HandleND.mk.injEq, true_and]
    ring
  · simp only [HandleND.moveBy, HandleND.mk.injEq, true_and]
    rw [dot_add_right _ _ _ hlen]
    ring

theorem HandleND_movements_witness :
    ((HandleND.mk [3, 1] 10).inc 0 = HandleND.mk [3, 1] (10 + ([3, 1] : List Int).getD 0 0)) ∧
    ((HandleND.mk [3, 1] 10).dec 0 = HandleND.mk [3, 1] (10 - ([3, 1] : List Int).getD 0 0)) ∧
    ((HandleND.mk [3, 1] 10).move 0 (-2) =
      HandleND.mk [3, 1] (10 + (-2) * ([3, 1] : List Int).getD 0 0)) ∧
    ((HandleND.mk [3, 1] 10).moveBy [1, 2] = HandleND.mk [3, 1] (10 + dot [3, 1] [1, 2])) ∧
    (∀ n : Nat, (HandleND.mk [3, 1] 10).move 0 (n : Int) =
      (fun x : HandleND => x.inc 0)^[n] (HandleND.mk [3, 1] 10)) ∧
    (((HandleND.mk [3, 1] 10).inc 0).dec 0 = HandleND.mk [3, 1] 10) ∧
    (((HandleND.mk [3, 1] 10).dec 0).inc 0 = HandleND.mk [3, 1] 10) ∧
    (((HandleND.mk [3, 1] 10).move 0 4).move 0 (-1) = (HandleND.mk [3, 1] 10).move 0 (4 + -1)) ∧
    (((HandleND.mk [3, 1] 10).moveBy [1, 2]).moveBy [-1, 5] =
      (HandleND.mk [3, 1] 10).moveBy (List.zipWith (fun a b => a + b) [1, 2] [-1, 5])) :=
  HandleND_movements (HandleND.mk [3, 1] 10) 0 (-2) 4 (-1) [1, 2] [1, 2] [-1, 5] (by decide)

/-! ## The chained handle -/

theorem HandleNDChain.index_eq_length (c : HandleNDChain) : c.index = c.links.length := by
  induction c with
  | shapeHandle p s => rfl
  | link h next ih => simp [HandleNDChain.index, HandleNDChain.links, ih]

theorem HandleChainCast_spec (K : Nat) (c : HandleNDChain) :
    ∀ c1, HandleChainCast K c = some c1 →
      c1.index = K ∧ c1.coord = c.coord ∧ c1.shape = c.shape ∧ c1.links <:+ c.links := by
  induction c with
  | shapeHandle p s =>
    intro c1 h
    simp only [HandleChainCast] at h
    split at h
    · rename_i hK
      cases h
      exact ⟨hK.symm, rfl, rfl, List.suffix_refl _⟩
    · cases h
  | link hd next ih =>
    intro c1 h
    simp only [HandleChainCast] at h
    split at h
    · rename_i hK
      cases h
      exact ⟨hK.symm, rfl, rfl, List.suffix_refl _⟩
    · obtain ⟨h1, h2, h3, h4⟩ := ih c1 h
      exact ⟨h1, h2, h3, h4.trans (List.suffix_cons _ _)⟩

theorem get_eq (K : Nat) (c : HandleNDChain) :
    get K c =
      if K = 0 then some (ChainValue.point c.coord)
      else (c.links[c.links.length - K]?).bind
        (fun h => if K ≤ c.links.length then some (ChainValue.element h.data_) else none) := by
  induction c with
  | shapeHandle p s =>
    by_cases hK : K = 0
    · simp [get, HandleChainCast, hK, HandleNDChain.deref, HandleNDChain.coord]
    · simp [get, HandleChainCast, hK, HandleNDChain.links]
  | link hd next ih =>
    have hidx := HandleNDChain.index_eq_length next
    by_cases hK : K = next.index + 1
    · have hK0 : K ≠ 0 := by omega
      simp [get, HandleChainCast, hK, HandleNDChain.deref, HandleNDChain.links, hidx]
    · have hget : get K (HandleNDChain.link hd next) = get K next := by
        simp [get, HandleChainCast, hK]
      rw [hget, ih]
      by_cases hK0 : K = 0
      · simp [hK0, HandleNDChain.coord]
      · simp only [hK0, if_false, HandleNDChain.links, List.length_cons]
        by_cases hle : K ≤ next.links.length
        · have e : next.links.length + 1 - K = (next.links.length - K) + 1 := by omega
          rw [e, List.getElem?_cons_succ]
          simp [hle, Nat.le_succ_of_le hle]
        · have hgt : next.links.length + 1 < K := by omega
          simp only [hle, if_false]
          have h1 : ¬ K ≤ next.links.length + 1 := by omega
          simp [h1]

/-- C19: on a chained handle, `get<0>` returns the coordinate point of the coordinate link,
and for `1 <= K <= number of array links` `get<K>` returns the current element of the link
with index `K`, which is the link at position `number of links - K` counted from the
outermost one: the coordinate link has index 0 and each array link the index of the link it
wraps plus one. The link a cast yields has the coordinate, the shape and the array handles
of the chain, unmoved. -/
theorem get_chain_retrieval (c : HandleNDChain) :
    get 0 c = some (ChainValue.point c.coord) ∧
    (∀ K, 1 ≤ K → K ≤ c.links.length →
      ∃ h, c.links[c.links.length - K]? = some h ∧
        get K c = some (ChainValue.element h.data_)) ∧
    (∀ p s, (HandleNDChain.shapeHandle p s).index = 0) ∧
    (∀ h next, (HandleNDChain.link h next).index = next.index + 1) ∧
    c.index = c.links.length ∧
    (∀ K c1, HandleChainCast K c = some c1 →
      c1.index = K ∧ c1.coord = c.coord ∧ c1.shape = c.shape ∧ c1.links <:+ c.links) := by
  refine ⟨?_, ?_, fun _ _ => rfl, fun _ _ => rfl, HandleNDChain.index_eq_length c,
    fun K c1 => HandleChainCast_spec K c c1⟩
  · rw [get_eq]
    simp
  · intro K h1 h2
    have hlt : c.links.length - K < c.links.length := by omega
    refine ⟨c.links[c.links.length - K], List.getElem?_eq_getElem hlt, ?_⟩
    rw [get_eq]
    have hK0 : K ≠ 0 := by omega
    simp [hK0, List.getElem?_eq_getElem hlt, h2]

theorem get_chain_retrieval_witness :
    get 0 (HandleNDChain.link ⟨[3, 1], 50⟩ (HandleNDChain.link ⟨[1, 2], 70⟩
      (HandleNDChain.shapeHandle [1, 2] [2, 3]))) = some (ChainValue.point [1, 2]) ∧
    get 1 (HandleNDChain.link ⟨[3, 1], 50⟩ (HandleNDChain.link ⟨[1, 2], 70⟩
      (HandleNDChain.shapeHandle [1, 2] [2, 3]))) = some (ChainValue.element 70) ∧
    get 2 (HandleNDChain.link ⟨[3, 1], 50⟩ (HandleNDChain.link ⟨[1, 2], 70⟩
      (HandleNDChain.shapeHandle [1, 2] [2, 3]))) = some (ChainValue.element 50) := by
  have key := get_chain_retrieval (HandleNDChain.link ⟨[3, 1], 50⟩
    (HandleNDChain.link ⟨[1, 2], 70⟩ (HandleNDChain.shapeHandle [1, 2] [2, 3])))
  refine ⟨key.1, ?_, ?_⟩
  · obtain ⟨h, hh, hg⟩ := key.2.1 1 (by decide) (by decide)
    have : h = ⟨[1, 2], 70⟩ := by
      simp [HandleNDChain.links] at hh
      exact hh.symm
    rw [hg, this]
  · obtain ⟨h, hh, hg⟩ := key.2.1 2 (by decide) (by decide)
    have : h = ⟨[3, 1], 50⟩ := by
      simp [HandleNDChain.links] at hh
      exact hh.symm
    rw [hg, this]

theorem dot_comm (a : List Int) : ∀ b : List Int, dot a b = dot b a := by
  induction a with
  | nil => intro b; cases b <;> simp [dot]
  | cons x a ih =>
    intro b
    cases b with
    | nil => simp [dot]
    | cons y b =>
      simp only [dot]
      rw [ih b]
      ring

theorem dot_add_left (p : List Int) :
    ∀ d st : List Int, p.length = d.length →
      dot (List.zipWith (fun a b => a + b) p d) st = dot p st + dot d st := by
  intro d st hlen
  rw [dot_comm, dot_add_right st p d hlen, dot_comm st p, dot_comm st d]

theorem dot_replicate_zero (n : Nat) : ∀ st : List Int, dot (List.replicate n 0) st = 0 := by
  induction n with
  | zero => intro st; simp [dot]
  | succ n ih =>
    intro st
    cases st with
    | nil => simp [dot]
    | cons s st => simp [List.replicate_succ, dot, ih]

theorem dot_unitVector (n : Nat) :
    ∀ (dim : Nat) (d : Int) (st : List Int), dim < n →
      dot (unitVector n dim d) st = d * st.getD dim 0 := by
  induction n with
  | zero => intro dim d st h; omega
  | succ n ih =>
    intro dim d st h
    cases dim with
    | zero =>
      cases st with
      | nil => simp [unitVector, List.replicate_succ, dot]
      | cons s st => simp [unitVector, List.replicate_succ, dot, dot_replicate_zero]
    | succ k =>
      cases st with
      | nil => simp [unitVector, List.replicate_succ, dot]
      | cons s st =>
        have := ih k d st (by omega)
        simp only [unitVector] at this
        simp [unitVector, List.replicate_succ, dot, this]

theorem unitVector_length (n dim : Nat) (d : Int) : (unitVector n dim d).length = n := by
  simp [unitVector]

theorem zipWith_add_unitVector (p : List Int) :
    ∀ (n dim : Nat) (d : Int), p.length = n → dim < n →
      List.zipWith (fun a b => a + b) p (unitVector n dim d) = p.set dim (p.getD dim 0 + d) := by
  induction p with
  | nil => intro n dim d h1 h2; simp at h1; omega
  | cons x p ih =>
    intro n dim d h1 h2
    cases n with
    | zero => omega
    | succ n =>
      cases dim with
      | zero =>
        simp only [unitVector, List.replicate_succ, List.set_cons_zero, List.zipWith_cons_cons,
          List.getD_cons_zero]
        congr 1
        have hz : ∀ (q : List Int) (m : Nat), q.length = m →
            List.zipWith (fun a b => a + b) q (List.replicate m 0) = q := by
          intro q
          induction q with
          | nil => intro m _; simp
          | cons y q ihq =>
            intro m hm
            cases m with
            | zero => simp at hm
            | succ m =>
              simp only [List.replicate_succ, List.zipWith_cons_cons, add_zero]
              rw [ihq m (by simpa using hm)]
        exact hz p n (by simpa using h1)
      | succ k =>
        have := ih n k d (by simpa using h1) (by omega)
        simp only [unitVector] at this
        simp [unitVector, List.replicate_succ, this]

theorem ChainOp.delta_length (n : Nat) (op : ChainOp) (hwf : op.WellFormed n) :
    (op.delta n).length = n := by
  cases op <;> simp only [ChainOp.delta, unitVector_length]
  exact hwf

theorem HandleNDChain.apply_shape (c : HandleNDChain) (op : ChainOp) :
    (c.apply op).shape = c.shape := by
  induction c with
  | shapeHandle p s => cases op <;> rfl
  | link h next ih =>
    cases op <;>
      simpa [HandleNDChain.apply, HandleNDChain.inc, HandleNDChain.dec, HandleNDChain.move,
        HandleNDChain.moveBy, HandleNDChain.shape] using ih

theorem HandleNDChain.apply_coord (n : Nat) (c : HandleNDChain) (op : ChainOp)
    (hlen : c.coord.length = n) (hwf : op.WellFormed n) :
    (c.apply op).coord = List.zipWith (fun a b => a + b) c.coord (op.delta n) := by
  induction c with
  | shapeHandle p s =>
    simp only [HandleNDChain.coord] at hlen
    cases op with
    | inc dim =>
      simp only [HandleNDChain.apply, HandleNDChain.inc, HandleNDChain.coord, ChainOp.delta]
      rw [zipWith_add_unitVector p n dim 1 hlen hwf]
    | dec dim =>
      simp only [HandleNDChain.apply, HandleNDChain.dec, HandleNDChain.coord, ChainOp.delta]
      rw [zipWith_add_unitVector p n dim (-1) hlen hwf]
      rfl
    | move dim diff =>
      simp only [HandleNDChain.apply, HandleNDChain.move, HandleNDChain.coord, ChainOp.delta]
      rw [zipWith_add_unitVector p n dim diff hlen hwf]
    | moveBy diff => rfl
  | link h next ih =>
    have := ih hlen
    cases op <;>
      simpa [HandleNDChain.apply, HandleNDChain.inc, HandleNDChain.dec, HandleNDChain.move,
        HandleNDChain.moveBy, HandleNDChain.coord] using this

theorem HandleNDChain.apply_links (n : Nat) (c : HandleNDChain) (op : ChainOp)
    (hwf : op.WellFormed n) :
    (c.apply op).links =
      c.links.map (fun h => HandleND.mk h.strides_ (h.data_ + dot (op.delta n) h.strides_)) := by
  induction c with
  | shapeHandle p s => cases op <;> rfl
  | link h next ih =>
    cases op with
    | inc dim =>
      have := ih
      simp only [HandleNDChain.apply] at this
      simp only [HandleNDChain.apply, HandleNDChain.inc, HandleNDChain.links, List.map_cons,
        this, ChainOp.delta, HandleND.inc, dot_unitVector n dim 1 h.strides_ hwf, one_mul]
    | dec dim =>
      have := ih
      simp only [HandleNDChain.apply] at this
      simp only [HandleNDChain.apply, HandleNDChain.dec, HandleNDChain.links, List.map_cons,
        this, ChainOp.delta, HandleND.dec, dot_unitVector n dim (-1) h.strides_ hwf]
      congr 2
      ring
    | move dim diff =>
      have := ih
      simp only [HandleNDChain.apply] at this
      simp only [HandleNDChain.apply, HandleNDChain.move, HandleNDChain.links, List.map_cons,
        this, ChainOp.delta, HandleND.move, dot_unitVector n dim diff h.strides_ hwf]
      congr 2
      ring
    | moveBy diff =>
      have := ih
      simp only [HandleNDChain.apply] at this
      simp only [HandleNDChain.apply, HandleNDChain.moveBy, HandleNDChain.links, List.map_cons,
        this, ChainOp.delta, HandleND.moveBy, dot_comm h.strides_ diff]

theorem HandleNDChain.foldl_apply_invariant (n : Nat) (origins : List HandleND)
    (ops : List ChainOp) :
    ∀ (c : HandleNDChain) (p : List Int), (∀ op ∈ ops, op.WellFormed n) →
      c.coord = p → p.length = n →
      c.links = origins.map (fun h0 => HandleND.mk h0.strides_ (h0.data_ + dot p h0.strides_)) →
      (ops.foldl HandleNDChain.apply c).coord =
          ops.foldl (fun q op => List.zipWith (fun a b => a + b) q (op.delta n)) p ∧
        (ops.foldl HandleNDChain.apply c).shape = c.shape ∧
        (ops.foldl HandleNDChain.apply c).links =
          origins.map (fun h0 => HandleND.mk h0.strides_
            (h0.data_ + dot (ops.foldl HandleNDChain.apply c).coord h0.strides_)) := by
  induction ops with
  | nil =>
    intro c p _ hc _ hl
    refine ⟨hc, rfl, ?_⟩
    show c.links = _
    rw [hl]
    apply List.map_congr_left
    intro h0 _
    show HandleND.mk h0.strides_ (h0.data_ + dot p h0.strides_) =
      HandleND.mk h0.strides_ (h0.data_ + dot c.coord h0.strides_)
    rw [hc]
  | cons op ops ih =>
    intro c p hwf hc hp hl
    have hop : op.WellFormed n := hwf op (List.mem_cons_self _ _)
    simp only [List.foldl_cons]
    have hcoord := HandleNDChain.apply_coord n c op (by rw [hc]; exact hp) hop
    rw [hc] at hcoord
    have hlen : (List.zipWith (fun a b => a + b) p (op.delta n)).length = n := by
      simp [hp, ChainOp.delta_length n op hop]
    have hlinks : (c.apply op).links = origins.map (fun h0 => HandleND.mk h0.strides_
        (h0.data_ + dot (List.zipWith (fun a b => a + b) p (op.delta n)) h0.strides_)) := by
      rw [HandleNDChain.apply_links n c op hop, hl, List.map_map]
      apply List.map_congr_left
      intro h0 _
      simp only [Function.comp, HandleND.mk.injEq, true_and]
      rw [dot_add_left p _ _ (by rw [hp, ChainOp.delta_length n op hop])]
      ring
    obtain ⟨h1, h2, h3⟩ := ih (c.apply op) _ (fun o ho => hwf o (List.mem_cons_of_mem _ ho))
      hcoord hlen hlinks
    exact ⟨h1, by rw [h2, HandleNDChain.apply_shape], h3⟩

/-- C18: for a chain whose coordinate link is at coordinate 0 (all `n` entries of `point_`
are 0) and whose array links, with strides of length `n`, are at their origins, after every
finite sequence of `inc(dim)`, `dec(dim)`, `move(dim, d)` and `move(diff)` with axes below
`n` and deltas of length `n`, the coordinate point `p` is the element-wise sum of the
coordinate deltas applied, every array link has its strides unchanged and is at its origin
plus `dot(p, strides)`, and the stored shape is unchanged. -/
theorem HandleNDChain_lockstep (n : Nat) (c0 : HandleNDChain) (ops : List ChainOp)
    (hcoord : c0.coord = List.replicate n 0) (hops : ∀ op ∈ ops, op.WellFormed n) :
    (ops.foldl HandleNDChain.apply c0).coord = sumDeltas n ops ∧
    (ops.foldl HandleNDChain.apply c0).shape = c0.shape ∧
    (ops.foldl HandleNDChain.apply c0).links =
      c0.links.map (fun h0 => HandleND.mk h0.strides_
        (h0.data_ + dot (ops.foldl HandleNDChain.apply c0).coord h0.strides_)) := by
  refine HandleNDChain.foldl_apply_invariant n c0.links ops c0 (List.replicate n 0) hops hcoord
    (by simp) ?_
  conv_lhs => rw [← List.map_id c0.links]
  apply List.map_congr_left
  intro h0 _
  simp [dot_replicate_zero]

theorem HandleNDChain_lockstep_witness :
    (([ChainOp.inc 0, ChainOp.move 1 2, ChainOp.moveBy [1, -1], ChainOp.dec 0]).foldl
        HandleNDChain.apply
        (HandleNDChain.link ⟨[3, 1], 50⟩ (HandleNDChain.ofShape [2, 3]))).coord =
      sumDeltas 2 [ChainOp.inc 0, ChainOp.move 1 2, ChainOp.moveBy [1, -1], ChainOp.dec 0] ∧
    (([ChainOp.inc 0, ChainOp.move 1 2, ChainOp.moveBy [1, -1], ChainOp.dec 0]).foldl
        HandleNDChain.apply
        (HandleNDChain.link ⟨[3, 1], 50⟩ (HandleNDChain.ofShape [2, 3]))).shape =
      (HandleNDChain.link ⟨[3, 1], 50⟩ (HandleNDChain.ofShape [2, 3])).shape ∧
    (([ChainOp.inc 0, ChainOp.move 1 2, ChainOp.moveBy [1, -1], ChainOp.dec 0]).foldl
        HandleNDChain.apply
        (HandleNDChain.link ⟨[3, 1], 50⟩ (HandleNDChain.ofShape [2, 3]))).links =
      (HandleNDChain.link ⟨[3, 1], 50⟩ (HandleNDChain.ofShape [2, 3])).links.map
        (fun h0 => HandleND.mk h0.strides_
          (h0.data_ + dot (([ChainOp.inc 0, ChainOp.move 1 2, ChainOp.moveBy [1, -1],
            ChainOp.dec 0]).foldl HandleNDChain.apply
            (HandleNDChain.link ⟨[3, 1], 50⟩ (HandleNDChain.ofShape [2, 3]))).coord
              h0.strides_)) :=
  HandleNDChain_lockstep 2 (HandleNDChain.link ⟨[3, 1], 50⟩ (HandleNDChain.ofShape [2, 3]))
    [ChainOp.inc 0, ChainOp.move 1 2, ChainOp.moveBy [1, -1], ChainOp.dec 0] (by decide)
    (by
      intro op hop
      simp only [List.mem_cons, List.mem_singleton, List.not_mem_nil, or_false] at hop
      rcases hop with rfl | rfl | rfl | rfl <;> simp [ChainOp.WellFormed])

/-! ## The branches of the two-array entry point -/

theorem genericArrayFunction2_direct {σ : Type} (mkTemp : ArrayND → σ → ArrayND × σ)
    (a1 a2 : ArrayND) (f : Int → Int → σ → σ) (s : σ)
    (h : (noOverlap a1 a2 || compatibleLayout a1 a2) = true) :
    genericArrayFunction2 mkTemp a1 a2 f s =
      TwoArrayRun.mk false
        (a2.handle (permutationToOrder a1.shape a1.strides MemoryOrder.C_ORDER))
        ((genericArrayFunctionImpl2
          (a1.handle (permutationToOrder a1.shape a1.strides MemoryOrder.C_ORDER))
          (a2.handle (permutationToOrder a1.shape a1.strides MemoryOrder.C_ORDER))
          (transpose a1.shape (permutationToOrder a1.shape a1.strides MemoryOrder.C_ORDER))
          f 0 s).map (fun r => r.2.2)) := by
  unfold genericArrayFunction2
  simp only
  rw [if_pos]
  simpa [noOverlap, compatibleLayout] using h

theorem genericArrayFunction2_copy {σ : Type} (mkTemp : ArrayND → σ → ArrayND × σ)
    (a1 a2 : ArrayND) (f : Int → Int → σ → σ) (s : σ)
    (h : (noOverlap a1 a2 || compatibleLayout a1 a2) = false) :
    genericArrayFunction2 mkTemp a1 a2 f s =
      TwoArrayRun.mk true
        ((mkTemp a2 s).1.handle (permutationToOrder a1.shape a1.strides MemoryOrder.C_ORDER))
        ((genericArrayFunctionImpl2
          (a1.handle (permutationToOrder a1.shape a1.strides MemoryOrder.C_ORDER))
          ((mkTemp a2 s).1.handle (permutationToOrder a1.shape a1.strides MemoryOrder.C_ORDER))
          (transpose a1.shape (permutationToOrder a1.shape a1.strides MemoryOrder.C_ORDER))
          f 0 (mkTemp a2 s).2).map (fun r => r.2.2)) := by
  unfold genericArrayFunction2
  simp only
  rw [if_neg]
  have h1 : ¬ (noOverlap a1 a2 || compatibleLayout a1 a2) = true := by simp [h]
  simpa [noOverlap, compatibleLayout] using h1

theorem genericArrayFunction2_temporary_eq {σ : Type} (mkTemp : ArrayND → σ → ArrayND × σ)
    (a1 a2 : ArrayND) (f : Int → Int → σ → σ) (s : σ) :
    (genericArrayFunction2 mkTemp a1 a2 f s).temporary =
      !(noOverlap a1 a2 || compatibleLayout a1 a2) := by
  cases h : (noOverlap a1 a2 || compatibleLayout a1 a2)
  · rw [genericArrayFunction2_copy mkTemp a1 a2 f s h]
    rfl
  · rw [genericArrayFunction2_direct mkTemp a1 a2 f s h]
    rfl

theorem permutationToOrder_length (shape stride : List Int) (order : MemoryOrder) :
    (permutationToOrder shape stride order).length = shape.length := by
  rw [(permutationToOrder_perm shape stride order).length_eq, List.length_range]

/-- The direct branch applies the operation to the pairs of addresses of the coordinates of
the destination's shape, in the order of the permuted axes; the source enters with its
strides and data pointer only. -/
theorem genericArrayFunction2_direct_result {σ : Type} (mkTemp : ArrayND → σ → ArrayND × σ)
    (a1 a2 : ArrayND) (f : Int → Int → σ → σ) (s : σ)
    (h : (noOverlap a1 a2 || compatibleLayout a1 a2) = true)
    (hrank : 1 ≤ a1.shape.length) (hnn : ∀ x ∈ a1.shape, 0 ≤ x) :
    (genericArrayFunction2 mkTemp a1 a2 f s).result =
      some (applyAll2 f s
        (offsetsFrom2
          (transpose a1.shape (permutationToOrder a1.shape a1.strides MemoryOrder.C_ORDER))
          (transpose a1.strides (permutationToOrder a1.shape a1.strides MemoryOrder.C_ORDER))
          (transpose a2.strides (permutationToOrder a1.shape a1.strides MemoryOrder.C_ORDER))
          a1.data a2.data)) := by
  have hplen := permutationToOrder_length a1.shape a1.strides MemoryOrder.C_ORDER
  rw [genericArrayFunction2_direct mkTemp a1 a2 f s h]
  simp only
  rw [genericArrayFunctionImpl2_eq _ _ _ f 0 s (transpose_nonneg _ _ hnn)
    (by simp [transpose, hplen]; omega) (by simp [transpose, ArrayND.handle])
    (by simp [transpose, ArrayND.handle])]
  simp [ArrayND.handle, ArrayND.data, ArrayND.strides]

/-! ## An array traversed against itself -/

theorem offsetsFrom2_same (shape strides : List Int) (base : Int) :
    offsetsFrom2 shape strides strides base base =
      (offsetsFrom shape strides base).map (fun x => (x, x)) := by
  simp [offsetsFrom2, offsetsFrom]

theorem applyAll2_map_diag {σ : Type} (f : Int → Int → σ → σ) (l : List Int) :
    ∀ s : σ, applyAll2 f s (l.map (fun x => (x, x))) = applyAll (fun x t => f x x t) s l := by
  induction l with
  | nil => intro s; rfl
  | cons x l ih =>
    intro s
    simp only [List.map_cons, applyAll2, applyAll, List.foldl_cons]
    exact ih _

theorem writeFirst_diag_comm {V : Type} (g : V → V → V) (x y : Int) (m : Int → V) :
    writeFirst g y y (writeFirst g x x m) = writeFirst g x x (writeFirst g y y m) := by
  by_cases hxy : x = y
  · rw [hxy]
  · funext z
    have hyx : y ≠ x := fun h => hxy h.symm
    simp only [writeFirst, Function.update_apply]
    by_cases hzy : z = y
    · subst hzy
      simp [hyx, hxy]
    · by_cases hzx : z = x
      · subst hzx
        simp [hyx, hxy]
      · simp [hzy, hzx, hyx, hxy]

theorem applyAll_writeFirst_diag_perm {V : Type} (g : V → V → V) {l1 l2 : List Int}
    (hp : l1.Perm l2) (m : Int → V) :
    applyAll (fun x t => writeFirst g x x t) m l1 =
      applyAll (fun x t => writeFirst g x x t) m l2 := by
  unfold applyAll
  exact hp.foldl_eq' (fun x _ y _ z => writeFirst_diag_comm g x y z) m

/-- C11: `genericArrayFunction(a, a, f)` with the array as destination and as source takes
the direct branch, never the temporary copy, for every array, operation and state; and for
an array of rank at least 1 with shape entries at least 1 and an operation that writes only
its first argument, `x = g(x, y)`, the final memory is the one of the in-place operation
`a[c] = g(a[c], a[c])` applied once for each coordinate `c` of the shape. -/
theorem genericArrayFunction2_self (a : ArrayND) :
    (∀ (σ : Type) (mkTemp : ArrayND → σ → ArrayND × σ) (f : Int → Int → σ → σ) (s : σ),
      (genericArrayFunction2 mkTemp a a f s).temporary = false ∧
      (genericArrayFunction2 mkTemp a a f s).h2 =
        a.handle (permutationToOrder a.shape a.strides MemoryOrder.C_ORDER)) ∧
    (1 ≤ a.shape.length → a.strides.length = a.shape.length → (∀ x ∈ a.shape, 1 ≤ x) →
      ∀ (V : Type) (mkTemp : ArrayND → (Int → V) → ArrayND × (Int → V)) (g : V → V → V)
        (mem : Int → V),
        (genericArrayFunction2 mkTemp a a (writeFirst g) mem).result =
          some ((coordinates a.shape).foldl
            (fun m c => Function.update m (a.addressOf c)
              (g (m (a.addressOf c)) (m (a.addressOf c)))) mem)) := by
  have hcompat : (noOverlap a a || compatibleLayout a a) = true := by
    simp [compatibleLayout]
  refine ⟨?_, ?_⟩
  · intro σ mkTemp f s
    rw [genericArrayFunction2_direct mkTemp a a f s hcompat]
    exact ⟨rfl, rfl⟩
  · intro hrank hlen hpos V mkTemp g mem
    have hnn : ∀ x ∈ a.shape, 0 ≤ x := fun x hx => le_trans (by decide) (hpos x hx)
    rw [genericArrayFunction2_direct_result mkTemp a a (writeFirst g) mem hcompat hrank hnn,
      offsetsFrom2_same, applyAll2_map_diag,
      applyAll_writeFirst_diag_perm g (offsetsFrom_transpose_perm a.shape a.strides _ a.data
        hlen.symm (permutationToOrder_perm a.shape a.strides MemoryOrder.C_ORDER))]
    simp only [applyAll, offsetsFrom, List.foldl_map, writeFirst, ArrayND.addressOf,
      ArrayND.data, ArrayND.strides]

theorem genericArrayFunction2_self_witness :
    (∀ (σ : Type) (mkTemp : ArrayND → σ → ArrayND × σ) (f : Int → Int → σ → σ) (s : σ),
      (genericArrayFunction2 mkTemp ⟨[2, 3], [1, 2], 10⟩ ⟨[2, 3], [1, 2], 10⟩ f s).temporary =
        false ∧
      (genericArrayFunction2 mkTemp ⟨[2, 3], [1, 2], 10⟩ ⟨[2, 3], [1, 2], 10⟩ f s).h2 =
        (ArrayND.mk [2, 3] [1, 2] 10).handle
          (permutationToOrder (ArrayND.mk [2, 3] [1, 2] 10).shape
            (ArrayND.mk [2, 3] [1, 2] 10).strides MemoryOrder.C_ORDER)) ∧
    (∀ (V : Type) (mkTemp : ArrayND → (Int → V) → ArrayND × (Int → V)) (g : V → V → V)
        (mem : Int → V),
        (genericArrayFunction2 mkTemp ⟨[2, 3], [1, 2], 10⟩ ⟨[2, 3], [1, 2], 10⟩
            (writeFirst g) mem).result =
          some ((coordinates (ArrayND.mk [2, 3] [1, 2] 10).shape).foldl
            (fun m c => Function.update m ((ArrayND.mk [2, 3] [1, 2] 10).addressOf c)
              (g (m ((ArrayND.mk [2, 3] [1, 2] 10).addressOf c))
                (m ((ArrayND.mk [2, 3] [1, 2] 10).addressOf c)))) mem)) :=
  ⟨(genericArrayFunction2_self ⟨[2, 3], [1, 2], 10⟩).1,
    (genericArrayFunction2_self ⟨[2, 3], [1, 2], 10⟩).2 (by decide) (by decide) (by decide)⟩

/-! ## The address ranges of two arrays -/

theorem dot_coordinate_bounds (c shape : List Int)
    (hc : List.Forall₂ (fun ci n => 0 ≤ ci ∧ ci < n) c shape) :
    ∀ st : List Int, (∀ s ∈ st, 0 ≤ s) →
      0 ≤ dot c st ∧ dot c st ≤ dot (shape.map (fun n => n - 1)) st := by
  induction hc with
  | nil => intro st _; simp [dot]
  | @cons ci n c1 sh hhead _ ih =>
    intro st hst
    cases st with
    | nil => simp [dot]
    | cons s st =>
      have hs : 0 ≤ s := hst s (List.mem_cons_self _ _)
      obtain ⟨h1, h2⟩ := ih st (fun x hx => hst x (List.mem_cons_of_mem _ hx))
      simp only [List.map_cons, dot]
      constructor
      · have := mul_nonneg hhead.1 hs
        omega
      · have : ci * s ≤ (n - 1) * s := mul_le_mul_of_nonneg_right (by omega) hs
        omega

/-- C13, as the code has it: for two arrays of the same shape whose strides are all
non-negative, whenever the two-array `genericArrayFunction` evaluates `no_overlap` to true
(`q1 <= p2 or q2 <= p1`), no element of the destination lies at the address of an element
of the source. -/
theorem noOverlap_sound (a1 a2 : ArrayND) (hshape : a2.shape = a1.shape)
    (hs1 : ∀ s ∈ a1.strides, 0 ≤ s) (hs2 : ∀ s ∈ a2.strides, 0 ≤ s)
    (hno : noOverlap a1 a2 = true) :
    ∀ c1 ∈ coordinates a1.shape, ∀ c2 ∈ coordinates a2.shape,
      a1.addressOf c1 ≠ a2.addressOf c2 := by
  intro c1 hc1 c2 hc2
  rw [hshape] at hc2
  have b1 := dot_coordinate_bounds c1 a1.shape ((mem_coordinates_iff _ c1).mp hc1) a1.strides hs1
  have b2 := dot_coordinate_bounds c2 a1.shape ((mem_coordinates_iff _ c2).mp hc2) a2.strides hs2
  simp only [noOverlap, ArrayND.addressOf, ArrayND.data, Bool.or_eq_true,
    decide_eq_true_eq] at hno
  simp only [ArrayND.addressOf, ArrayND.strides] at b1 b2 ⊢
  rcases hno with h | h <;> omega

theorem noOverlap_sound_witness :
    noOverlap ⟨[2, 3], [3, 1], 0⟩ ⟨[2, 3], [1, 2], 6⟩ = true ∧
    (ArrayND.mk [2, 3] [3, 1] 0).addressOf [1, 2] ≠ (ArrayND.mk [2, 3] [1, 2] 6).addressOf [0, 0] :=
  ⟨by decide,
    noOverlap_sound ⟨[2, 3], [3, 1], 0⟩ ⟨[2, 3], [1, 2], 6⟩ (by decide) (by decide) (by decide)
      (by decide) [1, 2] (by decide) [0, 0] (by decide)⟩

/-- C13 as stated fails for a negative stride: the destination of shape (4) with stride -1
at address 10 has its elements at 10, 9, 8, 7 and `q1 = 8`; the source of shape (4) with
stride 1 starts at `p2 = 8`; `no_overlap` is true, and the destination element at
coordinate 2 and the source element at coordinate 0 are both at address 8. -/
theorem noOverlap_negative_stride_counterexample :
    noOverlap ⟨[4], [-1], 10⟩ ⟨[4], [1], 8⟩ = true ∧
    [2] ∈ coordinates (ArrayND.mk [4] [-1] 10).shape ∧
    [0] ∈ coordinates (ArrayND.mk [4] [1] 8).shape ∧
    (ArrayND.mk [4] [-1] 10).addressOf [2] = (ArrayND.mk [4] [1] 8).addressOf [0] := by
  decide

/-! ## Arrays of different shapes -/

theorem last_mem_coordinates (shape : List Int) (hpos : ∀ x ∈ shape, 1 ≤ x) :
    shape.map (fun n => n - 1) ∈ coordinates shape := by
  rw [mem_coordinates_iff, List.forall₂_map_left_iff, List.forall₂_same]
  intro n hn
  have := hpos n hn
  constructor <;> omega

theorem coordinates_subset_of_le (s1 s2 : List Int) (hlen : s2.length = s1.length)
    (hext : ∀ k, k < s1.length → s1.getD k 0 ≤ s2.getD k 0) :
    ∀ c ∈ coordinates s1, c ∈ coordinates s2 := by
  intro c hc
  rw [mem_coordinates_iff, List.forall₂_iff_get] at hc ⊢
  obtain ⟨hl, hget⟩ := hc
  refine ⟨by omega, ?_⟩
  intro i h1 h2
  have h3 : i < s1.length := by omega
  have hk := hext i h3
  rw [List.getD_eq_getElem _ _ h3, List.getD_eq_getElem _ _ h2] at hk
  have := hget i h1 h3
  simp only [List.get_eq_getElem] at this ⊢
  constructor
  · exact this.1
  · omega

/-- C15, as the code has it: the two-array `genericArrayFunction` itself compares neither
the shapes nor the ranks of its arguments; shape and axis permutation are those of the
destination `a1`. When the source `a2` has the rank of `a1` and is at least as long as `a1`
along every axis (both arrays with one stride per axis, the destination with entries at
least 1), the permutation is one of the axes of either array, every coordinate of `a1`,
`a1.shape() - 1` included, is a coordinate of `a2`, and a difference of the shapes is
tolerated: on the direct branch the call makes no temporary and returns normally after
applying the operation to the `prod(a1.shape())` pairs of elements at the coordinates of
`a1`'s shape, the source being addressed through its own strides and data pointer. -/
theorem genericArrayFunction2_tolerates_larger_source {σ : Type}
    (mkTemp : ArrayND → σ → ArrayND × σ) (a1 a2 : ArrayND) (f : Int → Int → σ → σ) (s : σ)
    (hdirect : (noOverlap a1 a2 || compatibleLayout a1 a2) = true)
    (hrank : 1 ≤ a1.shape.length) (hpos : ∀ x ∈ a1.shape, 1 ≤ x)
    (hst1 : a1.strides.length = a1.shape.length)
    (hrank2 : a2.shape.length = a1.shape.length)
    (hst2 : a2.strides.length = a2.shape.length)
    (hext : ∀ k, k < a1.shape.length → a1.shape.getD k 0 ≤ a2.shape.getD k 0) :
    (genericArrayFunction2 mkTemp a1 a2 f s).temporary = false ∧
    (genericArrayFunction2 mkTemp a1 a2 f s).result =
      some (applyAll2 f s
        (offsetsFrom2
          (transpose a1.shape (permutationToOrder a1.shape a1.strides MemoryOrder.C_ORDER))
          (transpose a1.strides (permutationToOrder a1.shape a1.strides MemoryOrder.C_ORDER))
          (transpose a2.strides (permutationToOrder a1.shape a1.strides MemoryOrder.C_ORDER))
          a1.data a2.data)) ∧
    ((offsetsFrom2
        (transpose a1.shape (permutationToOrder a1.shape a1.strides MemoryOrder.C_ORDER))
        (transpose a1.strides (permutationToOrder a1.shape a1.strides MemoryOrder.C_ORDER))
        (transpose a2.strides (permutationToOrder a1.shape a1.strides MemoryOrder.C_ORDER))
        a1.data a2.data).length : Int) = prod a1.shape ∧
    (permutationToOrder a1.shape a1.strides MemoryOrder.C_ORDER).Perm
      (List.range a1.strides.length) ∧
    (permutationToOrder a1.shape a1.strides MemoryOrder.C_ORDER).Perm
      (List.range a2.strides.length) ∧
    a1.shape.map (fun n => n - 1) ∈ coordinates a1.shape ∧
    a1.shape.map (fun n => n - 1) ∈ coordinates a2.shape ∧
    (∀ c ∈ coordinates a1.shape, c ∈ coordinates a2.shape) := by
  have hnn : ∀ x ∈ a1.shape, 0 ≤ x := fun x hx => le_trans (by decide) (hpos x hx)
  have hperm := permutationToOrder_perm a1.shape a1.strides MemoryOrder.C_ORDER
  have hsub := coordinates_subset_of_le a1.shape a2.shape hrank2 hext
  have hlast := last_mem_coordinates a1.shape hpos
  refine ⟨?_, genericArrayFunction2_direct_result mkTemp a1 a2 f s hdirect hrank hnn, ?_, ?_, ?_,
    hlast, hsub _ hlast, hsub⟩
  · rw [genericArrayFunction2_direct mkTemp a1 a2 f s hdirect]
  · rw [offsetsFrom2, List.length_map, coordinates_length _ (transpose_nonneg _ _ hnn),
      prod_transpose_of_perm _ _ (permutationToOrder_perm _ _ _),
      Int.toNat_of_nonneg (prod_nonneg_of _ hnn)]
  · rw [hst1]
    exact hperm
  · rw [hst2, hrank2]
    exact hperm

theorem genericArrayFunction2_tolerates_larger_source_witness :
    (genericArrayFunction2 (fun a (s : List (Int × Int)) => (a, s)) ⟨[2, 2], [2, 1], 0⟩
        ⟨[5, 7], [7, 1], 10⟩ logCall2 []).temporary = false ∧
      (genericArrayFunction2 (fun a (s : List (Int × Int)) => (a, s)) ⟨[2, 2], [2, 1], 0⟩
        ⟨[5, 7], [7, 1], 10⟩ logCall2 []).result =
        some [(0, 10), (1, 11), (2, 17), (3, 18)] ∧
      [1, 1] ∈ coordinates (ArrayND.mk [5, 7] [7, 1] 10).shape :=
  ⟨(genericArrayFunction2_tolerates_larger_source (fun a (s : List (Int × Int)) => (a, s))
      ⟨[2, 2], [2, 1], 0⟩ ⟨[5, 7], [7, 1], 10⟩ logCall2 [] (by decide) (by decide) (by decide)
      (by decide) (by decide) (by decide) (by decide)).1,
    by decide,
    (genericArrayFunction2_tolerates_larger_source (fun a (s : List (Int × Int)) => (a, s))
      ⟨[2, 2], [2, 1], 0⟩ ⟨[5, 7], [7, 1], 10⟩ logCall2 [] (by decide) (by decide) (by decide)
      (by decide) (by decide) (by decide) (by decide)).2.2.2.2.2.2.1⟩

/-- C15 as stated fails: for a destination of shape (2) at address 0 and a source of shape
(3) at address 10, both with stride 1, the call does not fail: it returns after applying
the operation to the element pairs at (0, 10) and (1, 11). -/
theorem genericArrayFunction2_shape_mismatch_counterexample :
    (ArrayND.mk [2] [1] 0).shape ≠ (ArrayND.mk [3] [1] 10).shape ∧
    ∀ mkTemp : ArrayND → List (Int × Int) → ArrayND × List (Int × Int),
      (genericArrayFunction2 mkTemp ⟨[2], [1], 0⟩ ⟨[3], [1], 10⟩ logCall2 []).temporary = false ∧
      (genericArrayFunction2 mkTemp ⟨[2], [1], 0⟩ ⟨[3], [1], 10⟩ logCall2 []).result =
        some [(0, 10), (1, 11)] := by
  refine ⟨by decide, fun mkTemp => ?_⟩
  rw [genericArrayFunction2_direct mkTemp ⟨[2], [1], 0⟩ ⟨[3], [1], 10⟩ logCall2 [] (by decide)]
  exact ⟨rfl, by decide⟩

/-! ## Direct traversal of overlapping arrays -/

theorem applyAll2_assign_eq_snapshot {V : Type} (g : V → V) (snapshot : Int → V)
    (calls : List (Int × Int)) :
    ∀ m : Int → V, (∀ a ∈ calls, m a.2 = snapshot a.2) →
      calls.Pairwise (fun a b => a.1 ≠ b.2) →
      applyAll2 (writeFirst (fun _ y => g y)) m calls =
        applyAll2 (writeFromSnapshot g snapshot) m calls := by
  induction calls with
  | nil => intro m _ _; rfl
  | cons a calls ih =>
    intro m hm hpw
    rw [List.pairwise_cons] at hpw
    simp only [applyAll2, List.foldl_cons]
    have hstep : writeFirst (fun _ y => g y) a.1 a.2 m = writeFromSnapshot g snapshot a.1 a.2 m := by
      simp only [writeFirst, writeFromSnapshot, hm a (List.mem_cons_self _ _)]
    rw [hstep]
    apply ih _ _ hpw.2
    intro b hb
    simp only [writeFromSnapshot]
    rw [Function.update_noteq (fun h => hpw.1 b hb h.symm)]
    exact hm b (List.mem_cons_of_mem _ hb)

theorem applyAll2_snapshot_value {V : Type} (g : V → V) (snapshot : Int → V)
    (calls : List (Int × Int)) :
    ∀ m : Int → V, (calls.map Prod.fst).Nodup →
      (∀ a ∈ calls, applyAll2 (writeFromSnapshot g snapshot) m calls a.1 = g (snapshot a.2)) ∧
      (∀ x, x ∉ calls.map Prod.fst →
        applyAll2 (writeFromSnapshot g snapshot) m calls x = m x) := by
  induction calls with
  | nil => intro m _; simp [applyAll2]
  | cons a calls ih =>
    intro m hnd
    rw [List.map_cons, List.nodup_cons] at hnd
    obtain ⟨ih1, ih2⟩ := ih (writeFromSnapshot g snapshot a.1 a.2 m) hnd.2
    simp only [applyAll2, List.foldl_cons] at ih1 ih2 ⊢
    constructor
    · intro b hb
      rcases List.mem_cons.mp hb with rfl | hb1
      · rw [ih2 _ hnd.1]
        simp [writeFromSnapshot]
      · exact ih1 b hb1
    · intro x hx
      rw [List.map_cons, List.mem_cons, not_or] at hx
      rw [ih2 x hx.2]
      simp only [writeFromSnapshot]
      exact Function.update_noteq hx.1 _ _

theorem offsetsFrom2_no_hazard (shape strides : List Int) (base1 base2 : Int)
    (hle : base1 ≤ base2)
    (hasc : (offsetsFrom shape strides 0).Pairwise (fun x y => x < y)) :
    (offsetsFrom2 shape strides strides base1 base2).Pairwise (fun a b => a.1 ≠ b.2) := by
  rw [offsetsFrom, List.pairwise_map] at hasc
  rw [offsetsFrom2, List.pairwise_map]
  refine hasc.imp ?_
  intro c1 c2 h
  simp only [ne_eq]
  omega

/-- C14, as the code has it: when `compatible_layout` holds (`p1 <= p2` and identical
strides) and the traversal of the destination ascends in memory, that is the element
offsets taken in the order of the permuted axes increase strictly (as they do for a
contiguous array), the direct branch is taken and the traversal never writes a destination
element at an address from which a source element is read at a later step; hence the
element-wise assignment `dest[c] = g(src[c])` ends with the memory obtained when every
source value is read from a snapshot of the memory taken before the traversal. -/
theorem compatibleLayout_direct_traversal (a1 a2 : ArrayND)
    (hcompat : compatibleLayout a1 a2 = true) (hrank : 1 ≤ a1.shape.length)
    (hnn : ∀ x ∈ a1.shape, 0 ≤ x) (hasc : AscendingTraversal a1) :
    (∀ (σ : Type) (mkTemp : ArrayND → σ → ArrayND × σ) (f : Int → Int → σ → σ) (s : σ),
      (genericArrayFunction2 mkTemp a1 a2 f s).temporary = false ∧
      (genericArrayFunction2 mkTemp a1 a2 f s).result =
        some (applyAll2 f s
          (offsetsFrom2
            (transpose a1.shape (permutationToOrder a1.shape a1.strides MemoryOrder.C_ORDER))
            (transpose a1.strides (permutationToOrder a1.shape a1.strides MemoryOrder.C_ORDER))
            (transpose a2.strides (permutationToOrder a1.shape a1.strides MemoryOrder.C_ORDER))
            a1.data a2.data))) ∧
    (offsetsFrom2
        (transpose a1.shape (permutationToOrder a1.shape a1.strides MemoryOrder.C_ORDER))
        (transpose a1.strides (permutationToOrder a1.shape a1.strides MemoryOrder.C_ORDER))
        (transpose a2.strides (permutationToOrder a1.shape a1.strides MemoryOrder.C_ORDER))
        a1.data a2.data).Pairwise (fun a b => a.1 ≠ b.2) ∧
    (∀ (V : Type) (mkTemp : ArrayND → (Int → V) → ArrayND × (Int → V)) (g : V → V)
        (mem : Int → V),
      (genericArrayFunction2 mkTemp a1 a2 (writeFirst (fun _ y => g y)) mem).result =
        some (applyAll2 (writeFromSnapshot g mem) mem
          (offsetsFrom2
            (transpose a1.shape (permutationToOrder a1.shape a1.strides MemoryOrder.C_ORDER))
            (transpose a1.strides (permutationToOrder a1.shape a1.strides MemoryOrder.C_ORDER))
            (transpose a2.strides (permutationToOrder a1.shape a1.strides MemoryOrder.C_ORDER))
            a1.data a2.data))) := by
  have hdirect : (noOverlap a1 a2 || compatibleLayout a1 a2) = true := by
    rw [hcompat, Bool.or_true]
  have hc := hcompat
  simp only [compatibleLayout, Bool.and_eq_true, decide_eq_true_eq] at hc
  have hpw : (offsetsFrom2
      (transpose a1.shape (permutationToOrder a1.shape a1.strides MemoryOrder.C_ORDER))
      (transpose a1.strides (permutationToOrder a1.shape a1.strides MemoryOrder.C_ORDER))
      (transpose a2.strides (permutationToOrder a1.shape a1.strides MemoryOrder.C_ORDER))
      a1.data a2.data).Pairwise (fun a b => a.1 ≠ b.2) := by
    rw [← hc.2]
    exact offsetsFrom2_no_hazard _ _ _ _ hc.1 hasc
  refine ⟨?_, hpw, ?_⟩
  · intro σ mkTemp f s
    refine ⟨?_, genericArrayFunction2_direct_result mkTemp a1 a2 f s hdirect hrank hnn⟩
    rw [genericArrayFunction2_temporary_eq, hdirect]
    rfl
  · intro V mkTemp g mem
    rw [genericArrayFunction2_direct_result mkTemp a1 a2 _ mem hdirect hrank hnn,
      applyAll2_assign_eq_snapshot g mem _ mem (fun _ _ => rfl) hpw]

theorem compatibleLayout_direct_traversal_witness :
    (∀ (σ : Type) (mkTemp : ArrayND → σ → ArrayND × σ) (f : Int → Int → σ → σ) (s : σ),
      (genericArrayFunction2 mkTemp ⟨[2, 3], [1, 2], 0⟩ ⟨[2, 3], [1, 2], 1⟩ f s).temporary =
        false ∧
      (genericArrayFunction2 mkTemp ⟨[2, 3], [1, 2], 0⟩ ⟨[2, 3], [1, 2], 1⟩ f s).result =
        some (applyAll2 f s
          (offsetsFrom2
            (transpose (ArrayND.mk [2, 3] [1, 2] 0).shape
              (permutationToOrder (ArrayND.mk [2, 3] [1, 2] 0).shape
                (ArrayND.mk [2, 3] [1, 2] 0).strides MemoryOrder.C_ORDER))
            (transpose (ArrayND.mk [2, 3] [1, 2] 0).strides
              (permutationToOrder (ArrayND.mk [2, 3] [1, 2] 0).shape
                (ArrayND.mk [2, 3] [1, 2] 0).strides MemoryOrder.C_ORDER))
            (transpose (ArrayND.mk [2, 3] [1, 2] 1).strides
              (permutationToOrder (ArrayND.mk [2, 3] [1, 2] 0).shape
                (ArrayND.mk [2, 3] [1, 2] 0).strides MemoryOrder.C_ORDER))
            (ArrayND.mk [2, 3] [1, 2] 0).data (ArrayND.mk [2, 3] [1, 2] 1).data))) ∧
    (offsetsFrom2
        (transpose (ArrayND.mk [2, 3] [1, 2] 0).shape
          (permutationToOrder (ArrayND.mk [2, 3] [1, 2] 0).shape
            (ArrayND.mk [2, 3] [1, 2] 0).strides MemoryOrder.C_ORDER))
        (transpose (ArrayND.mk [2, 3] [1, 2] 0).strides
          (permutationToOrder (ArrayND.mk [2, 3] [1, 2] 0).shape
            (ArrayND.mk [2, 3] [1, 2] 0).strides MemoryOrder.C_ORDER))
        (transpose (ArrayND.mk [2, 3] [1, 2] 1).strides
          (permutationToOrder (ArrayND.mk [2, 3] [1, 2] 0).shape
            (ArrayND.mk [2, 3] [1, 2] 0).strides MemoryOrder.C_ORDER))
        (ArrayND.mk [2, 3] [1, 2] 0).data (ArrayND.mk [2, 3] [1, 2] 1).data).Pairwise
      (fun a b => a.1 ≠ b.2) ∧
    (∀ (V : Type) (mkTemp : ArrayND → (Int → V) → ArrayND × (Int → V)) (g : V → V)
        (mem : Int → V),
      (genericArrayFunction2 mkTemp ⟨[2, 3], [1, 2], 0⟩ ⟨[2, 3], [1, 2], 1⟩
          (writeFirst (fun _ y => g y)) mem).result =
        some (applyAll2 (writeFromSnapshot g mem) mem
          (offsetsFrom2
            (transpose (ArrayND.mk [2, 3] [1, 2] 0).shape
              (permutationToOrder (ArrayND.mk [2, 3] [1, 2] 0).shape
                (ArrayND.mk [2, 3] [1, 2] 0).strides MemoryOrder.C_ORDER))
            (transpose (ArrayND.mk [2, 3] [1, 2] 0).strides
              (permutationToOrder (ArrayND.mk [2, 3] [1, 2] 0).shape
                (ArrayND.mk [2, 3] [1, 2] 0).strides MemoryOrder.C_ORDER))
            (transpose (ArrayND.mk [2, 3] [1, 2] 1).strides
              (permutationToOrder (ArrayND.mk [2, 3] [1, 2] 0).shape
                (ArrayND.mk [2, 3] [1, 2] 0).strides MemoryOrder.C_ORDER))
            (ArrayND.mk [2, 3] [1, 2] 0).data (ArrayND.mk [2, 3] [1, 2] 1).data))) :=
  compatibleLayout_direct_traversal ⟨[2, 3], [1, 2], 0⟩ ⟨[2, 3], [1, 2], 1⟩ (by decide)
    (by decide) (by decide) (by decide)

/-- C14 as stated fails. Destination of shape (3,2) with strides (2,3) at address 0, source
with the same shape and strides at address 1: `compatible_layout` holds and the direct
traversal makes the calls (0,1), (2,3), (4,5), (3,4), (5,6), (7,8); the third call writes
address 4 and the fourth call reads it. The assignment `dest[c] = src[c]` on the memory
that holds its address at every address leaves 5 at address 3, where the snapshot of the
source has 4. The same happens for shape (4) with stride -1, destination at 10 and source
at 11: address 9 receives 11, the snapshot has 10. -/
theorem compatibleLayout_hazard_counterexample :
    compatibleLayout ⟨[3, 2], [2, 3], 0⟩ ⟨[3, 2], [2, 3], 1⟩ = true ∧
    (genericArrayFunction2 (fun a (s : List (Int × Int)) => (a, s)) ⟨[3, 2], [2, 3], 0⟩
        ⟨[3, 2], [2, 3], 1⟩ logCall2 []).result =
      some [(0, 1), (2, 3), (4, 5), (3, 4), (5, 6), (7, 8)] ∧
    (genericArrayFunction2 (makeTemporary 100) ⟨[3, 2], [2, 3], 0⟩ ⟨[3, 2], [2, 3], 1⟩
        (writeFirst (fun _ y => y)) (fun x => x)).result.map (fun m => m 3) = some 5 ∧
    (ArrayND.mk [3, 2] [2, 3] 0).addressOf [0, 1] = 3 ∧
    (ArrayND.mk [3, 2] [2, 3] 1).addressOf [0, 1] = 4 ∧
    compatibleLayout ⟨[4], [-1], 10⟩ ⟨[4], [-1], 11⟩ = true ∧
    (genericArrayFunction2 (makeTemporary 100) ⟨[4], [-1], 10⟩ ⟨[4], [-1], 11⟩
        (writeFirst (fun _ y => y)) (fun x => x)).result.map (fun m => m 9) = some 11 ∧
    (ArrayND.mk [4] [-1] 10).addressOf [1] = 9 ∧
    (ArrayND.mk [4] [-1] 11).addressOf [1] = 10 := by
  decide

theorem offsetsFrom_contiguous_ascending (shape strides : List Int)
    (hlen : shape.length = strides.length) (hnn : ∀ x ∈ shape, 0 ≤ x)
    (hc : ContiguousFrom strides shape 0) :
    (offsetsFrom shape strides 0).Pairwise (fun x y => x < y) := by
  have h := offsetsFrom_contiguous shape strides hlen hnn shape.length 0 0 (by omega) hc
  simp only [List.drop_zero] at h
  rw [h, List.pairwise_map]
  refine (List.pairwise_lt_range _).imp ?_
  intro a b hab
  omega

/-- A contiguous array without axes of length 1, in either memory order, is traversed in
ascending address order. -/
theorem ascendingTraversal_of_contiguous (order : MemoryOrder) (shape : List Int) (data : Int)
    (h2 : ∀ x ∈ shape, 2 ≤ x) :
    AscendingTraversal (ArrayND.mk shape (shapeToStrides shape order) data) := by
  have hnn : ∀ x ∈ shape, 0 ≤ x := fun x hx => le_trans (by decide) (h2 x hx)
  unfold AscendingTraversal
  simp only [ArrayND.shape, ArrayND.strides]
  cases order with
  | C_ORDER =>
    rw [permutationToOrder_C_of_C_contiguous shape h2]
    have e1 : transpose (shapeToStrides shape MemoryOrder.C_ORDER) (List.range shape.length) =
        shapeToStrides shape MemoryOrder.C_ORDER := by
      have := transpose_range (shapeToStrides shape MemoryOrder.C_ORDER)
      rwa [shapeToStrides_length] at this
    rw [e1, transpose_range]
    exact offsetsFrom_contiguous_ascending _ _ (shapeToStrides_length _ _).symm hnn
      (contiguousFrom_C shape)
  | F_ORDER =>
    rw [permutationToOrder_C_of_F_contiguous shape h2]
    have e1 : transpose (shapeToStrides shape MemoryOrder.F_ORDER)
        (List.range shape.length).reverse =
        (shapeToStrides shape MemoryOrder.F_ORDER).reverse := by
      have := transpose_reverse_range (shapeToStrides shape MemoryOrder.F_ORDER)
      rwa [shapeToStrides_length] at this
    rw [e1, transpose_reverse_range]
    exact offsetsFrom_contiguous_ascending _ _
      (by simp [shapeToStrides_length])
      (fun x hx => hnn x (List.mem_reverse.mp hx)) (contiguousFrom_F_reverse shape)

/-! ## The shift of a one-dimensional array -/

theorem applyAll2_shift_values {V : Type} (w r : Int) (ks : List Int)
    (hks : ks.Pairwise (fun a b => a < b)) (m : Int → V)
    (hh : ∀ i ∈ ks, ∀ j ∈ ks, i < j → w + i ≠ r + j) :
    (∀ i ∈ ks, applyAll2 (writeFirst (fun _ y => y)) m (ks.map (fun k => (w + k, r + k)))
      (w + i) = m (r + i)) ∧
    (∀ x, (∀ i ∈ ks, x ≠ w + i) →
      applyAll2 (writeFirst (fun _ y => y)) m (ks.map (fun k => (w + k, r + k))) x = m x) := by
  have hpw : (ks.map (fun k => (w + k, r + k))).Pairwise (fun a b => a.1 ≠ b.2) := by
    rw [List.pairwise_map]
    exact hks.imp_of_mem (fun hi hj hij => hh _ hi _ hj hij)
  have hnd : ((ks.map (fun k => (w + k, r + k))).map Prod.fst).Nodup := by
    rw [List.map_map]
    refine List.Nodup.map ?_ (hks.imp (fun h => ne_of_lt h))
    intro a b hab
    simpa using hab
  rw [applyAll2_assign_eq_snapshot (fun y => y) m _ m (fun _ _ => rfl) hpw]
  obtain ⟨h1, h2⟩ := applyAll2_snapshot_value (fun y => y) m
    (ks.map (fun k => (w + k, r + k))) m hnd
  constructor
  · intro i hi
    exact h1 (w + i, r + i) (List.mem_map.mpr ⟨i, hi, rfl⟩)
  · intro x hx
    apply h2
    simp only [List.map_map, List.mem_map, Function.comp, not_exists, not_and]
    intro i hi heq
    exact hx i hi heq.symm

theorem offsetsFrom2_shape4 (b1 b2 : Int) :
    offsetsFrom2 [4] [1] [1] b1 b2 = ([0, 1, 2, 3] : List Int).map (fun k => (b1 + k, b2 + k)) := by
  simp [offsetsFrom2, coordinates, dot, List.range_succ]

theorem makeTemporary_shape4 {V : Type} (base s0 : Int) (mem : Int → V) :
    makeTemporary base ⟨[4], [1], s0⟩ mem =
      (⟨[4], [1], base⟩,
        applyAll2 (writeFromSnapshot (fun y => y) mem) mem
          (([0, 1, 2, 3] : List Int).map (fun k => (base + k, s0 + k)))) := by
  have hst : shapeToStrides [4] MemoryOrder.C_ORDER = [1] := by decide
  simp only [makeTemporary, hst, coordinates, ArrayND.addressOf, applyAll2,
    writeFromSnapshot]
  simp [List.range_succ, dot]

theorem makeTemporary_shape4_values {V : Type} (base s0 : Int) (mem : Int → V) :
    (∀ i, 0 ≤ i → i < 4 → (makeTemporary base ⟨[4], [1], s0⟩ mem).2 (base + i) = mem (s0 + i)) ∧
    (∀ x, (x < base ∨ base + 4 ≤ x) → (makeTemporary base ⟨[4], [1], s0⟩ mem).2 x = mem x) := by
  rw [makeTemporary_shape4]
  have hnd : ((([0, 1, 2, 3] : List Int).map (fun k => (base + k, s0 + k))).map
      Prod.fst).Nodup := by
    rw [List.map_map]
    exact List.Nodup.map (fun a b hab => by simpa using hab) (by decide)
  obtain ⟨h1, h2⟩ := applyAll2_snapshot_value (fun y => y) mem
    (([0, 1, 2, 3] : List Int).map (fun k => (base + k, s0 + k))) mem hnd
  constructor
  · intro i hi0 hi4
    have hi : i ∈ ([0, 1, 2, 3] : List Int) := by
      simp only [List.mem_cons, List.mem_singleton, List.not_mem_nil, or_false]
      omega
    exact h1 (base + i, s0 + i) (List.mem_map.mpr ⟨i, hi, rfl⟩)
  · intro x hx
    apply h2
    simp only [List.map_cons, List.map_nil, List.mem_cons, List.mem_singleton,
      List.not_mem_nil, or_false]
    omega

theorem impl2_shape4 {σ : Type} (f : Int → Int → σ → σ) (s : σ) (b1 b2 : Int) :
    (genericArrayFunctionImpl2 ⟨[1], b1⟩ ⟨[1], b2⟩ [4] f 0 s).map (fun r => r.2.2) =
      some (applyAll2 f s (([0, 1, 2, 3] : List Int).map (fun k => (b1 + k, b2 + k)))) := by
  rw [genericArrayFunctionImpl2_eq ⟨[1], b1⟩ ⟨[1], b2⟩ [4] f 0 s (by decide) (by decide) rfl rfl]
  simp only [List.drop_zero, Option.map_some', offsetsFrom2_shape4]

theorem pairwise_lt_0123 : ([0, 1, 2, 3] : List Int).Pairwise (fun a b => a < b) := by decide

theorem mem_0123 (i : Int) : i ∈ ([0, 1, 2, 3] : List Int) ↔ 0 ≤ i ∧ i < 4 := by
  simp only [List.mem_cons, List.mem_singleton, List.not_mem_nil, or_false]
  omega

theorem genericArrayFunction2_shape4_direct {σ : Type} (mkTemp : ArrayND → σ → ArrayND × σ)
    (f : Int → Int → σ → σ) (s : σ) (b1 b2 : Int)
    (h : (noOverlap ⟨[4], [1], b1⟩ ⟨[4], [1], b2⟩ ||
      compatibleLayout ⟨[4], [1], b1⟩ ⟨[4], [1], b2⟩) = true) :
    (genericArrayFunction2 mkTemp ⟨[4], [1], b1⟩ ⟨[4], [1], b2⟩ f s).temporary = false ∧
    (genericArrayFunction2 mkTemp ⟨[4], [1], b1⟩ ⟨[4], [1], b2⟩ f s).result =
      some (applyAll2 f s (([0, 1, 2, 3] : List Int).map (fun k => (b1 + k, b2 + k)))) := by
  have hp : permutationToOrder [4] [1] MemoryOrder.C_ORDER = [0] := by decide
  rw [genericArrayFunction2_direct mkTemp _ _ f s h]
  refine ⟨rfl, ?_⟩
  simp only [ArrayND.shape, ArrayND.strides, hp, ArrayND.handle]
  exact impl2_shape4 f s b1 b2

theorem genericArrayFunction2_shape4_copy {V : Type} (tb : Int)
    (f : Int → Int → (Int → V) → (Int → V)) (mem : Int → V) (b1 b2 : Int)
    (h : (noOverlap ⟨[4], [1], b1⟩ ⟨[4], [1], b2⟩ ||
      compatibleLayout ⟨[4], [1], b1⟩ ⟨[4], [1], b2⟩) = false) :
    (genericArrayFunction2 (makeTemporary tb) ⟨[4], [1], b1⟩ ⟨[4], [1], b2⟩ f mem).temporary =
      true ∧
    (genericArrayFunction2 (makeTemporary tb) ⟨[4], [1], b1⟩ ⟨[4], [1], b2⟩ f mem).result =
      some (applyAll2 f (makeTemporary tb ⟨[4], [1], b2⟩ mem).2
        (([0, 1, 2, 3] : List Int).map (fun k => (b1 + k, tb + k)))) := by
  have hp : permutationToOrder [4] [1] MemoryOrder.C_ORDER = [0] := by decide
  rw [genericArrayFunction2_copy (makeTemporary tb) _ _ f mem h]
  refine ⟨rfl, ?_⟩
  simp only [ArrayND.shape, ArrayND.strides, hp, ArrayND.handle]
  rw [makeTemporary_shape4]
  exact impl2_shape4 f _ b1 tb

theorem assign_through_temporary_shape4 {V : Type} (d tb s0 : Int) (mem : Int → V)
    (htb : tb + 4 ≤ d ∨ d + 4 ≤ tb) :
    ∀ i, 0 ≤ i → i < 4 →
      applyAll2 (writeFirst (fun _ y => y)) (makeTemporary tb ⟨[4], [1], s0⟩ mem).2
        (([0, 1, 2, 3] : List Int).map (fun k => (d + k, tb + k))) (d + i) = mem (s0 + i) := by
  intro i hi0 hi4
  have hv := applyAll2_shift_values d tb [0, 1, 2, 3] pairwise_lt_0123
    (makeTemporary tb ⟨[4], [1], s0⟩ mem).2 (by
      intro a ha b hb _
      rw [mem_0123] at ha hb
      omega)
  rw [hv.1 i ((mem_0123 i).mpr ⟨hi0, hi4⟩)]
  exact (makeTemporary_shape4_values tb s0 mem).1 i hi0 hi4

/-- C12, as the code has it. Destination of shape (4) with stride 1 at address `d`; the
temporary is allocated at `tb`, clear of both arrays. When the source is the view of shape
(4) that starts 2 elements after the destination's first element, `compatible_layout` holds
and the direct branch is taken, not the temporary copy; the assignment `dest[i] = src[i]`
leaves in every destination element the value the source element had before the call, the
same value as assigning from a copy of the source in a separate buffer. When the source
starts 2 elements before the destination's first element, the temporary copy is taken, with
the same outcome. -/
theorem shift_assignment_shape4 {V : Type} (d tb : Int) (mem : Int → V)
    (htb : tb + 4 ≤ d - 2 ∨ d + 6 ≤ tb) :
    ((genericArrayFunction2 (makeTemporary tb) ⟨[4], [1], d⟩ ⟨[4], [1], d + 2⟩
        (writeFirst (fun _ y => y)) mem).temporary = false ∧
      ∃ m mref,
        (genericArrayFunction2 (makeTemporary tb) ⟨[4], [1], d⟩ ⟨[4], [1], d + 2⟩
          (writeFirst (fun _ y => y)) mem).result = some m ∧
        (genericArrayFunctionImpl2 ⟨[1], d⟩
          ((makeTemporary tb ⟨[4], [1], d + 2⟩ mem).1.handle [0]) [4]
          (writeFirst (fun _ y => y)) 0 (makeTemporary tb ⟨[4], [1], d + 2⟩ mem).2).map
            (fun r => r.2.2) = some mref ∧
        ∀ i, 0 ≤ i → i < 4 →
          m (d + i) = mem (d + 2 + i) ∧ mref (d + i) = mem (d + 2 + i)) ∧
    ((genericArrayFunction2 (makeTemporary tb) ⟨[4], [1], d⟩ ⟨[4], [1], d - 2⟩
        (writeFirst (fun _ y => y)) mem).temporary = true ∧
      ∃ m,
        (genericArrayFunction2 (makeTemporary tb) ⟨[4], [1], d⟩ ⟨[4], [1], d - 2⟩
          (writeFirst (fun _ y => y)) mem).result = some m ∧
        ∀ i, 0 ≤ i → i < 4 → m (d + i) = mem (d - 2 + i)) := by
  constructor
  · have hdirect : (noOverlap ⟨[4], [1], d⟩ ⟨[4], [1], d + 2⟩ ||
        compatibleLayout ⟨[4], [1], d⟩ ⟨[4], [1], d + 2⟩) = true := by
      simp [compatibleLayout, ArrayND.data, ArrayND.strides]
    obtain ⟨h1, h2⟩ := genericArrayFunction2_shape4_direct (makeTemporary tb)
      (writeFirst (fun _ y => y)) mem d (d + 2) hdirect
    refine ⟨h1, _, applyAll2 (writeFirst (fun _ y => y))
      (makeTemporary tb ⟨[4], [1], d + 2⟩ mem).2
      (([0, 1, 2, 3] : List Int).map (fun k => (d + k, tb + k))), h2, ?_, ?_⟩
    · have h1eq : (makeTemporary tb ⟨[4], [1], d + 2⟩ mem).1 = ⟨[4], [1], tb⟩ := by
        rw [makeTemporary_shape4]
      rw [h1eq]
      exact impl2_shape4 _ _ d tb
    · intro i hi0 hi4
      constructor
      · have hv := applyAll2_shift_values d (d + 2) [0, 1, 2, 3] pairwise_lt_0123 mem (by
          intro a ha b hb hab
          omega)
        exact hv.1 i ((mem_0123 i).mpr ⟨hi0, hi4⟩)
      · exact assign_through_temporary_shape4 d tb (d + 2) mem (by omega) i hi0 hi4
  · have hcopy : (noOverlap ⟨[4], [1], d⟩ ⟨[4], [1], d - 2⟩ ||
        compatibleLayout ⟨[4], [1], d⟩ ⟨[4], [1], d - 2⟩) = false := by
      simp [noOverlap, compatibleLayout, ArrayND.data, ArrayND.strides, ArrayND.addressOf,
        ArrayND.shape, dot]
      omega
    obtain ⟨h1, h2⟩ := genericArrayFunction2_shape4_copy tb
      (writeFirst (fun _ y => y)) mem d (d - 2) hcopy
    refine ⟨h1, _, h2, ?_⟩
    intro i hi0 hi4
    exact assign_through_temporary_shape4 d tb (d - 2) mem (by omega) i hi0 hi4

theorem shift_assignment_shape4_witness :
    ((genericArrayFunction2 (makeTemporary 100) ⟨[4], [1], 10⟩ ⟨[4], [1], 10 + 2⟩
        (writeFirst (fun _ y => y)) (fun x => x)).temporary = false ∧
      ∃ m mref,
        (genericArrayFunction2 (makeTemporary 100) ⟨[4], [1], 10⟩ ⟨[4], [1], 10 + 2⟩
          (writeFirst (fun _ y => y)) (fun x => x)).result = some m ∧
        (genericArrayFunctionImpl2 ⟨[1], 10⟩
          ((makeTemporary 100 ⟨[4], [1], 10 + 2⟩ (fun x => x)).1.handle [0]) [4]
          (writeFirst (fun _ y => y)) 0 (makeTemporary 100 ⟨[4], [1], 10 + 2⟩ (fun x => x)).2).map
            (fun r => r.2.2) = some mref ∧
        ∀ i, 0 ≤ i → i < 4 →
          m (10 + i) = (fun x : Int => x) (10 + 2 + i) ∧
          mref (10 + i) = (fun x : Int => x) (10 + 2 + i)) ∧
    ((genericArrayFunction2 (makeTemporary 100) ⟨[4], [1], 10⟩ ⟨[4], [1], 10 - 2⟩
        (writeFirst (fun _ y => y)) (fun x => x)).temporary = true ∧
      ∃ m,
        (genericArrayFunction2 (makeTemporary 100) ⟨[4], [1], 10⟩ ⟨[4], [1], 10 - 2⟩
          (writeFirst (fun _ y => y)) (fun x => x)).result = some m ∧
        ∀ i, 0 ≤ i → i < 4 → m (10 + i) = (fun x : Int => x) (10 - 2 + i)) :=
  shift_assignment_shape4 10 100 (fun x => x) (by decide)

/-- C12 as stated fails: for a destination of shape (4) with stride 1 at address 0 and the
source view of shape (4) with stride 1 that starts 2 elements further, at address 2,
`no_overlap` is false, `compatible_layout` is true (`p1 <= p2`, equal strides) and the
traversal runs directly on the source: no temporary is made. -/
theorem shift_assignment_branch_counterexample :
    noOverlap ⟨[4], [1], 0⟩ ⟨[4], [1], 2⟩ = false ∧
    compatibleLayout ⟨[4], [1], 0⟩ ⟨[4], [1], 2⟩ = true ∧
    (genericArrayFunction2 (makeTemporary 100) ⟨[4], [1], 0⟩ ⟨[4], [1], 2⟩
      (writeFirst (fun _ y => y)) (fun x : Int => x)).temporary = false ∧
    (genericArrayFunction2 (makeTemporary 100) ⟨[4], [1], 0⟩ ⟨[4], [1], 2⟩
      (writeFirst (fun _ y => y)) (fun x : Int => x)).h2 = ⟨[1], 2⟩ := by
  decide

/-! ## Element access of the array handle -/

/-- C21: for an array handle `h` and every coordinate offset `index`, `h[index]` is the
element at the current position plus `dot(index, strides)`, which is the element `*h` is
after `h.move(index)`; `h[0-vector]` is the element `*h`. The member is `const`: it yields
the element and no changed handle, so the position stays as it was. -/
theorem HandleND_index (h : HandleND) (index : List Int) (n : Nat) :
    h.index index = h.data_ + dot index h.strides_ ∧
    h.index index = (h.moveBy index).deref ∧
    h.index (List.replicate n 0) = h.deref := by
  refine ⟨rfl, ?_, ?_⟩
  · simp only [HandleND.index, HandleND.moveBy, HandleND.deref, dot_comm index]
  · simp only [HandleND.index, HandleND.deref, dot_replicate_zero, add_zero]

/-! ## Axis tags -/

/-- The characters that are keys of a non-frequency axis tag. -/
theorem charToTag_eq :
    charToTag =
      [('e', 11), ('t', 6), ('z', 5), ('y', 4), ('x', 3), ('n', 2), ('c', 1), ('?', 0)] := by
  decide

theorem charToTag_lookup_none (c : Char)
    (hc : c ∉ ['?', 'c', 'n', 'x', 'y', 'z', 't', 'e']) : charToTag.lookup c = none := by
  simp only [List.mem_cons, List.mem_singleton, List.not_mem_nil, or_false, not_or] at hc
  obtain ⟨h1, h2, h3, h4, h5, h6, h7, h8⟩ := hc
  rw [charToTag_eq]
  have e1 : (c == '?') = false := beq_eq_false_iff_ne.mpr h1
  have e2 : (c == 'c') = false := beq_eq_false_iff_ne.mpr h2
  have e3 : (c == 'n') = false := beq_eq_false_iff_ne.mpr h3
  have e4 : (c == 'x') = false := beq_eq_false_iff_ne.mpr h4
  have e5 : (c == 'y') = false := beq_eq_false_iff_ne.mpr h5
  have e6 : (c == 'z') = false := beq_eq_false_iff_ne.mpr h6
  have e7 : (c == 't') = false := beq_eq_false_iff_ne.mpr h7
  have e8 : (c == 'e') = false := beq_eq_false_iff_ne.mpr h8
  simp only [List.lookup, e1, e2, e3, e4, e5, e6, e7, e8]

theorem charToTag_lookup_some (c : Char)
    (hc : c ∈ ['?', 'c', 'n', 'x', 'y', 'z', 't', 'e']) :
    ∃ tag, charToTag.lookup c = some tag ∧ tag < tags.axis_end ∧
      tags.AxisTagKeys.getD tag [] = [c] ∧
      tags.AxisTagTypes.getD tag 0 &&& tags.Frequency = 0 := by
  simp only [List.mem_cons, List.mem_singleton, List.not_mem_nil, or_false] at hc
  rcases hc with rfl | rfl | rfl | rfl | rfl | rfl | rfl | rfl
  · exact ⟨0, by decide⟩
  · exact ⟨1, by decide⟩
  · exact ⟨2, by decide⟩
  · exact ⟨3, by decide⟩
  · exact ⟨4, by decide⟩
  · exact ⟨5, by decide⟩
  · exact ⟨6, by decide⟩
  · exact ⟨11, by decide⟩

theorem makeAxistagsLoop_error_iff (l : List Char) :
    (∃ msg, makeAxistagsLoop l = Except.error msg) ↔
      ∃ c ∈ l, c ∉ ['?', 'c', 'n', 'x', 'y', 'z', 't', 'e'] := by
  induction l with
  | nil => simp [makeAxistagsLoop]
  | cons c rest ih =>
    by_cases hc : c ∈ ['?', 'c', 'n', 'x', 'y', 'z', 't', 'e']
    · obtain ⟨tag, htag, _⟩ := charToTag_lookup_some c hc
      have hstep : (∃ msg, makeAxistagsLoop (c :: rest) = Except.error msg) ↔
          ∃ msg, makeAxistagsLoop rest = Except.error msg := by
        simp only [makeAxistagsLoop, htag]
        cases makeAxistagsLoop rest <;> simp
      rw [hstep, ih]
      constructor
      · rintro ⟨x, hx, hxn⟩
        exact ⟨x, List.mem_cons_of_mem _ hx, hxn⟩
      · rintro ⟨x, hx, hxn⟩
        rcases List.mem_cons.mp hx with rfl | hx1
        · exact absurd hc hxn
        · exact ⟨x, hx1, hxn⟩
    · have hnone := charToTag_lookup_none c hc
      constructor
      · intro _
        exact ⟨c, List.mem_cons_self _ _, hc⟩
      · intro _
        simp only [makeAxistagsLoop, hnone]
        exact ⟨_, rfl⟩

theorem makeAxistagsLoop_ok (l : List Char)
    (hl : ∀ c ∈ l, c ∈ ['?', 'c', 'n', 'x', 'y', 'z', 't', 'e']) :
    ∃ res, makeAxistagsLoop l = Except.ok res ∧
      List.Forall₂ (fun tag c => tag < tags.axis_end ∧ tags.AxisTagKeys.getD tag [] = [c] ∧
        tags.AxisTagTypes.getD tag 0 &&& tags.Frequency = 0) res l := by
  induction l with
  | nil => exact ⟨[], rfl, List.Forall₂.nil⟩
  | cons c rest ih =>
    obtain ⟨tag, htag, h1, h2, h3⟩ := charToTag_lookup_some c (hl c (List.mem_cons_self _ _))
    obtain ⟨res, hres, hall⟩ := ih (fun x hx => hl x (List.mem_cons_of_mem _ hx))
    refine ⟨tag :: res, ?_, List.Forall₂.cons ⟨h1, h2, h3⟩ hall⟩
    simp only [makeAxistagsLoop, htag, hres]

/-- C22: `makeAxistags(spec)` fails its precondition if and only if `spec` contains a
character that is not one of '?', 'c', 'n', 'x', 'y', 'z', 't', 'e', the keys of the
non-frequency axis tags; otherwise it returns a tag sequence of the length of `spec` whose
`k`-th tag is a tag below `axis_end`, not of frequency type, whose key is the character
`spec[k]`. -/
theorem makeAxistags_spec (spec : String) :
    ((∃ msg, makeAxistags spec = Except.error msg) ↔
      ∃ c ∈ spec.data, c ∉ ['?', 'c', 'n', 'x', 'y', 'z', 't', 'e']) ∧
    ((∀ c ∈ spec.data, c ∈ ['?', 'c', 'n', 'x', 'y', 'z', 't', 'e']) →
      ∃ res, makeAxistags spec = Except.ok res ∧ res.length = spec.length ∧
        ∀ k (h1 : k < res.length) (h2 : k < spec.data.length),
          res[k] < tags.axis_end ∧
          tags.AxisTagKeys.getD res[k] [] = [spec.data[k]] ∧
          tags.AxisTagTypes.getD res[k] 0 &&& tags.Frequency = 0) := by
  refine ⟨makeAxistagsLoop_error_iff spec.data, ?_⟩
  intro hvalid
  obtain ⟨res, hres, hall⟩ := makeAxistagsLoop_ok spec.data hvalid
  refine ⟨res, hres, hall.length_eq, ?_⟩
  intro k h1 h2
  exact List.Forall₂.get hall h1 h2

theorem makeAxistags_spec_witness :
    ((∃ msg, makeAxistags "xqc" = Except.error msg) ↔
      ∃ c ∈ "xqc".data, c ∉ ['?', 'c', 'n', 'x', 'y', 'z', 't', 'e']) ∧
    (∃ res, makeAxistags "tzyxc" = Except.ok res ∧ res.length = "tzyxc".length ∧
        ∀ k (h1 : k < res.length) (h2 : k < "tzyxc".data.length),
          res[k] < tags.axis_end ∧
          tags.AxisTagKeys.getD res[k] [] = ["tzyxc".data[k]] ∧
          tags.AxisTagTypes.getD res[k] 0 &&& tags.Frequency = 0) :=
  ⟨(makeAxistags_spec "xqc").1, (makeAxistags_spec "tzyxc").2 (by decide)⟩

/-- C23, as the code has it: `defaultAxistags(N, with_channels, order)` succeeds, with a
result of length `N`, exactly for `0 <= N <= 5` when `with_channels` is true and for
`0 <= N <= 4` when it is false, for either order; for every other `N` it fails its
precondition. -/
theorem defaultAxistags_defined (N : Int) (with_channels : Bool) (order : MemoryOrder) :
    ((0 ≤ N ∧ N ≤ (if with_channels then 5 else 4)) →
      ∃ res, defaultAxistags N with_channels order = Except.ok res ∧ (res.length : Int) = N) ∧
    (¬ (0 ≤ N ∧ N ≤ (if with_channels then 5 else 4)) →
      defaultAxistags N with_channels order =
        Except.error "defaultAxistags(): only defined for up to five dimensions.") := by
  constructor
  · intro h
    have hN : N = 0 ∨ N = 1 ∨ N = 2 ∨ N = 3 ∨ N = 4 ∨ N = 5 := by
      cases with_channels <;> simp at h <;> omega
    cases with_channels <;> cases order <;>
      rcases hN with rfl | rfl | rfl | rfl | rfl | rfl <;>
      first
        | exact ⟨_, rfl, rfl⟩
        | (exfalso; simp at h)
  · intro h
    unfold defaultAxistags
    simp only
    rw [if_pos h]

theorem defaultAxistags_defined_witness :
    (∃ res, defaultAxistags 5 true MemoryOrder.F_ORDER = Except.ok res ∧
      (res.length : Int) = 5) ∧
    defaultAxistags 6 true MemoryOrder.C_ORDER =
      Except.error "defaultAxistags(): only defined for up to five dimensions." :=
  ⟨(defaultAxistags_defined 5 true MemoryOrder.F_ORDER).1 (by decide),
    (defaultAxistags_defined 6 true MemoryOrder.C_ORDER).2 (by decide)⟩

/-- C23 as stated fails: without channels only the four tags t, z, y, x are there, and
`defaultAxistags(5, false, order)` fails its precondition for both orders. -/
theorem defaultAxistags_five_without_channels_counterexample :
    defaultAxistags 5 false MemoryOrder.C_ORDER =
      Except.error "defaultAxistags(): only defined for up to five dimensions." ∧
    defaultAxistags 5 false MemoryOrder.F_ORDER =
      Except.error "defaultAxistags(): only defined for up to five dimensions." ∧
    defaultAxistags 4 false MemoryOrder.C_ORDER =
      Except.ok [tags.axis_t, tags.axis_z, tags.axis_y, tags.axis_x] :=
  ⟨rfl, rfl, rfl⟩

theorem AxisInfo.lt_iff (a b : AxisInfo) :
    a.lt b = true ↔
      (a.typeFlags < b.typeFlags ∨ (a.typeFlags = b.typeFlags ∧ a.key < b.key)) := by
  simp [AxisInfo.lt]

theorem AxisInfo.eq_iff (a b : AxisInfo) :
    a.eq b = true ↔ (a.typeFlags = b.typeFlags ∧ a.key = b.key) := by
  simp [AxisInfo.eq]

/-- C24: `AxisInfo::operator<` is the lexicographic order on `(typeFlags(), key())`: it
compares the type flags first, with
`Channels < Space < Angle < Time < Frequency < Edge < Unknown` and stored flags 0 counting
as `Unknown`, and the keys in lexicographic order second. It is irreflexive and transitive,
for every pair exactly one of `a < b`, `a == b`, `b < a` holds, and `<=`, `>`, `>=` are the
derived relations. -/
theorem AxisInfo_order (a b c : AxisInfo) :
    (a.lt b = true ↔
      (a.typeFlags < b.typeFlags ∨ (a.typeFlags = b.typeFlags ∧ a.key < b.key))) ∧
    (tags.Channels < tags.Space ∧ tags.Space < tags.Angle ∧ tags.Angle < tags.Time ∧
      tags.Time < tags.Frequency ∧ tags.Frequency < tags.Edge ∧
      tags.Edge < tags.UnknownAxisType) ∧
    (a.flags_ = 0 → a.typeFlags = tags.UnknownAxisType) ∧
    (a.flags_ ≠ 0 → a.typeFlags = a.flags_) ∧
    a.lt a = false ∧
    (a.lt b = true → b.lt c = true → a.lt c = true) ∧
    ((a.lt b = true ∨ a.eq b = true ∨ b.lt a = true) ∧
      ¬ (a.lt b = true ∧ a.eq b = true) ∧ ¬ (a.lt b = true ∧ b.lt a = true) ∧
      ¬ (a.eq b = true ∧ b.lt a = true)) ∧
    (a.le b = !(b.lt a)) ∧ (a.gt b = b.lt a) ∧ (a.ge b = !(a.lt b)) := by
  refine ⟨AxisInfo.lt_iff a b, by decide, ?_, ?_, ?_, ?_, ?_, rfl, rfl, rfl⟩
  · intro h
    simp [AxisInfo.typeFlags, h]
  · intro h
    simp [AxisInfo.typeFlags, h]
  · rw [Bool.eq_false_iff]
    intro h
    rw [AxisInfo.lt_iff] at h
    rcases h with h | ⟨_, h⟩
    · exact lt_irrefl _ h
    · exact lt_irrefl _ h
  · intro h1 h2
    rw [AxisInfo.lt_iff] at h1 h2 ⊢
    rcases h1 with h1 | ⟨e1, k1⟩ <;> rcases h2 with h2 | ⟨e2, k2⟩
    · exact Or.inl (lt_trans h1 h2)
    · exact Or.inl (e2 ▸ h1)
    · exact Or.inl (e1 ▸ h2)
    · exact Or.inr ⟨e1.trans e2, lt_trans k1 k2⟩
  · simp only [AxisInfo.lt_iff, AxisInfo.eq_iff]
    refine ⟨?_, ?_, ?_, ?_⟩
    · rcases lt_trichotomy a.typeFlags b.typeFlags with h | h | h
      · exact Or.inl (Or.inl h)
      · rcases lt_trichotomy a.key b.key with k | k | k
        · exact Or.inl (Or.inr ⟨h, k⟩)
        · exact Or.inr (Or.inl ⟨h, k⟩)
        · exact Or.inr (Or.inr (Or.inr ⟨h.symm, k⟩))
      · exact Or.inr (Or.inr (Or.inl h))
    · rintro ⟨h1 | ⟨_, k1⟩, e, k⟩
      · exact absurd e (ne_of_lt h1)
      · exact absurd k (ne_of_lt k1)
    · rintro ⟨h1 | ⟨e1, k1⟩, h2 | ⟨e2, k2⟩⟩
      · exact lt_asymm h1 h2
      · exact absurd e2.symm (ne_of_lt h1)
      · exact absurd e1.symm (ne_of_lt h2)
      · exact lt_asymm k1 k2
    · rintro ⟨⟨e, k⟩, h2 | ⟨_, k2⟩⟩
      · exact absurd e.symm (ne_of_lt h2)
      · exact absurd k.symm (ne_of_lt k2)

theorem AxisInfo_order_witness :
    (AxisInfo.mk "x" "" 0 tags.Space).lt (AxisInfo.mk "y" "" 0 tags.Space) = true ∧
    (AxisInfo.mk "y" "" 0 tags.Space).lt (AxisInfo.mk "t" "" 0 tags.Time) = true ∧
    (AxisInfo.mk "x" "" 0 tags.Space).lt (AxisInfo.mk "t" "" 0 tags.Time) = true ∧
    (AxisInfo.mk "x" "" 0 0).typeFlags = tags.UnknownAxisType := by
  have h1 : (AxisInfo.mk "x" "" 0 tags.Space).lt (AxisInfo.mk "y" "" 0 tags.Space) = true := by
    rw [AxisInfo.lt_iff]
    refine Or.inr ⟨rfl, ?_⟩
    show "x" < "y"
    rw [String.lt_iff_toList_lt]
    decide
  have h2 : (AxisInfo.mk "y" "" 0 tags.Space).lt (AxisInfo.mk "t" "" 0 tags.Time) = true := by
    rw [AxisInfo.lt_iff]
    exact Or.inl (by decide)
  exact ⟨h1, h2,
    (AxisInfo_order (AxisInfo.mk "x" "" 0 tags.Space) (AxisInfo.mk "y" "" 0 tags.Space)
      (AxisInfo.mk "t" "" 0 tags.Time)).2.2.2.2.2.1 h1 h2,
    (AxisInfo_order (AxisInfo.mk "x" "" 0 0) (AxisInfo.mk "y" "" 0 tags.Space)
      (AxisInfo.mk "t" "" 0 tags.Time)).2.2.1 rfl⟩

/-! ## Grid-graph neighbourhoods -/

theorem negate_negate (v : List Int) : negate (negate v) = v := by
  simp [negate]

theorem negate_length (v : List Int) : (negate v).length = v.length := by
  simp [negate]

theorem map_getD_range (axes : List Nat) (β : Type) (g : Nat → β) :
    (List.range axes.length).map (fun k => g (axes.getD k 0)) = axes.map g := by
  apply List.ext_getElem
  · simp
  · intro i h1 h2
    have hi : i < axes.length := by simpa using h1
    rw [List.getElem_map, List.getElem_map, List.getElem_range, List.getD_eq_getElem _ _ hi]

theorem neighborOffsetsOf_direct_C (ndim : Nat) :
    neighborOffsetsOf ndim NeighborhoodType.DirectNeighborhood MemoryOrder.C_ORDER =
      (List.range ndim).map (fun a => negate (unitVector ndim a 1)) ++
        (List.range ndim).reverse.map (fun a => unitVector ndim a 1) := by
  have h1 := map_getD_range (List.range ndim) _ (fun a => negate (unitVector ndim a 1))
  have h2 := map_getD_range (List.range ndim) _ (fun a => unitVector ndim a 1)
  rw [List.length_range] at h1 h2
  simp only [neighborOffsetsOf, List.map_reverse]
  rw [h1, h2]

theorem neighborOffsetsOf_direct_F (ndim : Nat) :
    neighborOffsetsOf ndim NeighborhoodType.DirectNeighborhood MemoryOrder.F_ORDER =
      (List.range ndim).reverse.map (fun a => negate (unitVector ndim a 1)) ++
        (List.range ndim).map (fun a => unitVector ndim a 1) := by
  have h1 := map_getD_range (List.range ndim).reverse _ (fun a => negate (unitVector ndim a 1))
  have h2 := map_getD_range (List.range ndim).reverse _ (fun a => unitVector ndim a 1)
  rw [List.length_reverse, List.length_range] at h1 h2
  simp only [neighborOffsetsOf, List.map_reverse]
  rw [h1, h2, List.map_reverse, List.map_reverse, List.reverse_reverse]

theorem coordinates_three_cons (rest : List Int) :
    coordinates (3 :: rest) =
      (coordinates rest).map (fun c => (0 : Int) :: c) ++
        ((coordinates rest).map (fun c => (1 : Int) :: c) ++
          (coordinates rest).map (fun c => (2 : Int) :: c)) := by
  have h3 : List.range 3 = [0, 1, 2] := by decide
  simp [coordinates, h3]

/-- The reflection of a coordinate of the shape `(3, ..., 3)` at the centre. -/
theorem coordinates_three_reverse (n : Nat) :
    (coordinates (List.replicate n 3)).reverse =
      (coordinates (List.replicate n 3)).map (fun c => c.map (fun x => 2 - x)) := by
  induction n with
  | zero => simp [coordinates]
  | succ n ih =>
    rw [List.replicate_succ, coordinates_three_cons]
    simp only [List.reverse_append, List.map_append, List.map_map, ← List.map_reverse, ih,
      List.append_assoc]
    rfl

theorem coordinateIterator_three_reverse (n : Nat) (order : MemoryOrder) :
    (coordinateIterator (List.replicate n 3) order).reverse =
      (coordinateIterator (List.replicate n 3) order).map (fun c => c.map (fun x => 2 - x)) := by
  cases order with
  | C_ORDER => exact coordinates_three_reverse n
  | F_ORDER =>
    simp only [coordinateIterator, List.reverse_replicate, ← List.map_reverse,
      coordinates_three_reverse, List.map_map]
    apply List.map_congr_left
    intro c _
    simp [List.map_reverse]

theorem neighborOffsetsOf_reverse (ndim : Nat) (t : NeighborhoodType) (order : MemoryOrder) :
    (neighborOffsetsOf ndim t order).reverse = (neighborOffsetsOf ndim t order).map negate := by
  cases t with
  | DirectNeighborhood =>
    cases order with
    | C_ORDER =>
      rw [neighborOffsetsOf_direct_C]
      simp [List.map_reverse, negate_negate, Function.comp_def]
    | F_ORDER =>
      rw [neighborOffsetsOf_direct_F]
      simp [List.map_reverse, negate_negate, Function.comp_def]
  | IndirectNeighborhood =>
    simp only [neighborOffsetsOf, ← List.map_reverse, ← List.filter_reverse,
      coordinateIterator_three_reverse, List.filter_map, List.map_map]
    have hp : ((fun c : List Int => !(c.all (fun x => x == 1))) ∘
        (fun c : List Int => c.map (fun x => 2 - x))) =
        (fun c : List Int => !(c.all (fun x => x == 1))) := by
      have hx : ∀ x : Int, ((2 - x) == 1) = (x == 1) := by
        intro x
        by_cases h : x = 1
        · subst h; rfl
        · have h2 : ¬ (2 - x = 1) := by omega
          rw [beq_eq_false_iff_ne.mpr h, beq_eq_false_iff_ne.mpr h2]
      funext c
      have hc : ((fun x : Int => x == 1) ∘ fun x : Int => 2 - x) = fun x : Int => x == 1 := by
        funext x
        exact hx x
      simp only [Function.comp, List.all_map]
      rw [hc]
    rw [hp]
    apply List.map_congr_left
    intro c _
    simp only [negate, Function.comp, List.map_map]
    apply List.map_congr_left
    intro a _
    show 2 - a - 1 = -(a - 1)
    omega

theorem getD_mirror {α : Type} (l : List α) (d : α) (k : Nat) (hk : k < l.length) :
    l.getD (l.length - 1 - k) d = l.reverse.getD k d := by
  have h1 : l.length - 1 - k < l.length := by omega
  have h2 : k < l.reverse.length := by simpa using hk
  rw [List.getD_eq_getElem _ _ h1, List.getD_eq_getElem _ _ h2, List.getElem_reverse]

/-- Claim C25: the list of neighbour offsets that `makeArrayNeighborhood` produces is
point-symmetric for every dimension, both neighbourhood types and both memory orders: with
`count` the length of the list, the offset at index `k` is the negation of the offset at
index `count - 1 - k`. -/
theorem makeArrayNeighborhood_point_symmetric (ndim : Nat) (t : NeighborhoodType)
    (order : MemoryOrder) (k : Nat)
    (hk : k < (makeArrayNeighborhood ndim t order).1.length) :
    (makeArrayNeighborhood ndim t order).1.getD k [] =
      negate ((makeArrayNeighborhood ndim t order).1.getD
        ((makeArrayNeighborhood ndim t order).1.length - 1 - k) []) := by
  show (neighborOffsetsOf ndim t order).getD k [] =
      negate ((neighborOffsetsOf ndim t order).getD
        ((neighborOffsetsOf ndim t order).length - 1 - k) [])
  have hk1 : k < (neighborOffsetsOf ndim t order).length := hk
  rw [getD_mirror _ _ k hk1, neighborOffsetsOf_reverse]
  have hk2 : k < ((neighborOffsetsOf ndim t order).map negate).length := by simpa using hk1
  rw [List.getD_eq_getElem _ _ hk2, List.getD_eq_getElem _ _ hk1, List.getElem_map,
    negate_negate]

theorem makeArrayNeighborhood_point_symmetric_witness :
    (makeArrayNeighborhood 2 NeighborhoodType.IndirectNeighborhood MemoryOrder.F_ORDER).1.getD 1 []
        = [0, -1] ∧
      (makeArrayNeighborhood 2 NeighborhoodType.IndirectNeighborhood
        MemoryOrder.F_ORDER).1.getD (8 - 1 - 1) [] = [0, 1] ∧
      (makeArrayNeighborhood 2 NeighborhoodType.IndirectNeighborhood MemoryOrder.F_ORDER).1.getD 1 []
        = negate ((makeArrayNeighborhood 2 NeighborhoodType.IndirectNeighborhood
            MemoryOrder.F_ORDER).1.getD
          ((makeArrayNeighborhood 2 NeighborhoodType.IndirectNeighborhood
            MemoryOrder.F_ORDER).1.length - 1 - 1) []) :=
  ⟨by decide, by decide,
    makeArrayNeighborhood_point_symmetric 2 NeighborhoodType.IndirectNeighborhood
      MemoryOrder.F_ORDER 1 (by decide)⟩

theorem dot_negate (st : List Int) : ∀ v : List Int, dot st (negate v) = -dot st v := by
  induction st with
  | nil => intro v; cases v <;> simp [dot, negate]
  | cons s st ih =>
    intro v
    cases v with
    | nil => simp [dot, negate]
    | cons x v =>
      have := ih v
      simp only [negate, List.map_cons, dot] at this ⊢
      rw [this]; ring

theorem dot_sub_one (st : List Int) :
    ∀ c : List Int, c.length = st.length →
      dot st (c.map (fun x => x - 1)) = dot st c - st.sum := by
  induction st with
  | nil => intro c _; cases c <;> simp [dot]
  | cons s st ih =>
    intro c hc
    cases c with
    | nil => simp at hc
    | cons x c =>
      have := ih c (by simpa using hc)
      simp only [List.map_cons, dot, List.sum_cons] at this ⊢
      rw [this]; ring

theorem dot_eq_sum_zipWith (a : List Int) :
    ∀ b : List Int, dot a b = (List.zipWith (fun x y => x * y) a b).sum := by
  induction a with
  | nil => intro b; cases b <;> simp [dot]
  | cons x a ih =>
    intro b
    cases b with
    | nil => simp [dot]
    | cons y b => simp [dot, ih b]

theorem dot_reverse (a b : List Int) (h : a.length = b.length) :
    dot a.reverse b.reverse = dot a b := by
  rw [dot_eq_sum_zipWith, dot_eq_sum_zipWith, ← List.reverse_zipWith h, List.sum_reverse]

theorem coordinates_pairwise_dot (shape strides : List Int)
    (hlen : shape.length = strides.length) (hnn : ∀ x ∈ shape, 0 ≤ x)
    (hc : ContiguousFrom strides shape 0) :
    (coordinates shape).Pairwise (fun a b => dot strides a < dot strides b) := by
  have h := offsetsFrom_contiguous shape strides hlen hnn shape.length 0 0 (by omega) hc
  simp only [List.drop_zero, offsetsFrom, zero_add] at h
  have h2 : ((coordinates shape).map (fun c => dot c strides)).Pairwise (fun a b => a < b) := by
    rw [h, List.pairwise_map]
    exact (List.pairwise_lt_range _).imp (fun hab => by exact_mod_cast hab)
  rw [List.pairwise_map] at h2
  exact h2.imp (fun hab => by rwa [dot_comm strides, dot_comm strides])

theorem coordinates_length_eq (shape c : List Int) (hc : c ∈ coordinates shape) :
    c.length = shape.length :=
  ((mem_coordinates_iff shape c).mp hc).length_eq

theorem coordinateIterator_length_eq (shape : List Int) (order : MemoryOrder) (c : List Int)
    (hc : c ∈ coordinateIterator shape order) : c.length = shape.length := by
  cases order with
  | C_ORDER => exact coordinates_length_eq shape c hc
  | F_ORDER =>
    simp only [coordinateIterator, List.mem_map] at hc
    obtain ⟨d, hd, rfl⟩ := hc
    rw [List.length_reverse, coordinates_length_eq _ d hd, List.length_reverse]

/-- The coordinate iterator of a memory order lists the coordinates by increasing offset in
the contiguous array of that memory order. -/
theorem coordinateIterator_pairwise_dot (shape : List Int) (order : MemoryOrder)
    (hnn : ∀ x ∈ shape, 0 ≤ x) :
    (coordinateIterator shape order).Pairwise
      (fun a b => dot (shapeToStrides shape order) a < dot (shapeToStrides shape order) b) := by
  cases order with
  | C_ORDER =>
    exact coordinates_pairwise_dot shape _ (shapeToStrides_length _ _).symm hnn
      (contiguousFrom_C shape)
  | F_ORDER =>
    have hl : shape.reverse.length = (shapeToStrides shape MemoryOrder.F_ORDER).reverse.length := by
      rw [List.length_reverse, List.length_reverse, shapeToStrides_length]
    have h := coordinates_pairwise_dot shape.reverse
      (shapeToStrides shape MemoryOrder.F_ORDER).reverse hl
      (fun x hx => hnn x (List.mem_reverse.mp hx)) (contiguousFrom_F_reverse shape)
    simp only [coordinateIterator, List.pairwise_map]
    refine h.imp_of_mem ?_
    intro a b ha hb hab
    have e : ∀ c ∈ coordinates shape.reverse,
        dot (shapeToStrides shape MemoryOrder.F_ORDER) c.reverse =
          dot (shapeToStrides shape MemoryOrder.F_ORDER).reverse c := by
      intro c hc
      have hcl := coordinates_length_eq _ c hc
      rw [← dot_reverse _ c (by rw [List.length_reverse, shapeToStrides_length, hcl, List.length_reverse]),
        List.reverse_reverse]
    rw [e a ha, e b hb]
    exact hab
theorem mem_coordinates_three (n : Nat) :
    ∀ c : List Int, c ∈ coordinates (List.replicate n 3) ↔
      c.length = n ∧ ∀ x ∈ c, 0 ≤ x ∧ x < 3 := by
  induction n with
  | zero =>
    intro c
    simp only [List.replicate_zero, coordinates, List.mem_singleton, List.length_eq_zero]
    constructor
    · intro h; subst h; simp
    · intro h; exact h.1
  | succ n ih =>
    intro c
    rw [mem_coordinates_iff]
    cases c with
    | nil => simp [List.replicate_succ]
    | cons x c =>
      rw [List.replicate_succ, List.forall₂_cons, ← mem_coordinates_iff, ih]
      simp only [List.length_cons, List.mem_cons, forall_eq_or_imp, Nat.succ.injEq]
      tauto

theorem mem_coordinateIterator_three (n : Nat) (order : MemoryOrder) (c : List Int) :
    c ∈ coordinateIterator (List.replicate n 3) order ↔
      c.length = n ∧ ∀ x ∈ c, 0 ≤ x ∧ x < 3 := by
  cases order with
  | C_ORDER => exact mem_coordinates_three n c
  | F_ORDER =>
    simp only [coordinateIterator, List.reverse_replicate, List.mem_map]
    constructor
    · rintro ⟨d, hd, rfl⟩
      have := (mem_coordinates_three n d).mp hd
      simpa using this
    · intro h
      refine ⟨c.reverse, (mem_coordinates_three n _).mpr (by simpa using h), by simp⟩

theorem coordinateIterator_nodup (shape : List Int) (order : MemoryOrder) :
    (coordinateIterator shape order).Nodup := by
  cases order with
  | C_ORDER => exact coordinates_nodup shape
  | F_ORDER => exact (coordinates_nodup _).map List.reverse_injective

theorem coordinateIterator_three_length (n : Nat) (order : MemoryOrder) :
    (coordinateIterator (List.replicate n 3) order).length = 3 ^ n := by
  have h : (coordinates (List.replicate n 3)).length = 3 ^ n := by
    rw [coordinates_length _ (by intro x hx; rw [List.eq_of_mem_replicate hx]; decide)]
    have e : prod (List.replicate n 3) = ((3 ^ n : Nat) : Int) := by
      simp [prod]
    rw [e, Int.toNat_ofNat]
  cases order with
  | C_ORDER => exact h
  | F_ORDER => simpa [coordinateIterator] using h

theorem all_one_iff (c : List Int) :
    c.all (fun x => x == 1) = true ↔ c = List.replicate c.length 1 := by
  rw [List.all_eq_true, List.eq_replicate_iff]
  simp

theorem filter_eq_length_one {α : Type} [DecidableEq α] (l : List α) (a : α) (hn : l.Nodup)
    (ha : a ∈ l) : (l.filter (fun c => decide (c = a))).length = 1 := by
  induction l with
  | nil => simp at ha
  | cons x l ih =>
    rw [List.nodup_cons] at hn
    by_cases hx : x = a
    · subst hx
      have h0 : l.filter (fun c => decide (c = x)) = [] := by
        rw [List.filter_eq_nil_iff]
        intro c hc
        simp only [decide_eq_true_eq]
        intro h
        exact hn.1 (h ▸ hc)
      simp [List.filter_cons, h0]
    · have ha2 : a ∈ l := by
        rcases List.mem_cons.mp ha with h | h
        · exact absurd h.symm hx
        · exact h
      simp [List.filter_cons, hx, ih hn.2 ha2]

theorem neighborOffsetsOf_length (ndim : Nat) (t : NeighborhoodType) (order : MemoryOrder) :
    (neighborOffsetsOf ndim t order).length =
      match t with
      | NeighborhoodType.DirectNeighborhood => 2 * ndim
      | NeighborhoodType.IndirectNeighborhood => 3 ^ ndim - 1 := by
  cases t with
  | DirectNeighborhood => simp [neighborOffsetsOf]; omega
  | IndirectNeighborhood =>
    simp only [neighborOffsetsOf, List.length_map]
    have hl := List.length_eq_length_filter_add
      (l := coordinateIterator (List.replicate ndim 3) order)
      (fun c => !(c.all (fun x => x == 1)))
    rw [coordinateIterator_three_length] at hl
    have hone : List.replicate ndim (1 : Int) ∈ coordinateIterator (List.replicate ndim 3) order := by
      rw [mem_coordinateIterator_three]
      refine ⟨by simp, ?_⟩
      intro x hx
      rw [List.eq_of_mem_replicate hx]
      decide
    have hf : (coordinateIterator (List.replicate ndim 3) order).filter
        (fun c => !(!(c.all (fun x => x == 1)))) =
        (coordinateIterator (List.replicate ndim 3) order).filter
          (fun c => decide (c = List.replicate ndim 1)) := by
      apply List.filter_congr
      intro c hc
      have hcl := (mem_coordinateIterator_three ndim order c).mp hc
      rw [Bool.not_not, Bool.eq_iff_iff, all_one_iff, hcl.1, decide_eq_true_iff]
    have hcount := filter_eq_length_one _ _ (coordinateIterator_nodup _ order) hone
    rw [hf, hcount] at hl
    omega
theorem three_two_le (n : Nat) : ∀ x ∈ List.replicate n (3 : Int), 2 ≤ x := by
  intro x hx
  rw [List.eq_of_mem_replicate hx]
  decide

theorem dot_strides_unitVector (n : Nat) (st : List Int) (a : Nat) (ha : a < n) :
    dot st (unitVector n a 1) = st.getD a 0 := by
  rw [dot_comm, dot_unitVector n a 1 _ ha, one_mul]

theorem strides_three_pos (n : Nat) (order : MemoryOrder) (a : Nat) (ha : a < n) :
    0 < (shapeToStrides (List.replicate n 3) order).getD a 0 := by
  have hlen : a < (List.replicate n (3 : Int)).length := by simpa using ha
  have hone : ∀ l : List Int, (∀ x ∈ l, x ∈ List.replicate n (3 : Int)) → 1 ≤ prod l :=
    fun l hl => prod_pos_of l (fun x hx => le_trans (by decide) (three_two_le n x (hl x hx)))
  cases order with
  | C_ORDER =>
    rw [shapeToStrides_C_getD _ a hlen]
    have := hone ((List.replicate n (3 : Int)).drop (a + 1)) (fun x hx => List.mem_of_mem_drop hx)
    omega
  | F_ORDER =>
    rw [shapeToStrides_F_getD _ a hlen]
    have := hone ((List.replicate n (3 : Int)).take a) (fun x hx => List.mem_of_mem_take hx)
    omega

theorem strides_three_C_anti (n a b : Nat) (hab : a < b) (hb : b < n) :
    (shapeToStrides (List.replicate n 3) MemoryOrder.C_ORDER).getD b 0 <
      (shapeToStrides (List.replicate n 3) MemoryOrder.C_ORDER).getD a 0 := by
  rw [shapeToStrides_C_getD _ a (by simp; omega), shapeToStrides_C_getD _ b (by simpa using hb)]
  exact prod_drop_strictAnti _ (three_two_le n) (b + 1) (a + 1) (by omega) (by simp; omega)

theorem strides_three_F_mono (n a b : Nat) (hab : a < b) (hb : b < n) :
    (shapeToStrides (List.replicate n 3) MemoryOrder.F_ORDER).getD a 0 <
      (shapeToStrides (List.replicate n 3) MemoryOrder.F_ORDER).getD b 0 := by
  rw [shapeToStrides_F_getD _ a (by simp; omega), shapeToStrides_F_getD _ b (by simpa using hb)]
  exact prod_take_strictMono _ (three_two_le n) b a hab (by simp; omega)

/-- The neighbour offsets are listed by strictly increasing offset in the contiguous array of
shape `(3, ..., 3)` of the memory order. -/
theorem neighborOffsetsOf_pairwise_dot (ndim : Nat) (t : NeighborhoodType) (order : MemoryOrder) :
    (neighborOffsetsOf ndim t order).Pairwise
      (fun u v => dot (shapeToStrides (List.replicate ndim 3) order) u <
        dot (shapeToStrides (List.replicate ndim 3) order) v) := by
  cases t with
  | DirectNeighborhood =>
    have hcross : ∀ a b, a < ndim → b < ndim →
        dot (shapeToStrides (List.replicate ndim 3) order) (negate (unitVector ndim a 1)) <
          dot (shapeToStrides (List.replicate ndim 3) order) (unitVector ndim b 1) := by
      intro a b ha hb
      rw [dot_negate, dot_strides_unitVector _ _ a ha, dot_strides_unitVector _ _ b hb]
      have := strides_three_pos ndim order a ha
      have := strides_three_pos ndim order b hb
      omega
    cases order with
    | C_ORDER =>
      rw [neighborOffsetsOf_direct_C, List.pairwise_append]
      refine ⟨?_, ?_, ?_⟩
      · rw [List.pairwise_map]
        refine (List.pairwise_lt_range ndim).imp_of_mem ?_
        intro a b ha hb hab
        rw [dot_negate, dot_negate, dot_strides_unitVector _ _ a (List.mem_range.mp ha),
          dot_strides_unitVector _ _ b (List.mem_range.mp hb)]
        have := strides_three_C_anti ndim a b hab (List.mem_range.mp hb)
        omega
      · rw [List.pairwise_map, List.pairwise_reverse]
        refine (List.pairwise_lt_range ndim).imp_of_mem ?_
        intro a b ha hb hab
        rw [dot_strides_unitVector _ _ a (List.mem_range.mp ha),
          dot_strides_unitVector _ _ b (List.mem_range.mp hb)]
        exact strides_three_C_anti ndim a b hab (List.mem_range.mp hb)
      · intro u hu v hv
        simp only [List.mem_map, List.mem_reverse, List.mem_range] at hu hv
        obtain ⟨a, ha, rfl⟩ := hu
        obtain ⟨b, hb, rfl⟩ := hv
        exact hcross a b ha hb
    | F_ORDER =>
      rw [neighborOffsetsOf_direct_F, List.pairwise_append]
      refine ⟨?_, ?_, ?_⟩
      · rw [List.pairwise_map, List.pairwise_reverse]
        refine (List.pairwise_lt_range ndim).imp_of_mem ?_
        intro a b ha hb hab
        rw [dot_negate, dot_negate, dot_strides_unitVector _ _ a (List.mem_range.mp ha),
          dot_strides_unitVector _ _ b (List.mem_range.mp hb)]
        have := strides_three_F_mono ndim a b hab (List.mem_range.mp hb)
        omega
      · rw [List.pairwise_map]
        refine (List.pairwise_lt_range ndim).imp_of_mem ?_
        intro a b ha hb hab
        rw [dot_strides_unitVector _ _ a (List.mem_range.mp ha),
          dot_strides_unitVector _ _ b (List.mem_range.mp hb)]
        exact strides_three_F_mono ndim a b hab (List.mem_range.mp hb)
      · intro u hu v hv
        simp only [List.mem_map, List.mem_reverse, List.mem_range] at hu hv
        obtain ⟨a, ha, rfl⟩ := hu
        obtain ⟨b, hb, rfl⟩ := hv
        exact hcross a b ha hb
  | IndirectNeighborhood =>
    simp only [neighborOffsetsOf, List.pairwise_map]
    have h := (coordinateIterator_pairwise_dot (List.replicate ndim 3) order
      (fun x hx => le_trans (by decide) (three_two_le ndim x hx))).filter
        (fun c => !(c.all (fun x => x == 1)))
    refine h.imp_of_mem ?_
    intro a b ha hb hab
    have hla := coordinateIterator_length_eq _ order a (List.mem_of_mem_filter ha)
    have hlb := coordinateIterator_length_eq _ order b (List.mem_of_mem_filter hb)
    rw [dot_sub_one _ a (by rw [hla, shapeToStrides_length]),
      dot_sub_one _ b (by rw [hlb, shapeToStrides_length])]
    omega

theorem neighborOffsetsOf_length_even (ndim : Nat) (t : NeighborhoodType) (order : MemoryOrder) :
    (neighborOffsetsOf ndim t order).length % 2 = 0 := by
  rw [neighborOffsetsOf_length]
  cases t with
  | DirectNeighborhood => simp
  | IndirectNeighborhood =>
    have h1 : 3 ^ ndim % 2 = 1 := by simp [Nat.pow_mod]
    have h2 : 0 < 3 ^ ndim := by positivity
    show (3 ^ ndim - 1) % 2 = 0
    omega

/-- Claim C26: with `strides` the contiguous strides of the shape `(3, ..., 3)` under the
memory order, the neighbours that `makeArrayNeighborhood` produces are listed in scan order:
the offset `dot(strides, neighborOffsets[k])` is strictly increasing in `k`, negative for
every `k` in the first half of the list and positive for every `k` in the second half. -/
theorem makeArrayNeighborhood_scan_order (ndim : Nat) (t : NeighborhoodType)
    (order : MemoryOrder) :
    (∀ i j, i < j → j < (makeArrayNeighborhood ndim t order).1.length →
      dot (shapeToStrides (List.replicate ndim 3) order)
          ((makeArrayNeighborhood ndim t order).1.getD i []) <
        dot (shapeToStrides (List.replicate ndim 3) order)
          ((makeArrayNeighborhood ndim t order).1.getD j [])) ∧
    (∀ k, k < (makeArrayNeighborhood ndim t order).1.length / 2 →
      dot (shapeToStrides (List.replicate ndim 3) order)
        ((makeArrayNeighborhood ndim t order).1.getD k []) < 0) ∧
    (∀ k, (makeArrayNeighborhood ndim t order).1.length / 2 ≤ k →
      k < (makeArrayNeighborhood ndim t order).1.length →
      0 < dot (shapeToStrides (List.replicate ndim 3) order)
        ((makeArrayNeighborhood ndim t order).1.getD k [])) := by
  show (∀ i j, i < j → j < (neighborOffsetsOf ndim t order).length →
      dot (shapeToStrides (List.replicate ndim 3) order)
          ((neighborOffsetsOf ndim t order).getD i []) <
        dot (shapeToStrides (List.replicate ndim 3) order)
          ((neighborOffsetsOf ndim t order).getD j [])) ∧
    (∀ k, k < (neighborOffsetsOf ndim t order).length / 2 →
      dot (shapeToStrides (List.replicate ndim 3) order)
        ((neighborOffsetsOf ndim t order).getD k []) < 0) ∧
    (∀ k, (neighborOffsetsOf ndim t order).length / 2 ≤ k →
      k < (neighborOffsetsOf ndim t order).length →
      0 < dot (shapeToStrides (List.replicate ndim 3) order)
        ((neighborOffsetsOf ndim t order).getD k []))
  have hinc : ∀ i j, i < j → j < (neighborOffsetsOf ndim t order).length →
      dot (shapeToStrides (List.replicate ndim 3) order)
          ((neighborOffsetsOf ndim t order).getD i []) <
        dot (shapeToStrides (List.replicate ndim 3) order)
          ((neighborOffsetsOf ndim t order).getD j []) := by
    intro i j hij hj
    have hi : i < (neighborOffsetsOf ndim t order).length := by omega
    rw [List.getD_eq_getElem _ _ hi, List.getD_eq_getElem _ _ hj]
    exact List.pairwise_iff_getElem.mp (neighborOffsetsOf_pairwise_dot ndim t order) i j hi hj hij
  have hsym : ∀ k, k < (neighborOffsetsOf ndim t order).length →
      dot (shapeToStrides (List.replicate ndim 3) order)
          ((neighborOffsetsOf ndim t order).getD
            ((neighborOffsetsOf ndim t order).length - 1 - k) []) =
        -dot (shapeToStrides (List.replicate ndim 3) order)
          ((neighborOffsetsOf ndim t order).getD k []) := by
    intro k hk
    have hk2 : k < ((neighborOffsetsOf ndim t order).map negate).length := by simpa using hk
    rw [getD_mirror _ _ k hk, neighborOffsetsOf_reverse, List.getD_eq_getElem _ _ hk2,
      List.getD_eq_getElem _ _ hk, List.getElem_map, dot_negate]
  have heven := neighborOffsetsOf_length_even ndim t order
  refine ⟨hinc, ?_, ?_⟩
  · intro k hk
    have hk1 : k < (neighborOffsetsOf ndim t order).length := by omega
    have h1 := hinc k ((neighborOffsetsOf ndim t order).length - 1 - k) (by omega) (by omega)
    rw [hsym k hk1] at h1
    omega
  · intro k hk hk1
    have h1 := hinc ((neighborOffsetsOf ndim t order).length - 1 - k) k (by omega) hk1
    rw [hsym k hk1] at h1
    omega

theorem makeArrayNeighborhood_scan_order_witness :
    dot (shapeToStrides (List.replicate 2 3) MemoryOrder.F_ORDER)
        ((makeArrayNeighborhood 2 NeighborhoodType.IndirectNeighborhood
          MemoryOrder.F_ORDER).1.getD 3 []) <
      dot (shapeToStrides (List.replicate 2 3) MemoryOrder.F_ORDER)
        ((makeArrayNeighborhood 2 NeighborhoodType.IndirectNeighborhood
          MemoryOrder.F_ORDER).1.getD 4 []) ∧
    dot (shapeToStrides (List.replicate 2 3) MemoryOrder.F_ORDER)
        ((makeArrayNeighborhood 2 NeighborhoodType.IndirectNeighborhood
          MemoryOrder.F_ORDER).1.getD 3 []) = -1 :=
  ⟨(makeArrayNeighborhood_scan_order 2 NeighborhoodType.IndirectNeighborhood
      MemoryOrder.F_ORDER).1 3 4 (by decide) (by decide), by decide⟩

theorem unitVector_getD (n a j : Nat) (d : Int) (ha : a < n) :
    (unitVector n a d).getD j 0 = if a = j then d else 0 := by
  simp only [unitVector, List.getD_eq_getElem?_getD, List.getElem?_set, List.length_replicate,
    List.getElem?_replicate]
  by_cases h : a = j
  · subst h; simp [ha]
  · simp only [h, if_false]
    split <;> rfl

theorem negate_getD (v : List Int) (k : Nat) : (negate v).getD k 0 = -(v.getD k 0) := by
  have h := List.getD_map (l := v) (d := (0 : Int)) (n := k) (fun x => -x)
  simpa [negate] using h

theorem negate_unitVector (n a : Nat) (d : Int) :
    negate (unitVector n a d) = unitVector n a (-d) := by
  apply List.ext_getElem
  · simp [negate, unitVector]
  · intro i h1 h2
    simp [negate, unitVector, List.getElem_set]

theorem getD_zipWith_add (a : List Int) :
    ∀ (b : List Int) (j : Nat), a.length = b.length →
      (List.zipWith (fun x y => x + y) a b).getD j 0 = a.getD j 0 + b.getD j 0 := by
  induction a with
  | nil =>
    intro b j h
    cases b with
    | nil => simp
    | cons y b => simp at h
  | cons x a ih =>
    intro b j h
    cases b with
    | nil => simp at h
    | cons y b =>
      cases j with
      | zero => simp
      | succ j =>
        have := ih b j (by simpa using h)
        simpa using this

theorem mem_neighborOffsetsOf_direct (ndim : Nat) (order : MemoryOrder) (v : List Int) :
    v ∈ neighborOffsetsOf ndim NeighborhoodType.DirectNeighborhood order ↔
      ∃ k, k < ndim ∧ (v = unitVector ndim k 1 ∨ v = unitVector ndim k (-1)) := by
  cases order with
  | C_ORDER =>
    rw [neighborOffsetsOf_direct_C]
    simp only [List.mem_append, List.mem_map, List.mem_reverse, List.mem_range,
      negate_unitVector]
    constructor
    · rintro (⟨a, ha, rfl⟩ | ⟨a, ha, rfl⟩)
      · exact ⟨a, ha, Or.inr rfl⟩
      · exact ⟨a, ha, Or.inl rfl⟩
    · rintro ⟨k, hk, rfl | rfl⟩
      · exact Or.inr ⟨k, hk, rfl⟩
      · exact Or.inl ⟨k, hk, rfl⟩
  | F_ORDER =>
    rw [neighborOffsetsOf_direct_F]
    simp only [List.mem_append, List.mem_map, List.mem_reverse, List.mem_range,
      negate_unitVector]
    constructor
    · rintro (⟨a, ha, rfl⟩ | ⟨a, ha, rfl⟩)
      · exact ⟨a, ha, Or.inr rfl⟩
      · exact ⟨a, ha, Or.inl rfl⟩
    · rintro ⟨k, hk, rfl | rfl⟩
      · exact Or.inr ⟨k, hk, rfl⟩
      · exact Or.inl ⟨k, hk, rfl⟩

theorem mem_neighborOffsetsOf_indirect (ndim : Nat) (order : MemoryOrder) (v : List Int) :
    v ∈ neighborOffsetsOf ndim NeighborhoodType.IndirectNeighborhood order ↔
      v.length = ndim ∧ (∀ x ∈ v, x = -1 ∨ x = 0 ∨ x = 1) ∧ v ≠ List.replicate ndim 0 := by
  simp only [neighborOffsetsOf, List.mem_map, List.mem_filter, mem_coordinateIterator_three,
    Bool.not_eq_true', ← Bool.not_eq_true, all_one_iff]
  constructor
  · rintro ⟨c, ⟨⟨hl, hx⟩, hne⟩, rfl⟩
    refine ⟨by simpa using hl, ?_, ?_⟩
    · intro x hxm
      simp only [List.mem_map] at hxm
      obtain ⟨y, hy, rfl⟩ := hxm
      have := hx y hy
      omega
    · intro h0
      apply hne
      rw [hl]
      apply List.ext_getElem
      · simp [hl]
      · intro i h1 h2
        have h3 : i < (c.map (fun x => x - 1)).length := by simpa using h1
        have h5 : i < (List.replicate ndim (0 : Int)).length := by simpa using h2
        have h4 : (c.map (fun x => x - 1))[i] = (List.replicate ndim (0 : Int))[i] := by
          simp only [h0]
        simp only [List.getElem_map, List.getElem_replicate] at h4 ⊢
        omega
  · rintro ⟨hl, hx, hne⟩
    refine ⟨v.map (fun x => x + 1), ⟨⟨by simpa using hl, ?_⟩, ?_⟩, ?_⟩
    · intro x hxm
      simp only [List.mem_map] at hxm
      obtain ⟨y, hy, rfl⟩ := hxm
      have := hx y hy
      omega
    · intro h1
      apply hne
      rw [List.length_map, hl] at h1
      apply List.ext_getElem
      · simp [hl]
      · intro i h2 h3
        have h5 : i < (v.map (fun x => x + 1)).length := by simpa using h2
        have h6 : i < (List.replicate ndim (1 : Int)).length := by simpa using h3
        have h4 : (v.map (fun x => x + 1))[i] = (List.replicate ndim (1 : Int))[i] := by
          simp only [h1]
        simp only [List.getElem_map, List.getElem_replicate] at h4 ⊢
        omega
    · rw [List.map_map]
      conv_rhs => rw [← List.map_id v]
      apply List.map_congr_left
      intro a _
      simp

theorem doubleExcessBits_of_lt (x : Nat) (h : x < 2 ^ 53) : doubleExcessBits x = 0 := by
  unfold doubleExcessBits
  rw [List.length_eq_zero, List.filter_eq_nil_iff]
  intro k _
  have : 2 ^ 53 ≤ 2 ^ (k + 53) := Nat.pow_le_pow_right (by decide) (by omega)
  simp only [decide_eq_true_eq]
  omega

/-- An integer below `2 ^ 53` is a `double`. -/
theorem roundToDouble_of_lt (x : Nat) (h : x < 2 ^ 53) : roundToDouble x = x := by
  unfold roundToDouble
  rw [doubleExcessBits_of_lt x h]
  simp [Nat.mod_one]

theorem gridGraphMaxDegree_direct (N : Nat) (h : 2 * N < 2 ^ 32) :
    gridGraphMaxDegree N NeighborhoodType.DirectNeighborhood = ((2 * N : Nat) : Int) := by
  show (((2 * N) % 2 ^ 32 : Nat) : Int) = _
  rw [Nat.mod_eq_of_lt h]

theorem gridGraphMaxDegree_indirect (N : Nat) (h : 3 ^ N < 2 ^ 53) :
    gridGraphMaxDegree N NeighborhoodType.IndirectNeighborhood = ((3 ^ N - 1 : Nat) : Int) := by
  show ((roundToDouble (roundToDouble (3 ^ N) - 1) : Nat) : Int) = _
  rw [roundToDouble_of_lt _ h, roundToDouble_of_lt _ (by omega)]

theorem and_two_pow_ne_zero (bt i : Nat) : bt &&& 2 ^ i ≠ 0 ↔ bt.testBit i = true := by
  rw [Nat.and_two_pow]
  have h2 : 2 ^ i ≠ 0 := by positivity
  cases h : bt.testBit i <;> simp [h2]

theorem mask_low (k : Nat) (hk : 2 * k < 32) : (1 <<< (2 * k)) % 2 ^ 32 = 2 ^ (2 * k) := by
  rw [Nat.one_shiftLeft]
  exact Nat.mod_eq_of_lt (Nat.pow_lt_pow_right (by decide) hk)

theorem mask_high (k : Nat) (hk : 2 * k + 1 < 32) :
    (2 <<< (2 * k)) % 2 ^ 32 = 2 ^ (2 * k + 1) := by
  rw [Nat.shiftLeft_eq, Nat.mul_comm, ← Nat.pow_succ]
  exact Nat.mod_eq_of_lt (Nat.pow_lt_pow_right (by decide) hk)

theorem neighborInside_iff (offset : List Int) (bt : Nat) :
    ∀ ks : List Nat, neighborInside offset bt ks = true ↔
      ∀ k ∈ ks, ¬ ((offset.getD k 0 < 0 ∧ bt &&& ((1 <<< (2 * k)) % 2 ^ 32) ≠ 0) ∨
        (offset.getD k 0 > 0 ∧ bt &&& ((2 <<< (2 * k)) % 2 ^ 32) ≠ 0)) := by
  intro ks
  induction ks with
  | nil => simp [neighborInside]
  | cons k ks ih =>
    unfold neighborInside
    by_cases h : (offset.getD k 0 < 0 ∧ bt &&& ((1 <<< (2 * k)) % 2 ^ 32) ≠ 0) ∨
        (offset.getD k 0 > 0 ∧ bt &&& ((2 <<< (2 * k)) % 2 ^ 32) ≠ 0)
    · rw [if_pos h]
      constructor
      · intro hf; cases hf
      · intro hall
        exact absurd h (hall k (List.mem_cons_self _ _))
    · rw [if_neg h, ih]
      constructor
      · intro hall j hj
        rcases List.mem_cons.mp hj with rfl | hj2
        · exact h
        · exact hall j hj2
      · intro hall j hj
        exact hall j (List.mem_cons_of_mem _ hj)

theorem neighborExistsOf_length (ndim : Nat) (t : NeighborhoodType) (offs : List (List Int)) :
    (neighborExistsOf ndim t offs).length = (1 <<< (2 * ndim)) % 2 ^ 32 := by
  simp [neighborExistsOf]

theorem borderTypeCount_eq (ndim : Nat) (h : ndim ≤ 15) :
    (1 <<< (2 * ndim)) % 2 ^ 32 = 4 ^ ndim := by
  rw [mask_low ndim (by omega), Nat.pow_mul]

theorem degree_eq (ndim : Nat) (t : NeighborhoodType) (order : MemoryOrder) (h : ndim ≤ 15) :
    (gridGraphMaxDegree ndim t).toNat % 2 ^ 32 = (neighborOffsetsOf ndim t order).length := by
  rw [neighborOffsetsOf_length]
  cases t with
  | DirectNeighborhood =>
    rw [gridGraphMaxDegree_direct ndim (by omega), Int.toNat_ofNat]
    exact Nat.mod_eq_of_lt (by omega)
  | IndirectNeighborhood =>
    have h2 : 3 ^ ndim ≤ 3 ^ 15 := Nat.pow_le_pow_right (by decide) h
    have h4 : (3 : Nat) ^ 15 < 2 ^ 32 := by decide
    rw [gridGraphMaxDegree_indirect ndim (by omega), Int.toNat_ofNat]
    exact Nat.mod_eq_of_lt (by omega)

theorem getD_of_forall_mem (v : List Int) (P : Int → Prop) (h0 : P 0) (h : ∀ x ∈ v, P x)
    (k : Nat) : P (v.getD k 0) := by
  by_cases hk : k < v.length
  · rw [List.getD_eq_getElem _ _ hk]
    exact h _ (List.getElem_mem _)
  · rw [List.getD_eq_default _ _ (by omega)]
    exact h0

theorem neighborOffsetsOf_entries (ndim : Nat) (t : NeighborhoodType) (order : MemoryOrder)
    (v : List Int) (hv : v ∈ neighborOffsetsOf ndim t order) :
    v.length = ndim ∧ ∀ k, v.getD k 0 = -1 ∨ v.getD k 0 = 0 ∨ v.getD k 0 = 1 := by
  cases t with
  | DirectNeighborhood =>
    obtain ⟨a, ha, rfl | rfl⟩ := (mem_neighborOffsetsOf_direct ndim order v).mp hv
    · refine ⟨unitVector_length _ _ _, ?_⟩
      intro k
      rw [unitVector_getD ndim a k 1 ha]
      split <;> simp
    · refine ⟨unitVector_length _ _ _, ?_⟩
      intro k
      rw [unitVector_getD ndim a k (-1) ha]
      split <;> simp
  | IndirectNeighborhood =>
    obtain ⟨hl, hx, _⟩ := (mem_neighborOffsetsOf_indirect ndim order v).mp hv
    exact ⟨hl, fun k => getD_of_forall_mem v (fun x => x = -1 ∨ x = 0 ∨ x = 1)
      (Or.inr (Or.inl rfl)) hx k⟩

theorem mem_coordinates_getD (s c : List Int) :
    c ∈ coordinates s ↔
      c.length = s.length ∧ ∀ k, k < s.length → 0 ≤ c.getD k 0 ∧ c.getD k 0 < s.getD k 0 := by
  rw [mem_coordinates_iff, List.forall₂_iff_get]
  constructor
  · rintro ⟨hl, h⟩
    refine ⟨hl, ?_⟩
    intro k hk
    have hkc : k < c.length := by omega
    rw [List.getD_eq_getElem _ _ hkc, List.getD_eq_getElem _ _ hk]
    exact h k hkc hk
  · rintro ⟨hl, h⟩
    refine ⟨hl, ?_⟩
    intro k hkc hk
    have := h k hk
    rw [List.getD_eq_getElem _ _ hkc, List.getD_eq_getElem _ _ hk] at this
    exact this
theorem neighborExistsOf_row (ndim : Nat) (t : NeighborhoodType) (order : MemoryOrder)
    (h : ndim ≤ 15) (bt : Nat) (hbt : bt < 4 ^ ndim) :
    (neighborExistsOf ndim t (neighborOffsetsOf ndim t order)).getD bt [] =
      (List.range (neighborOffsetsOf ndim t order).length).map (fun o =>
        neighborInside ((neighborOffsetsOf ndim t order).getD o []) bt (List.range ndim)) := by
  have hb : bt < (neighborExistsOf ndim t (neighborOffsetsOf ndim t order)).length := by
    rw [neighborExistsOf_length, borderTypeCount_eq ndim h]
    exact hbt
  rw [List.getD_eq_getElem _ _ hb]
  simp only [neighborExistsOf, List.getElem_map, List.getElem_range,
    degree_eq ndim t order h]

/-- The flag computed for an offset with entries in `-1, 0, 1` at the border type of a
coordinate says whether the neighbour lies inside the shape. -/
theorem neighborInside_spec (ndim : Nat) (s c v : List Int) (bt : Nat) (hdim : ndim ≤ 15)
    (hs : s.length = ndim) (hc : c ∈ coordinates s) (hvl : v.length = ndim)
    (hv : ∀ k, v.getD k 0 = -1 ∨ v.getD k 0 = 0 ∨ v.getD k 0 = 1)
    (hbits : ∀ k, k < ndim →
      (bt.testBit (2 * k) = true ↔ c.getD k 0 = 0) ∧
      (bt.testBit (2 * k + 1) = true ↔ c.getD k 0 = s.getD k 0 - 1)) :
    neighborInside v bt (List.range ndim) = true ↔
      List.zipWith (fun a b => a + b) c v ∈ coordinates s := by
  obtain ⟨hcl, hcb⟩ := (mem_coordinates_getD s c).mp hc
  have hcv : c.length = v.length := by rw [hcl, hs, hvl]
  rw [neighborInside_iff, mem_coordinates_getD]
  have hkey : ∀ k, k < ndim →
      (¬ ((v.getD k 0 < 0 ∧ bt &&& ((1 <<< (2 * k)) % 2 ^ 32) ≠ 0) ∨
          (v.getD k 0 > 0 ∧ bt &&& ((2 <<< (2 * k)) % 2 ^ 32) ≠ 0)) ↔
        (0 ≤ c.getD k 0 + v.getD k 0 ∧ c.getD k 0 + v.getD k 0 < s.getD k 0)) := by
    intro k hk
    rw [mask_low k (by omega), mask_high k (by omega), and_two_pow_ne_zero,
      and_two_pow_ne_zero, (hbits k hk).1, (hbits k hk).2]
    have hb := hcb k (by omega)
    rcases hv k with h | h | h <;> rw [h] <;> constructor <;> intro h1 <;> omega
  constructor
  · intro hall
    refine ⟨by simp [hcl, hs, hvl], ?_⟩
    intro k hk
    rw [getD_zipWith_add c v k hcv]
    exact (hkey k (by omega)).mp (hall k (List.mem_range.mpr (by omega)))
  · rintro ⟨_, hall⟩ k hk
    have hk2 : k < ndim := List.mem_range.mp hk
    have := hall k (by omega)
    rw [getD_zipWith_add c v k hcv] at this
    exact (hkey k hk2).mpr this

/-- Claim C27 (amended): for every dimension `ndim <= 15`, both neighbourhood types and both
memory orders, every shape `s` of rank `ndim` and every coordinate `c` inside `s`: with `bt`
the border code below `4 ^ ndim` that has bit `2k` set iff `c[k] == 0` and bit `2k+1` set iff
`c[k] == s[k] - 1`, the row `neighborExists[bt]` has one entry per neighbour offset, and
`neighborExists[bt][o]` is true if and only if `c + neighborOffsets[o]` lies inside `s`; the
table has `4 ^ ndim` rows. -/
theorem makeArrayNeighborhood_neighborExists (ndim : Nat) (t : NeighborhoodType)
    (order : MemoryOrder) (s c : List Int) (bt : Nat) (hdim : ndim ≤ 15)
    (hs : s.length = ndim) (hc : c ∈ coordinates s) (hbt : bt < 4 ^ ndim)
    (hbits : ∀ k, k < ndim →
      (bt.testBit (2 * k) = true ↔ c.getD k 0 = 0) ∧
      (bt.testBit (2 * k + 1) = true ↔ c.getD k 0 = s.getD k 0 - 1)) :
    (makeArrayNeighborhood ndim t order).2.length = 4 ^ ndim ∧
    ((makeArrayNeighborhood ndim t order).2.getD bt []).length =
      (makeArrayNeighborhood ndim t order).1.length ∧
    ∀ o, o < (makeArrayNeighborhood ndim t order).1.length →
      (((makeArrayNeighborhood ndim t order).2.getD bt []).getD o false = true ↔
        List.zipWith (fun a b => a + b) c ((makeArrayNeighborhood ndim t order).1.getD o []) ∈
          coordinates s) := by
  show (neighborExistsOf ndim t (neighborOffsetsOf ndim t order)).length = 4 ^ ndim ∧
    ((neighborExistsOf ndim t (neighborOffsetsOf ndim t order)).getD bt []).length =
      (neighborOffsetsOf ndim t order).length ∧
    ∀ o, o < (neighborOffsetsOf ndim t order).length →
      (((neighborExistsOf ndim t (neighborOffsetsOf ndim t order)).getD bt []).getD o false
          = true ↔
        List.zipWith (fun a b => a + b) c ((neighborOffsetsOf ndim t order).getD o []) ∈
          coordinates s)
  rw [neighborExistsOf_row ndim t order hdim bt hbt, neighborExistsOf_length,
    borderTypeCount_eq ndim hdim]
  refine ⟨rfl, by simp, ?_⟩
  intro o ho
  have ho2 : o < ((List.range (neighborOffsetsOf ndim t order).length).map (fun o =>
      neighborInside ((neighborOffsetsOf ndim t order).getD o []) bt
        (List.range ndim))).length := by
    simpa using ho
  rw [List.getD_eq_getElem _ _ ho2, List.getElem_map, List.getElem_range]
  have hmem : (neighborOffsetsOf ndim t order).getD o [] ∈ neighborOffsetsOf ndim t order := by
    rw [List.getD_eq_getElem _ _ ho]
    exact List.getElem_mem _
  obtain ⟨hvl, hv⟩ := neighborOffsetsOf_entries ndim t order _ hmem
  exact neighborInside_spec ndim s c _ bt hdim hs hc hvl hv hbits

theorem makeArrayNeighborhood_neighborExists_witness :
    (makeArrayNeighborhood 2 NeighborhoodType.IndirectNeighborhood
        MemoryOrder.C_ORDER).2.length = 4 ^ 2 ∧
      ((makeArrayNeighborhood 2 NeighborhoodType.IndirectNeighborhood
        MemoryOrder.C_ORDER).2.getD 10 []) =
        [true, true, false, true, false, false, false, false] ∧
      (makeArrayNeighborhood 2 NeighborhoodType.IndirectNeighborhood
        MemoryOrder.C_ORDER).1.getD 3 [] = [0, -1] ∧
      ((((makeArrayNeighborhood 2 NeighborhoodType.IndirectNeighborhood
          MemoryOrder.C_ORDER).2.getD 10 []).getD 3 false = true) ↔
        List.zipWith (fun a b => a + b) [1, 2]
            ((makeArrayNeighborhood 2 NeighborhoodType.IndirectNeighborhood
              MemoryOrder.C_ORDER).1.getD 3 []) ∈
          coordinates [2, 3]) :=
  ⟨(makeArrayNeighborhood_neighborExists 2 NeighborhoodType.IndirectNeighborhood
      MemoryOrder.C_ORDER [2, 3] [1, 2] 10 (by decide) rfl (by decide) (by decide)
      (by decide)).1,
    by decide, by decide,
    (makeArrayNeighborhood_neighborExists 2 NeighborhoodType.IndirectNeighborhood
      MemoryOrder.C_ORDER [2, 3] [1, 2] 10 (by decide) rfl (by decide) (by decide)
      (by decide)).2.2 3 (by decide)⟩

/-- At `ndim = 16` the count `1 << 2*ndim` does not fit the 32-bit `borderTypeCount`: the
table does not have `4 ^ 16` rows. -/
theorem makeArrayNeighborhood_table_rows_counterexample :
    (makeArrayNeighborhood 16 NeighborhoodType.DirectNeighborhood MemoryOrder.C_ORDER).2.length
      ≠ 4 ^ 16 := by
  show (neighborExistsOf 16 NeighborhoodType.DirectNeighborhood
    (neighborOffsetsOf 16 NeighborhoodType.DirectNeighborhood MemoryOrder.C_ORDER)).length ≠ _
  rw [neighborExistsOf_length]
  decide

/-! ## The flat fast path -/

/-- Converse of `offsetsFrom_contiguous` for blocks without unit-length axes: when the
elements of a block, in lexicographic order, occupy consecutive addresses, the strides are
the contiguous strides of the block. -/
theorem contiguous_of_consecutive_offsets :
    ∀ (sh st : List Int), sh.length = st.length → (∀ x ∈ sh, 2 ≤ x) → ∀ base : Int,
      offsetsFrom sh st base =
        (List.range (prod sh).toNat).map (fun (k : Nat) => base + (k : Int)) →
      ContiguousFrom st sh 0 := by
  intro sh
  induction sh with
  | nil =>
    intro st hlen _ base _ k hk
    have : st.length = 0 := by simpa using hlen.symm
    omega
  | cons n rest ih =>
    intro st hlen h2 base H
    cases st with
    | nil => simp at hlen
    | cons s st =>
      have hlen2 : rest.length = st.length := by simpa using hlen
      have h2r : ∀ x ∈ rest, 2 ≤ x := fun x hx => h2 x (List.mem_cons_of_mem _ hx)
      have hnnr : ∀ x ∈ rest, 0 ≤ x := fun x hx => le_trans (by decide) (h2r x hx)
      have hn : 2 ≤ n := h2 n (List.mem_cons_self _ _)
      have hP : 1 ≤ prod rest := prod_pos_of rest (fun x hx => le_trans (by decide) (h2r x hx))
      have hcast : (((prod rest).toNat : Nat) : Int) = prod rest := Int.toNat_of_nonneg (by omega)
      obtain ⟨m, hm⟩ : ∃ m, n.toNat = m + 2 := ⟨n.toNat - 2, by omega⟩
      have hprod : prod (n :: rest) = n * prod rest := by simp [prod]
      rw [offsetsFrom_cons, hprod, toNat_mul_of_nonneg _ _ (by omega) (by omega),
        ← range_flatMap_mul (fun (k : Nat) => base + (k : Int)), hm] at H
      simp only [List.range_succ_eq_map, List.flatMap_cons, List.map_cons] at H
      have hl0 : (offsetsFrom rest st (base + ((0 : Nat) : Int) * s)).length =
          ((List.range (prod rest).toNat).map
            (fun (k : Nat) => base + ((0 * (prod rest).toNat + k : Nat) : Int))).length := by
        rw [List.length_map, List.length_range, offsetsFrom, List.length_map,
          coordinates_length rest hnnr]
      obtain ⟨hB0, hrest⟩ := List.append_inj H hl0
      have hl1 : (offsetsFrom rest st (base + ((Nat.succ 0 : Nat) : Int) * s)).length =
          ((List.range (prod rest).toNat).map
            (fun (k : Nat) => base + ((Nat.succ 0 * (prod rest).toNat + k : Nat) : Int))).length := by
        rw [List.length_map, List.length_range, offsetsFrom, List.length_map,
          coordinates_length rest hnnr]
      obtain ⟨hB1, _⟩ := List.append_inj hrest hl1
      have hB0' : offsetsFrom rest st base =
          (List.range (prod rest).toNat).map (fun (k : Nat) => base + (k : Int)) := by
        simpa using hB0
      have hc := ih st hlen2 h2r base hB0'
      have hflat := offsetsFrom_contiguous rest st hlen2 hnnr rest.length 0 (base + s)
        (by omega) hc
      simp only [List.drop_zero] at hflat
      have hB1' : offsetsFrom rest st (base + s) =
          (List.range (prod rest).toNat).map
            (fun (k : Nat) => base + (((prod rest).toNat + k : Nat) : Int)) := by
        simpa using hB1
      rw [hflat, List.map_inj_left] at hB1'
      have h0 := hB1' 0 (List.mem_range.mpr (by omega))
      have hs : s = prod rest := by
        push_cast at h0
        omega
      intro k hk _
      cases k with
      | zero => simpa using hs
      | succ k =>
        have := hc k (by simpa using hk) (Nat.zero_le _)
        simpa using this

theorem contiguousFrom_of_drop (strides shape : List Int) (dim : Nat)
    (h : ContiguousFrom (strides.drop dim) (shape.drop dim) 0) :
    ContiguousFrom strides shape dim := by
  intro k hk hdim
  have h1 := h (k - dim) (by rw [List.length_drop]; omega) (Nat.zero_le _)
  have e1 : (strides.drop dim).getD (k - dim) 0 = strides.getD k 0 := by
    rw [List.getD_eq_getElem _ _ (by rw [List.length_drop]; omega),
      List.getD_eq_getElem _ _ hk, List.getElem_drop]
    congr 1
    omega
  have e2 : (shape.drop dim).drop (k - dim + 1) = shape.drop (k + 1) := by
    rw [List.drop_drop]
    congr 1
    omega
  rw [e1, e2] at h1
  exact h1
theorem isConsecutive_of_consecutive_offsets (h : HandleND) (shape : List Int) (dim : Nat)
    (hlen : h.strides_.length = shape.length) (hpos : ∀ x ∈ shape, 1 ≤ x)
    (hnounit : ∀ x ∈ shape.drop dim, x ≠ 1)
    (hc : offsetsFrom (shape.drop dim) (h.strides_.drop dim) h.data_ =
      (List.range (prod (shape.drop dim)).toNat).map (fun (k : Nat) => h.data_ + (k : Int))) :
    h.isConsecutive shape dim = prod (shape.drop dim) := by
  have h2 : ∀ x ∈ shape.drop dim, 2 ≤ x := by
    intro x hx
    have := hpos x (List.mem_of_mem_drop hx)
    have := hnounit x hx
    omega
  have hcf := contiguousFrom_of_drop h.strides_ shape dim
    (contiguous_of_consecutive_offsets _ _ (by simp [hlen]) h2 h.data_ hc)
  rw [isConsecutive_eq h shape dim (by simp [HandleND.ndim, hlen]), if_pos hcf]

/-- Claim C29 (amended): the flat fast path fires whenever the remaining sub-array has no
axis of length 1 and is fully contiguous in every operand. For every shape with entries
`>= 1`, every axis `dim < rank` such that no axis from `dim` on has length 1, and array
handles `h1`, `h2`: if in each handle the elements of the sub-array spanned by the axes
`dim .. rank-1`, taken in lexicographic order, lie at the consecutive addresses `pos`,
`pos + 1`, ..., `pos + prod(shape[dim..]) - 1`, then `isConsecutive` reports the same nonzero
run length `prod(shape[dim..])` for both, so that the one-handle and the two-handle
`genericArrayFunctionImpl` at axis `dim` take the flat pointer loop of that length. -/
theorem flat_path_fires_without_unit_axes {σ : Type} (h1 h2 : HandleND) (shape : List Int)
    (f : Int → σ → σ) (g : Int → Int → σ → σ) (dim : Nat) (s : σ)
    (hdim : dim < shape.length)
    (hlen1 : h1.strides_.length = shape.length) (hlen2 : h2.strides_.length = shape.length)
    (hpos : ∀ x ∈ shape, 1 ≤ x) (hnounit : ∀ x ∈ shape.drop dim, x ≠ 1)
    (hc1 : offsetsFrom (shape.drop dim) (h1.strides_.drop dim) h1.data_ =
      (List.range (prod (shape.drop dim)).toNat).map (fun (k : Nat) => h1.data_ + (k : Int)))
    (hc2 : offsetsFrom (shape.drop dim) (h2.strides_.drop dim) h2.data_ =
      (List.range (prod (shape.drop dim)).toNat).map (fun (k : Nat) => h2.data_ + (k : Int))) :
    h1.isConsecutive shape dim ≠ 0 ∧
    h1.isConsecutive shape dim = h2.isConsecutive shape dim ∧
    h1.isConsecutive shape dim = prod (shape.drop dim) ∧
    genericArrayFunctionImpl h1 shape f dim s =
      (forLoop (fun (ps : Int × σ) => some (ps.1 + 1, f ps.1 ps.2))
        (prod (shape.drop dim)).toNat (h1.ptr, s)).map (fun ps => (h1, ps.2)) ∧
    genericArrayFunctionImpl2 h1 h2 shape g dim s =
      (forLoop (fun (ps : Int × Int × σ) => some (ps.1 + 1, ps.2.1 + 1, g ps.1 ps.2.1 ps.2.2))
        (prod (shape.drop dim)).toNat (h1.ptr, h2.ptr, s)).map
          (fun ps => (h1, h2, ps.2.2)) := by
  have e1 := isConsecutive_of_consecutive_offsets h1 shape dim hlen1 hpos hnounit hc1
  have e2 := isConsecutive_of_consecutive_offsets h2 shape dim hlen2 hpos hnounit hc2
  have hP : 1 ≤ prod (shape.drop dim) :=
    prod_pos_of _ (fun x hx => hpos x (List.mem_of_mem_drop hx))
  have hne : prod (shape.drop dim) ≠ 0 := by omega
  obtain ⟨rest, hrest⟩ : ∃ rest, shape.length - dim = rest + 1 :=
    ⟨shape.length - dim - 1, by omega⟩
  refine ⟨by rw [e1]; exact hne, by rw [e1, e2], e1, ?_, ?_⟩
  · unfold genericArrayFunctionImpl
    rw [hrest]
    unfold genericArrayFunctionImplAux
    simp only [not_lt, Nat.not_le.mpr hdim, if_false, e1, ne_eq, hne, not_false_eq_true, if_true]
  · unfold genericArrayFunctionImpl2
    rw [hrest]
    unfold genericArrayFunctionImpl2Aux
    simp only [not_lt, Nat.not_le.mpr hdim, if_false, e1, e2, ne_eq, hne, not_false_eq_true,
      and_self, if_true]

theorem flat_path_fires_without_unit_axes_witness :
    offsetsFrom [2, 3] [3, 1] 0 = [0, 1, 2, 3, 4, 5] ∧
      offsetsFrom [2, 3] [3, 1] 10 = [10, 11, 12, 13, 14, 15] ∧
      (HandleND.mk [3, 1] 0).isConsecutive [2, 3] 0 ≠ 0 ∧
      (HandleND.mk [3, 1] 0).isConsecutive [2, 3] 0 =
        (HandleND.mk [3, 1] 10).isConsecutive [2, 3] 0 :=
  ⟨by decide, by decide,
    (flat_path_fires_without_unit_axes (HandleND.mk [3, 1] 0) (HandleND.mk [3, 1] 10) [2, 3]
      (fun _ (n : Nat) => n + 1) (fun _ _ (n : Nat) => n + 1) 0 0 (by decide) rfl rfl
      (by decide) (by decide) (by decide) (by decide)).1,
    (flat_path_fires_without_unit_axes (HandleND.mk [3, 1] 0) (HandleND.mk [3, 1] 10) [2, 3]
      (fun _ (n : Nat) => n + 1) (fun _ _ (n : Nat) => n + 1) 0 0 (by decide) rfl rfl
      (by decide) (by decide) (by decide) (by decide)).2.1⟩

/-- C29 as stated fails at an axis of length 1. For the shape (1,3) and the strides (1,1),
which are those of the contiguous array of shape (3,1) with its axes exchanged, the three
elements lie at the consecutive addresses 0, 1, 2, yet `isConsecutive` at axis 0 is 0: the
traversal steps along axis 0 instead of taking the flat loop. -/
theorem flat_path_unit_axis_counterexample :
    (∀ x ∈ [(1 : Int), 3], 1 ≤ x) ∧
    offsetsFrom [1, 3] [1, 1] 0 =
      (List.range (prod [1, 3]).toNat).map (fun (k : Nat) => (0 : Int) + (k : Int)) ∧
    (HandleND.mk [1, 1] 0).isConsecutive [1, 3] 0 = 0 ∧
    transpose [3, 1] (permutationToOrder [3, 1] (shapeToStrides [3, 1] MemoryOrder.C_ORDER)
      MemoryOrder.C_ORDER) = [1, 3] ∧
    ((ArrayND.mk [3, 1] (shapeToStrides [3, 1] MemoryOrder.C_ORDER) 0).handle
      (permutationToOrder [3, 1] (shapeToStrides [3, 1] MemoryOrder.C_ORDER)
        MemoryOrder.C_ORDER)) = HandleND.mk [1, 1] 0 := by
  decide

/-! ## Unit-length axes and the flat run -/

theorem perm_range_getD_lt (p : List Nat) (n : Nat) (hp : p.Perm (List.range n)) (j : Nat)
    (hj : j < n) : p.getD j 0 < n := by
  have hl : p.length = n := by rw [hp.length_eq, List.length_range]
  rw [List.getD_eq_getElem _ _ (by omega)]
  exact List.mem_range.mp (hp.mem_iff.mp (List.getElem_mem _))

theorem perm_range_cover (p : List Nat) (n : Nat) (hp : p.Perm (List.range n)) (c : Nat)
    (hc : c < n) : ∃ j, j < n ∧ p.getD j 0 = c := by
  have hl : p.length = n := by rw [hp.length_eq, List.length_range]
  obtain ⟨j, hj, hjc⟩ := List.getElem_of_mem (hp.mem_iff.mpr (List.mem_range.mpr hc))
  exact ⟨j, by omega, by rw [List.getD_eq_getElem _ _ hj]; exact hjc⟩

theorem perm_range_inj (p : List Nat) (n : Nat) (hp : p.Perm (List.range n)) (i j : Nat)
    (hi : i < n) (hj : j < n) (h : p.getD i 0 = p.getD j 0) : i = j := by
  have hl : p.length = n := by rw [hp.length_eq, List.length_range]
  have hnd : p.Nodup := hp.nodup_iff.mpr (List.nodup_range n)
  have hi2 : i < p.length := by omega
  have hj2 : j < p.length := by omega
  rw [List.getD_eq_getElem p 0 hi2, List.getD_eq_getElem p 0 hj2] at h
  exact (List.Nodup.getElem_inj_iff hnd).mp h

theorem pairwise_getD {R : Nat → Nat → Prop} (p : List Nat) (hs : p.Pairwise R) (i j : Nat)
    (hij : i < j) (hj : j < p.length) : R (p.getD i 0) (p.getD j 0) := by
  have hi : i < p.length := by omega
  rw [List.getD_eq_getElem p 0 hi, List.getD_eq_getElem p 0 hj]
  exact List.pairwise_iff_getElem.mp hs i j hi hj hij

theorem transpose_getD (v : List Int) (p : List Nat) (k : Nat) (hk : k < p.length) :
    (transpose v p).getD k 0 = v.getD (p.getD k 0) 0 := by
  have hk2 : k < (transpose v p).length := by simpa [transpose] using hk
  rw [List.getD_eq_getElem _ _ hk2, List.getD_eq_getElem p _ hk]
  simp [transpose]

/-- In the order computed for `C_ORDER`, an axis that follows an axis of length other than 1
has itself a length other than 1, and its stride is not larger. -/
theorem compC_sorted_facts (shape S : List Int) (p : List Nat) (n : Nat)
    (hn : shape.length = n) (hp : p.Perm (List.range n)) (hpos : ∀ x ∈ shape, 1 ≤ x)
    (hs : p.Pairwise (fun a b => compC shape S b a = false)) (i j : Nat) (hij : i < j)
    (hj : j < n) (hi1 : shape.getD (p.getD i 0) 0 ≠ 1) :
    shape.getD (p.getD j 0) 0 ≠ 1 ∧ S.getD (p.getD j 0) 0 ≤ S.getD (p.getD i 0) 0 := by
  have hl : p.length = n := by rw [hp.length_eq, List.length_range]
  have hR := pairwise_getD p hs i j hij (by omega)
  have h1 := getD_pos_of shape hpos (p.getD i 0)
    (by rw [hn]; exact perm_range_getD_lt p n hp i (by omega))
  have hj1 : shape.getD (p.getD j 0) 0 ≠ 1 := by
    intro hu
    simp only [compC, hu, true_or, if_true, decide_eq_false_iff_not, not_lt] at hR
    omega
  refine ⟨hj1, ?_⟩
  simp only [compC, hi1, hj1, or_self, if_false, decide_eq_false_iff_not, not_lt] at hR
  exact hR

/-- Along the sorted axes the stride at a position is the product of the lengths at the
later positions, from the first position on after which every axis but possibly the last
has a length other than 1. -/
theorem sorted_axes_stride (shape S : List Int) (p : List Nat) (n : Nat)
    (hn : shape.length = n) (hp : p.Perm (List.range n)) (hpos : ∀ x ∈ shape, 1 ≤ x)
    (hs : p.Pairwise (fun a b => compC shape S b a = false))
    (hch : StrideChain n (fun a => shape.getD a 0) (fun a => S.getD a 0)) :
    ∀ d k, k + d + 1 = n → (∀ j, k ≤ j → j + 1 < n → shape.getD (p.getD j 0) 0 ≠ 1) →
      S.getD (p.getD k 0) 0 = prod ((transpose shape p).drop (k + 1)) := by
  have hl : p.length = n := by rw [hp.length_eq, List.length_range]
  have htl : (transpose shape p).length = n := by simp [transpose, hl]
  intro d
  induction d with
  | zero =>
    intro k hk _
    have e : (transpose shape p).drop (k + 1) = [] := List.drop_eq_nil_of_le (by omega)
    rw [e]
    have hlast := hch.least (p.getD k 0) (perm_range_getD_lt p n hp k (by omega)) (by
      intro c hc hc1
      obtain ⟨j, hj, rfl⟩ := perm_range_cover p n hp c hc
      by_cases hjk : j = k
      · subst hjk; exact lt_irrefl _
      · have := (compC_sorted_facts shape S p n hn hp hpos hs j k (by omega) (by omega) hc1).2
        exact not_lt.mpr this)
    simpa [prod] using hlast
  | succ d ih =>
    intro k hk hnu
    have hk1 : shape.getD (p.getD k 0) 0 ≠ 1 := hnu k (le_refl _) (by omega)
    have hf := compC_sorted_facts shape S p n hn hp hpos hs k (k + 1) (by omega) (by omega) hk1
    have hih := ih (k + 1) (by omega) (fun j hj hj2 => hnu j (by omega) hj2)
    rw [prod_drop_eq (transpose shape p) (k + 1) (by omega),
      transpose_getD shape p (k + 1) (by omega), ← hih]
    have hak := perm_range_getD_lt p n hp k (by omega)
    have hbk := perm_range_getD_lt p n hp (k + 1) (by omega)
    have hne : p.getD k 0 ≠ p.getD (k + 1) 0 := by
      intro h
      have := perm_range_inj p n hp k (k + 1) (by omega) (by omega) h
      omega
    have hlt : S.getD (p.getD (k + 1) 0) 0 < S.getD (p.getD k 0) 0 :=
      lt_of_le_of_ne hf.2 (fun h => hch.distinct _ _ hak hbk hk1 hf.1 hne h.symm)
    exact hch.next _ _ hak hbk hk1 hf.1 hlt (by
      intro c hc hc1 hbetween
      obtain ⟨j, hj, rfl⟩ := perm_range_cover p n hp c hc
      rcases Nat.lt_trichotomy j k with hjk | hjk | hjk
      · have := (compC_sorted_facts shape S p n hn hp hpos hs j k hjk (by omega) hc1).2
        omega
      · subst hjk
        exact lt_irrefl _ hbetween.2
      · by_cases hjk1 : j = k + 1
        · subst hjk1
          exact lt_irrefl _ hbetween.1
        · have := (compC_sorted_facts shape S p n hn hp hpos hs (k + 1) j (by omega) hj hf.1).2
          omega)
theorem prod_drop_segment (shape : List Int) (a b : Nat) (hab : a < b) (hb : b < shape.length) :
    prod (shape.drop (a + 1)) =
      prod ((shape.drop (a + 1)).take (b - a - 1)) *
        (shape.getD b 0 * prod (shape.drop (b + 1))) := by
  have e : (shape.drop (a + 1)).drop (b - a - 1) = shape.drop b := by
    rw [List.drop_drop]
    congr 1
    omega
  rw [← prod_drop_eq shape b hb, ← e]
  unfold prod
  rw [← List.prod_append, List.take_append_drop]

theorem mem_drop_segment (shape : List Int) (a b : Nat) (x : Int)
    (hx : x ∈ (shape.drop (a + 1)).take (b - a - 1)) :
    ∃ c, a < c ∧ c < b ∧ c < shape.length ∧ x = shape.getD c 0 := by
  obtain ⟨i, hi, rfl⟩ := List.getElem_of_mem hx
  have hi2 : i < b - a - 1 ∧ i < (shape.drop (a + 1)).length := by
    simpa [List.length_take] using hi
  have hi3 : a + 1 + i < shape.length := by
    have := hi2.2
    rw [List.length_drop] at this
    omega
  refine ⟨a + 1 + i, by omega, by omega, hi3, ?_⟩
  rw [List.getElem_take, List.getElem_drop, List.getD_eq_getElem _ _ hi3]

theorem prod_eq_one_of_ones (l : List Int) (h : ∀ x ∈ l, x = 1) : prod l = 1 := by
  unfold prod
  exact List.prod_eq_one h

theorem strides_C_lt (shape : List Int) (hpos : ∀ x ∈ shape, 1 ≤ x) (a b : Nat) (hab : a < b)
    (hb : b < shape.length) (hb1 : shape.getD b 0 ≠ 1) :
    (shapeToStrides shape MemoryOrder.C_ORDER).getD b 0 <
      (shapeToStrides shape MemoryOrder.C_ORDER).getD a 0 := by
  rw [shapeToStrides_C_getD shape a (by omega), shapeToStrides_C_getD shape b hb,
    prod_drop_segment shape a b hab hb]
  have h1 : 1 ≤ prod ((shape.drop (a + 1)).take (b - a - 1)) :=
    prod_pos_of _ (fun x hx => hpos x (List.mem_of_mem_drop (List.mem_of_mem_take hx)))
  have h2 : 1 ≤ prod (shape.drop (b + 1)) :=
    prod_pos_of _ (fun x hx => hpos x (List.mem_of_mem_drop hx))
  have h3 := getD_pos_of shape hpos b hb
  have h4 : 2 ≤ shape.getD b 0 := by omega
  have h5 : 2 * prod (shape.drop (b + 1)) ≤ shape.getD b 0 * prod (shape.drop (b + 1)) :=
    mul_le_mul_of_nonneg_right h4 (by omega)
  have h6 : shape.getD b 0 * prod (shape.drop (b + 1)) ≤
      prod ((shape.drop (a + 1)).take (b - a - 1)) *
        (shape.getD b 0 * prod (shape.drop (b + 1))) :=
    le_mul_of_one_le_left (by linarith) h1
  linarith

/-- The contiguous strides of the last-axis-contiguous order form a stride chain. -/
theorem strideChain_C (shape : List Int) (hpos : ∀ x ∈ shape, 1 ≤ x) :
    StrideChain shape.length (fun a => shape.getD a 0)
      (fun a => (shapeToStrides shape MemoryOrder.C_ORDER).getD a 0) := by
  constructor
  · intro a b ha hb ha1 hb1 hlt hbetween
    have hab : a < b := by
      rcases Nat.lt_trichotomy a b with h | h | h
      · exact h
      · subst h; exact absurd hlt (lt_irrefl _)
      · have := strides_C_lt shape hpos b a h ha ha1
        exact absurd hlt (not_lt.mpr (le_of_lt this))
    show (shapeToStrides shape MemoryOrder.C_ORDER).getD a 0 =
      shape.getD b 0 * (shapeToStrides shape MemoryOrder.C_ORDER).getD b 0
    rw [shapeToStrides_C_getD shape a ha, shapeToStrides_C_getD shape b hb,
      prod_drop_segment shape a b hab hb]
    have hone : prod ((shape.drop (a + 1)).take (b - a - 1)) = 1 := by
      apply prod_eq_one_of_ones
      intro x hx
      obtain ⟨c, hac, hcb, hc, rfl⟩ := mem_drop_segment shape a b x hx
      by_contra hc1
      exact hbetween c hc hc1
        ⟨strides_C_lt shape hpos c b hcb hb hb1, strides_C_lt shape hpos a c hac hc hc1⟩
    rw [hone, one_mul]
  · intro a ha hleast
    show (shapeToStrides shape MemoryOrder.C_ORDER).getD a 0 = 1
    rw [shapeToStrides_C_getD shape a ha]
    apply prod_eq_one_of_ones
    intro x hx
    obtain ⟨i, hi, rfl⟩ := List.getElem_of_mem hx
    have hi3 : a + 1 + i < shape.length := by
      rw [List.length_drop] at hi
      omega
    rw [List.getElem_drop]
    by_contra hc1
    have hc1' : shape.getD (a + 1 + i) 0 ≠ 1 := by
      rw [List.getD_eq_getElem _ _ hi3]; exact hc1
    exact hleast (a + 1 + i) hi3 hc1' (strides_C_lt shape hpos a (a + 1 + i) (by omega) hi3 hc1')
  · intro a b ha hb ha1 hb1 hne
    show (shapeToStrides shape MemoryOrder.C_ORDER).getD a 0 ≠
      (shapeToStrides shape MemoryOrder.C_ORDER).getD b 0
    rcases Nat.lt_or_gt_of_ne hne with h | h
    · exact ne_of_gt (strides_C_lt shape hpos a b h hb hb1)
    · exact ne_of_lt (strides_C_lt shape hpos b a h ha ha1)

theorem StrideChain.mirror {n : Nat} {sh st : Nat → Int} (h : StrideChain n sh st) :
    StrideChain n (fun a => sh (n - 1 - a)) (fun a => st (n - 1 - a)) := by
  constructor
  · intro a b ha hb ha1 hb1 hlt hbetween
    refine h.next (n - 1 - a) (n - 1 - b) (by omega) (by omega) ha1 hb1 hlt ?_
    intro c hc hc1 hbw
    have e : n - 1 - (n - 1 - c) = c := by omega
    exact hbetween (n - 1 - c) (by omega) (by rw [e]; exact hc1) (by rw [e]; exact hbw)
  · intro a ha hleast
    refine h.least (n - 1 - a) (by omega) ?_
    intro c hc hc1 hlt
    have e : n - 1 - (n - 1 - c) = c := by omega
    exact hleast (n - 1 - c) (by omega) (by rw [e]; exact hc1) (by rw [e]; exact hlt)
  · intro a b ha hb ha1 hb1 hne
    exact h.distinct (n - 1 - a) (n - 1 - b) (by omega) (by omega) ha1 hb1 (by omega)

theorem StrideChain.congr {n : Nat} {sh st sh2 st2 : Nat → Int} (h : StrideChain n sh st)
    (e1 : ∀ a, a < n → sh2 a = sh a) (e2 : ∀ a, a < n → st2 a = st a) :
    StrideChain n sh2 st2 := by
  constructor
  · intro a b ha hb ha1 hb1 hlt hbetween
    rw [e2 a ha, e1 b hb, e2 b hb]
    rw [e1 a ha] at ha1
    rw [e1 b hb] at hb1
    rw [e2 a ha, e2 b hb] at hlt
    refine h.next a b ha hb ha1 hb1 hlt ?_
    intro c hc hc1 hbw
    refine hbetween c hc (by rw [e1 c hc]; exact hc1) ?_
    rw [e2 a ha, e2 b hb, e2 c hc]
    exact hbw
  · intro a ha hleast
    rw [e2 a ha]
    refine h.least a ha ?_
    intro c hc hc1 hlt
    refine hleast c hc (by rw [e1 c hc]; exact hc1) ?_
    rw [e2 a ha, e2 c hc]
    exact hlt
  · intro a b ha hb ha1 hb1 hne
    rw [e2 a ha, e2 b hb]
    rw [e1 a ha] at ha1
    rw [e1 b hb] at hb1
    exact h.distinct a b ha hb ha1 hb1 hne

theorem getD_reverse_mirror (l : List Int) (a : Nat) (ha : a < l.length) :
    l.reverse.getD (l.length - 1 - a) 0 = l.getD a 0 := by
  have h1 : l.length - 1 - a < l.reverse.length := by rw [List.length_reverse]; omega
  rw [List.getD_eq_getElem _ _ h1, List.getD_eq_getElem _ _ ha, List.getElem_reverse]
  congr 1
  omega

theorem strides_F_mirror (shape : List Int) (a : Nat) (ha : a < shape.length) :
    (shapeToStrides shape MemoryOrder.F_ORDER).getD a 0 =
      (shapeToStrides shape.reverse MemoryOrder.C_ORDER).getD (shape.length - 1 - a) 0 := by
  rw [shapeToStrides_F_getD shape a ha,
    shapeToStrides_C_getD shape.reverse _ (by rw [List.length_reverse]; omega)]
  have e : shape.reverse.drop (shape.length - 1 - a + 1) = (shape.take a).reverse := by
    rw [List.drop_reverse]
    congr 2
    omega
  rw [e]
  unfold prod
  rw [List.prod_reverse]

/-- The contiguous strides of the first-axis-contiguous order form a stride chain. -/
theorem strideChain_F (shape : List Int) (hpos : ∀ x ∈ shape, 1 ≤ x) :
    StrideChain shape.length (fun a => shape.getD a 0)
      (fun a => (shapeToStrides shape MemoryOrder.F_ORDER).getD a 0) := by
  have h := (strideChain_C shape.reverse (fun x hx => hpos x (List.mem_reverse.mp hx))).mirror
  rw [List.length_reverse] at h
  refine h.congr ?_ ?_
  · intro a ha
    exact (getD_reverse_mirror shape a ha).symm
  · intro a ha
    exact strides_F_mirror shape a ha
/-- Claim C30: unit-length axes never break an otherwise-contiguous run. For a shape with
entries `>= 1` whose strides are the contiguous strides of the shape in either memory order,
let `p = permutationToOrder(shape, strides, C_ORDER)`. In the permuted order every axis that
precedes an axis of length 1 has length 1 (the axes of length 1 come first), the axes of
length other than 1 appear in non-increasing stride order, and the handle of the permuted
array reports `isConsecutive == prod(shape)` at the axis `m` before which every permuted axis
has length 1 and which is the first permuted axis of length other than 1, or the last axis
when every axis has length 1. -/
theorem unit_axes_keep_flat_run (order : MemoryOrder) (shape : List Int) (data : Int)
    (p : List Nat) (hpos : ∀ x ∈ shape, 1 ≤ x)
    (hp : p = permutationToOrder shape (shapeToStrides shape order) MemoryOrder.C_ORDER) :
    (∀ i j, i < j → j < shape.length → (transpose shape p).getD j 0 = 1 →
      (transpose shape p).getD i 0 = 1) ∧
    (∀ i j, i < j → j < shape.length → (transpose shape p).getD i 0 ≠ 1 →
      (transpose shape p).getD j 0 ≠ 1 →
      (transpose (shapeToStrides shape order) p).getD j 0 ≤
        (transpose (shapeToStrides shape order) p).getD i 0) ∧
    (∀ m, m < shape.length → (∀ j, j < m → (transpose shape p).getD j 0 = 1) →
      ((transpose shape p).getD m 0 ≠ 1 ∨ m = shape.length - 1) →
      ((ArrayND.mk shape (shapeToStrides shape order) data).handle p).isConsecutive
        (transpose shape p) m = prod shape) := by
  have hperm : p.Perm (List.range shape.length) := by
    rw [hp]; exact permutationToOrder_perm _ _ _
  have hs : p.Pairwise (fun a b => compC shape (shapeToStrides shape order) b a = false) := by
    rw [hp]; exact permutationToOrder_C_sorted _ _ hpos
  have hl : p.length = shape.length := by rw [hperm.length_eq, List.length_range]
  have hch : StrideChain shape.length (fun a => shape.getD a 0)
      (fun a => (shapeToStrides shape order).getD a 0) := by
    cases order with
    | C_ORDER => exact strideChain_C shape hpos
    | F_ORDER => exact strideChain_F shape hpos
  have hfacts := compC_sorted_facts shape (shapeToStrides shape order) p shape.length rfl hperm
    hpos hs
  refine ⟨?_, ?_, ?_⟩
  · intro i j hij hj hj1
    by_contra hi1
    rw [transpose_getD shape p i (by omega)] at hi1
    rw [transpose_getD shape p j (by omega)] at hj1
    exact (hfacts i j hij hj hi1).1 hj1
  · intro i j hij hj hi1 _
    rw [transpose_getD shape p i (by omega)] at hi1
    rw [transpose_getD _ p i (by omega), transpose_getD _ p j (by omega)]
    exact (hfacts i j hij hj hi1).2
  · intro m hm hpre hcase
    have htl : (transpose shape p).length = shape.length := by simp [transpose, hl]
    rw [isConsecutive_eq _ _ _ (by simp [transpose, ArrayND.handle, HandleND.ndim])]
    have hcf : ContiguousFrom
        ((ArrayND.mk shape (shapeToStrides shape order) data).handle p).strides_
        (transpose shape p) m := by
      intro k hk hmk
      have hk2 : k < shape.length := by
        simpa [ArrayND.handle, transpose, hl] using hk
      show (transpose (shapeToStrides shape order) p).getD k 0 = _
      rw [transpose_getD _ p k (by omega)]
      refine sorted_axes_stride shape _ p shape.length rfl hperm hpos hs hch
        (shape.length - 1 - k) k (by omega) ?_
      intro j hkj hj
      rcases hcase with hm1 | hm1
      · rw [transpose_getD shape p m (by omega)] at hm1
        by_cases hjm : j = m
        · subst hjm; exact hm1
        · exact (hfacts m j (by omega) (by omega) hm1).1
      · omega
    rw [if_pos hcf]
    have hsplit : prod (transpose shape p) =
        prod ((transpose shape p).take m) * prod ((transpose shape p).drop m) := by
      unfold prod
      rw [List.prod_take_mul_prod_drop]
    have hone : prod ((transpose shape p).take m) = 1 := by
      apply prod_eq_one_of_ones
      intro x hx
      obtain ⟨i, hi, rfl⟩ := List.getElem_of_mem hx
      have hi2 : i < m ∧ i < (transpose shape p).length := by
        simpa [List.length_take] using hi
      have := hpre i hi2.1
      rw [List.getD_eq_getElem _ _ hi2.2] at this
      rw [List.getElem_take]
      exact this
    rw [← prod_transpose_of_perm shape p hperm, hsplit, hone, one_mul]

theorem unit_axes_keep_flat_run_witness :
    permutationToOrder [3, 1, 2] (shapeToStrides [3, 1, 2] MemoryOrder.C_ORDER)
        MemoryOrder.C_ORDER = [1, 0, 2] ∧
      transpose [3, 1, 2] [1, 0, 2] = [1, 3, 2] ∧
      ((ArrayND.mk [3, 1, 2] (shapeToStrides [3, 1, 2] MemoryOrder.C_ORDER) 0).handle
        [1, 0, 2]).isConsecutive (transpose [3, 1, 2] [1, 0, 2]) 1 = prod [3, 1, 2] :=
  ⟨by decide, by decide,
    (unit_axes_keep_flat_run MemoryOrder.C_ORDER [3, 1, 2] 0 [1, 0, 2] (by decide)
      (by decide)).2.2 1 (by decide) (by decide) (Or.inl (by decide))⟩

/-! ## The optimised traversal and the plain nested loop -/

theorem applyAll_flatMap {σ α : Type} (f : Int → σ → σ) (g : α → List Int) :
    ∀ (l : List α) (s : σ),
      applyAll f s (l.flatMap g) = l.foldl (fun t k => applyAll f t (g k)) s := by
  intro l
  induction l with
  | nil => intro s; simp [applyAll]
  | cons a l ih =>
    intro s
    rw [List.flatMap_cons, applyAll_append, ih, List.foldl_cons]

theorem applyAll2_flatMap {σ α : Type} (f : Int → Int → σ → σ) (g : α → List (Int × Int)) :
    ∀ (l : List α) (s : σ),
      applyAll2 f s (l.flatMap g) = l.foldl (fun t k => applyAll2 f t (g k)) s := by
  intro l
  induction l with
  | nil => intro s; simp [applyAll2]
  | cons a l ih =>
    intro s
    rw [List.flatMap_cons, applyAll2_append, ih, List.foldl_cons]

theorem plainNestedLoop_eq {σ : Type} (f : Int → σ → σ) :
    ∀ (shape strides : List Int) (p : Int) (s : σ), shape.length = strides.length →
      plainNestedLoop f shape strides p s = applyAll f s (offsetsFrom shape strides p) := by
  intro shape
  induction shape with
  | nil =>
    intro strides p s _
    rw [offsetsFrom_nil]
    simp [plainNestedLoop, applyAll]
  | cons n shape ih =>
    intro strides p s hlen
    cases strides with
    | nil => simp at hlen
    | cons st strides =>
      rw [offsetsFrom_cons, applyAll_flatMap]
      simp only [plainNestedLoop, List.tail_cons, List.headD_cons]
      refine congrArg (fun F => List.foldl F s (List.range n.toNat)) ?_
      funext t k
      exact ih strides _ t (by simpa using hlen)

theorem plainNestedLoop2_eq {σ : Type} (f : Int → Int → σ → σ) :
    ∀ (shape strides1 strides2 : List Int) (p1 p2 : Int) (s : σ),
      shape.length = strides1.length → shape.length = strides2.length →
      plainNestedLoop2 f shape strides1 strides2 p1 p2 s =
        applyAll2 f s (offsetsFrom2 shape strides1 strides2 p1 p2) := by
  intro shape
  induction shape with
  | nil =>
    intro strides1 strides2 p1 p2 s _ _
    rw [offsetsFrom2_nil]
    simp [plainNestedLoop2, applyAll2]
  | cons n shape ih =>
    intro strides1 strides2 p1 p2 s hlen1 hlen2
    cases strides1 with
    | nil => simp at hlen1
    | cons st1 strides1 =>
      cases strides2 with
      | nil => simp at hlen2
      | cons st2 strides2 =>
        rw [offsetsFrom2_cons, applyAll2_flatMap]
        simp only [plainNestedLoop2, List.tail_cons, List.headD_cons]
        refine congrArg (fun F => List.foldl F s (List.range n.toNat)) ?_
        funext t k
        exact ih strides1 strides2 _ _ t (by simpa using hlen1) (by simpa using hlen2)

/-- Claim C31: the optimised traversal equals the naive one. For every shape with
non-negative entries, handles with one stride per axis and every start axis `dim < rank`,
`genericArrayFunctionImpl` with its contiguous-run fast path returns, leaves the handles
where they were and has applied the operation exactly as the plain nested loop over the
axes `dim .. rank-1` (last axis fastest) that never uses the fast path; this holds for every
operation, in particular for the one that logs the offsets (pairs of offsets in the
two-handle form) it is applied to, so the sequences of offsets agree in content and order. -/
theorem genericArrayFunctionImpl_equals_plain_loop {σ : Type} (h1 h2 : HandleND)
    (shape : List Int) (f : Int → σ → σ) (g : Int → Int → σ → σ) (dim : Nat) (s : σ)
    (hnn : ∀ x ∈ shape, 0 ≤ x) (hdim : dim < shape.length)
    (hlen1 : h1.strides_.length = shape.length) (hlen2 : h2.strides_.length = shape.length) :
    genericArrayFunctionImpl h1 shape f dim s =
      some (h1, plainNestedLoop f (shape.drop dim) (h1.strides_.drop dim) h1.data_ s) ∧
    genericArrayFunctionImpl2 h1 h2 shape g dim s =
      some (h1, h2, plainNestedLoop2 g (shape.drop dim) (h1.strides_.drop dim)
        (h2.strides_.drop dim) h1.data_ h2.data_ s) ∧
    (genericArrayFunctionImpl h1 shape logCall dim []).map (fun r => r.2) =
      some (plainNestedLoop logCall (shape.drop dim) (h1.strides_.drop dim) h1.data_ []) ∧
    (genericArrayFunctionImpl2 h1 h2 shape logCall2 dim []).map (fun r => r.2.2) =
      some (plainNestedLoop2 logCall2 (shape.drop dim) (h1.strides_.drop dim)
        (h2.strides_.drop dim) h1.data_ h2.data_ []) := by
  have hd1 : (shape.drop dim).length = (h1.strides_.drop dim).length := by
    simp [List.length_drop, hlen1]
  have hd2 : (shape.drop dim).length = (h2.strides_.drop dim).length := by
    simp [List.length_drop, hlen2]
  have e1 : ∀ (τ : Type) (f : Int → τ → τ) (s : τ),
      genericArrayFunctionImpl h1 shape f dim s =
        some (h1, plainNestedLoop f (shape.drop dim) (h1.strides_.drop dim) h1.data_ s) := by
    intro τ f s
    rw [genericArrayFunctionImpl_eq h1 shape f dim s hnn hdim hlen1, plainNestedLoop_eq f _ _ _ _ hd1]
  have e2 : ∀ (τ : Type) (g : Int → Int → τ → τ) (s : τ),
      genericArrayFunctionImpl2 h1 h2 shape g dim s =
        some (h1, h2, plainNestedLoop2 g (shape.drop dim) (h1.strides_.drop dim)
          (h2.strides_.drop dim) h1.data_ h2.data_ s) := by
    intro τ g s
    rw [genericArrayFunctionImpl2_eq h1 h2 shape g dim s hnn hdim hlen1 hlen2,
      plainNestedLoop2_eq g _ _ _ _ _ _ hd1 hd2]
  exact ⟨e1 σ f s, e2 σ g s, by rw [e1]; rfl, by rw [e2]; rfl⟩

theorem genericArrayFunctionImpl_equals_plain_loop_witness :
    (genericArrayFunctionImpl (HandleND.mk [3, 1] 0) [2, 3] logCall 0 []).map (fun r => r.2) =
        some [0, 1, 2, 3, 4, 5] ∧
      plainNestedLoop logCall [2, 3] [3, 1] 0 [] = [0, 1, 2, 3, 4, 5] ∧
      (genericArrayFunctionImpl2 (HandleND.mk [3, 1] 0) (HandleND.mk [1, 2] 10) [2, 3] logCall2
          0 []).map (fun r => r.2.2) =
        some (plainNestedLoop2 logCall2 ([2, 3].drop 0) ([3, 1].drop 0) ([1, 2].drop 0) 0 10
          []) :=
  ⟨by decide, by decide,
    (genericArrayFunctionImpl_equals_plain_loop (HandleND.mk [3, 1] 0) (HandleND.mk [1, 2] 10)
      [2, 3] logCall (fun _ _ t => t) 0 [] (by decide) (by decide) rfl rfl).2.2.2⟩
/-! ## The assertion of the traversal -/

theorem forLoop_isSome {τ : Type} (body : τ → Option τ) (hb : ∀ t, (body t).isSome = true) :
    ∀ (n : Nat) (t : τ), (forLoop body n t).isSome = true := by
  intro n
  induction n with
  | zero => intro t; rfl
  | succ n ih =>
    intro t
    simp only [forLoop]
    cases h : body t with
    | none => have := hb t; rw [h] at this; cases this
    | some t1 => exact ih t1

theorem genericArrayFunctionImplAux_isSome {σ : Type} (shape : List Int) (f : Int → σ → σ) :
    ∀ (rest dim : Nat) (hs : HandleND × σ), dim < shape.length → shape.length ≤ rest + dim →
      (genericArrayFunctionImplAux shape f rest dim hs).isSome = true := by
  intro rest
  induction rest with
  | zero => intro dim hs h1 h2; omega
  | succ rest ih =>
    intro dim hs h1 h2
    obtain ⟨h, s⟩ := hs
    unfold genericArrayFunctionImplAux
    simp only [not_lt, Nat.not_le.mpr h1, if_false]
    split
    · rw [Option.isSome_map']
      apply forLoop_isSome
      intro t
      rfl
    · rw [Option.isSome_map']
      split
      · apply forLoop_isSome
        intro t
        rfl
      · apply forLoop_isSome
        intro t
        rw [Option.isSome_map']
        exact ih (dim + 1) t (by omega) (by omega)

theorem genericArrayFunctionImpl2Aux_isSome {σ : Type} (shape : List Int)
    (f : Int → Int → σ → σ) :
    ∀ (rest dim : Nat) (hs : HandleND × HandleND × σ), dim < shape.length →
      shape.length ≤ rest + dim →
      (genericArrayFunctionImpl2Aux shape f rest dim hs).isSome = true := by
  intro rest
  induction rest with
  | zero => intro dim hs h1 h2; omega
  | succ rest ih =>
    intro dim hs h1 h2
    obtain ⟨ha, hb, s⟩ := hs
    unfold genericArrayFunctionImpl2Aux
    simp only [not_lt, Nat.not_le.mpr h1, if_false]
    split
    · rw [Option.isSome_map']
      apply forLoop_isSome
      intro t
      rfl
    · rw [Option.isSome_map']
      split
      · apply forLoop_isSome
        intro t
        rfl
      · apply forLoop_isSome
        intro t
        rw [Option.isSome_map']
        exact ih (dim + 1) t (by omega) (by omega)

/-- The result of the traversal does not depend on the recursion budget once the budget
covers the axes from `dim` on. -/
theorem genericArrayFunctionImplAux_fuel {σ : Type} (shape : List Int) (f : Int → σ → σ) :
    ∀ (r1 r2 dim : Nat) (hs : HandleND × σ), dim < shape.length → shape.length ≤ r1 + dim →
      shape.length ≤ r2 + dim →
      genericArrayFunctionImplAux shape f r1 dim hs =
        genericArrayFunctionImplAux shape f r2 dim hs := by
  intro r1
  induction r1 with
  | zero => intro r2 dim hs h1 h2 _; omega
  | succ r1 ih =>
    intro r2 dim hs h1 h2 h3
    cases r2 with
    | zero => omega
    | succ r2 =>
      obtain ⟨h, s⟩ := hs
      by_cases hlast : dim = shape.length - 1
      · unfold genericArrayFunctionImplAux
        simp only [not_lt, Nat.not_le.mpr h1, if_false, if_pos hlast]
      · have hfun : (fun (hs : HandleND × σ) =>
            (genericArrayFunctionImplAux shape f r1 (dim + 1) hs).map
              (fun hs1 => (hs1.1.inc dim, hs1.2))) =
            (fun (hs : HandleND × σ) =>
            (genericArrayFunctionImplAux shape f r2 (dim + 1) hs).map
              (fun hs1 => (hs1.1.inc dim, hs1.2))) := by
          funext t
          rw [ih r2 (dim + 1) t (by omega) (by omega) (by omega)]
        unfold genericArrayFunctionImplAux
        simp only [not_lt, Nat.not_le.mpr h1, if_false, if_neg hlast, hfun]

theorem genericArrayFunctionImpl2Aux_fuel {σ : Type} (shape : List Int)
    (f : Int → Int → σ → σ) :
    ∀ (r1 r2 dim : Nat) (hs : HandleND × HandleND × σ), dim < shape.length →
      shape.length ≤ r1 + dim → shape.length ≤ r2 + dim →
      genericArrayFunctionImpl2Aux shape f r1 dim hs =
        genericArrayFunctionImpl2Aux shape f r2 dim hs := by
  intro r1
  induction r1 with
  | zero => intro r2 dim hs h1 h2 _; omega
  | succ r1 ih =>
    intro r2 dim hs h1 h2 h3
    cases r2 with
    | zero => omega
    | succ r2 =>
      obtain ⟨ha, hb, s⟩ := hs
      by_cases hlast : dim = shape.length - 1
      · unfold genericArrayFunctionImpl2Aux
        simp only [not_lt, Nat.not_le.mpr h1, if_false, if_pos hlast]
      · have hfun : (fun (hs : HandleND × HandleND × σ) =>
            (genericArrayFunctionImpl2Aux shape f r1 (dim + 1) hs).map
              (fun hs1 => (hs1.1.inc dim, hs1.2.1.inc dim, hs1.2.2))) =
            (fun (hs : HandleND × HandleND × σ) =>
            (genericArrayFunctionImpl2Aux shape f r2 (dim + 1) hs).map
              (fun hs1 => (hs1.1.inc dim, hs1.2.1.inc dim, hs1.2.2))) := by
          funext t
          rw [ih r2 (dim + 1) t (by omega) (by omega) (by omega)]
        unfold genericArrayFunctionImpl2Aux
        simp only [not_lt, Nat.not_le.mpr h1, if_false, if_neg hlast, hfun]

/-- Claim C34: the internal assertion of the traversal is never violated under its
precondition. For every shape of rank `>= 1` (whatever its entries and the strides of the
handles), the top-level call `genericArrayFunctionImpl(h, shape, f, 0)`, in the one-handle
and in the two-handle form, returns a result: no call, recursive calls included, reaches the
failing `vigra_assert`, since a failed assertion would make the result `none`. The
recursion ends within `rank` levels: a budget of `rank` nested calls is enough, and every
larger budget gives the same result. -/
theorem genericArrayFunctionImpl_assertion_unreachable {σ : Type} (h1 h2 : HandleND)
    (shape : List Int) (f : Int → σ → σ) (g : Int → Int → σ → σ) (s : σ)
    (hrank : 1 ≤ shape.length) :
    (genericArrayFunctionImpl h1 shape f 0 s).isSome = true ∧
    (genericArrayFunctionImpl2 h1 h2 shape g 0 s).isSome = true ∧
    (∀ budget, shape.length ≤ budget →
      genericArrayFunctionImplAux shape f budget 0 (h1, s) =
        genericArrayFunctionImpl h1 shape f 0 s) ∧
    (∀ budget, shape.length ≤ budget →
      genericArrayFunctionImpl2Aux shape g budget 0 (h1, h2, s) =
        genericArrayFunctionImpl2 h1 h2 shape g 0 s) := by
  refine ⟨?_, ?_, ?_, ?_⟩
  · exact genericArrayFunctionImplAux_isSome shape f _ 0 _ (by omega) (by omega)
  · exact genericArrayFunctionImpl2Aux_isSome shape g _ 0 _ (by omega) (by omega)
  · intro budget hb
    exact genericArrayFunctionImplAux_fuel shape f _ _ 0 _ (by omega) (by omega) (by omega)
  · intro budget hb
    exact genericArrayFunctionImpl2Aux_fuel shape g _ _ 0 _ (by omega) (by omega) (by omega)

theorem genericArrayFunctionImpl_assertion_unreachable_witness :
    (genericArrayFunctionImpl (HandleND.mk [5, 1] 0) [2, -3] logCall 0 []).isSome = true ∧
      (genericArrayFunctionImpl2 (HandleND.mk [5, 1] 0) (HandleND.mk [] 7) [2, -3]
        (fun _ _ (t : List Int) => t) 0 []).isSome = true :=
  ⟨(genericArrayFunctionImpl_assertion_unreachable (HandleND.mk [5, 1] 0) (HandleND.mk [] 7)
      [2, -3] logCall (fun _ _ t => t) [] (by decide)).1,
    (genericArrayFunctionImpl_assertion_unreachable (HandleND.mk [5, 1] 0) (HandleND.mk [] 7)
      [2, -3] logCall (fun _ _ t => t) [] (by decide)).2.1⟩

/-! ## The comparators of permutationToOrder -/

/-- Claim C35: for every shape whose entries are all at least 1 and every stride vector,
each of the two comparators that `permutationToOrder` passes to the sort is a strict weak
ordering on the axis indices: irreflexive, transitive, and incomparability is transitive.
Two axes of length 1 are equivalent, an axis of length 1 is strictly before every axis of
another length for `C_ORDER` and strictly after it for the other order, and two axes of
length other than 1 are compared by their strides (larger stride first for `C_ORDER`,
smaller stride first for the other order). -/
theorem permutationToOrder_comparators_strict_weak (shape stride : List Int)
    (hpos : ∀ x ∈ shape, 1 ≤ x) :
    (StrictWeakOn (compC shape stride) (fun k => k < shape.length) ∧
      StrictWeakOn (compF shape stride) (fun k => k < shape.length)) ∧
    (∀ a b c, a < shape.length → b < shape.length → c < shape.length →
      (compC shape stride a b = false ∧ compC shape stride b a = false) →
      (compC shape stride b c = false ∧ compC shape stride c b = false) →
      (compC shape stride a c = false ∧ compC shape stride c a = false)) ∧
    (∀ a b c, a < shape.length → b < shape.length → c < shape.length →
      (compF shape stride a b = false ∧ compF shape stride b a = false) →
      (compF shape stride b c = false ∧ compF shape stride c b = false) →
      (compF shape stride a c = false ∧ compF shape stride c a = false)) ∧
    (∀ a b, a < shape.length → b < shape.length → shape.getD a 0 = 1 → shape.getD b 0 = 1 →
      compC shape stride a b = false ∧ compC shape stride b a = false ∧
      compF shape stride a b = false ∧ compF shape stride b a = false) ∧
    (∀ a b, a < shape.length → b < shape.length → shape.getD a 0 = 1 → shape.getD b 0 ≠ 1 →
      compC shape stride a b = true ∧ compC shape stride b a = false ∧
      compF shape stride b a = true ∧ compF shape stride a b = false) ∧
    (∀ a b, a < shape.length → b < shape.length → shape.getD a 0 ≠ 1 → shape.getD b 0 ≠ 1 →
      compC shape stride a b = decide (stride.getD b 0 < stride.getD a 0) ∧
      compF shape stride a b = decide (stride.getD a 0 < stride.getD b 0)) := by
  have hC := compC_strictWeak shape stride hpos
  have hF := compF_strictWeak shape stride hpos
  refine ⟨⟨hC, hF⟩, ?_, ?_, ?_, ?_, ?_⟩
  · intro a b c ha hb hc hab hbc
    exact ⟨hC.negTrans a b c ha hb hc hab.1 hbc.1, hC.negTrans c b a hc hb ha hbc.2 hab.2⟩
  · intro a b c ha hb hc hab hbc
    exact ⟨hF.negTrans a b c ha hb hc hab.1 hbc.1, hF.negTrans c b a hc hb ha hbc.2 hab.2⟩
  · intro a b _ _ ha1 hb1
    simp only [compC, compF, ha1, hb1, true_or, if_true]
    decide
  · intro a b _ hb ha1 hb1
    have h1 := getD_pos_of shape hpos b hb
    have h2 : 1 < shape.getD b 0 := by omega
    have h3 : ¬ shape.getD b 0 < 1 := by omega
    simp only [compC, compF, ha1, true_or, or_true, if_true]
    exact ⟨decide_eq_true h2, decide_eq_false h3, decide_eq_true h2, decide_eq_false h3⟩
  · intro a b _ _ ha1 hb1
    simp only [compC, compF, ha1, hb1, or_self, if_false, and_self]

theorem permutationToOrder_comparators_strict_weak_witness :
    compC [2, 1, 3] [3, 3, 1] 1 0 = true ∧ compC [2, 1, 3] [3, 3, 1] 0 1 = false ∧
      compF [2, 1, 3] [3, 3, 1] 0 1 = true ∧ compF [2, 1, 3] [3, 3, 1] 1 0 = false :=
  (permutationToOrder_comparators_strict_weak [2, 1, 3] [3, 3, 1] (by decide)).2.2.2.2.1 1 0
    (by decide) (by decide) (by decide) (by decide)

/-- Claim C36: there is a shape with a zero-length axis and a stride vector for which the
comparator that `permutationToOrder` uses for `C_ORDER` is not transitive: for the shape
(2,1,0) with the strides (5,7,1) and the axes `a = 2`, `b = 1`, `c = 0`, `comp(a, b)` and
`comp(b, c)` are true and `comp(a, c)` is false, so the comparator is not a strict weak
ordering of the axes of that shape. -/
theorem compC_not_transitive_with_zero_length :
    ∃ (shape stride : List Int) (a b c : Nat),
      (0 : Int) ∈ shape ∧ (∀ x ∈ shape, 0 ≤ x) ∧ stride.length = shape.length ∧
      a < shape.length ∧ b < shape.length ∧ c < shape.length ∧
      compC shape stride a b = true ∧ compC shape stride b c = true ∧
      compC shape stride a c = false ∧
      ¬ StrictWeakOn (compC shape stride) (fun k => k < shape.length) := by
  refine ⟨[2, 1, 0], [5, 7, 1], 2, 1, 0, by decide, by decide, rfl, by decide, by decide,
    by decide, by decide, by decide, by decide, ?_⟩
  intro h
  have := h.trans 2 1 0 (by decide) (by decide) (by decide) (by decide) (by decide)
  revert this
  decide
/-! ## Axis tags: ordering and the frequency domain -/

theorem dropWhile_congr_mem {α : Type} (p q : α → Bool) :
    ∀ l : List α, (∀ x ∈ l, p x = q x) →
      l.dropWhile p = l.dropWhile q ∧ l.takeWhile p = l.takeWhile q := by
  intro l
  induction l with
  | nil => intro _; simp
  | cons a l ih =>
    intro h
    have ha := h a (List.mem_cons_self _ _)
    have := ih (fun x hx => h x (List.mem_cons_of_mem _ hx))
    simp only [List.dropWhile_cons, List.takeWhile_cons, ha, this.1, this.2, and_self]

theorem insertionSortStep_congr {α : Type} (comp comp2 : α → α → Bool) (sorted : List α)
    (val : α) (h : ∀ x ∈ sorted, comp val x = comp2 val x) :
    insertionSortStep comp sorted val = insertionSortStep comp2 sorted val := by
  cases sorted with
  | nil => rfl
  | cons first rest =>
    have hrev : ∀ x ∈ (first :: rest).reverse, comp val x = comp2 val x :=
      fun x hx => h x (List.mem_reverse.mp hx)
    have hc := dropWhile_congr_mem (comp val) (comp2 val) _ hrev
    simp only [insertionSortStep, h first (List.mem_cons_self _ _), unguardedLinearInsert,
      List.rdropWhile, List.rtakeWhile, hc.1, hc.2]

/-- The result of the sort depends on the comparator only through its values on the
elements that are sorted. -/
theorem stdSort_congr {α : Type} (comp comp2 : α → α → Bool) (l : List α)
    (h : ∀ x ∈ l, ∀ y ∈ l, comp x y = comp2 x y) : stdSort comp l = stdSort comp2 l := by
  have key : ∀ (todo acc : List α), (∀ x ∈ todo, x ∈ l) → (∀ x ∈ acc, x ∈ l) →
      todo.foldl (insertionSortStep comp) acc = todo.foldl (insertionSortStep comp2) acc := by
    intro todo
    induction todo with
    | nil => intro acc _ _; rfl
    | cons v todo ih =>
      intro acc htodo hacc
      have hv : v ∈ l := htodo v (List.mem_cons_self _ _)
      have hstep : insertionSortStep comp acc v = insertionSortStep comp2 acc v :=
        insertionSortStep_congr comp comp2 acc v (fun x hx => h v hv x (hacc x hx))
      rw [List.foldl_cons, List.foldl_cons, hstep]
      refine ih _ (fun x hx => htodo x (List.mem_cons_of_mem _ hx)) ?_
      intro x hx
      have hp := insertionSortStep_perm comp2 acc v
      rcases List.mem_cons.mp (hp.mem_iff.mp hx) with rfl | hx2
      · exact hv
      · exact hacc x hx2
  exact key l [] (fun x hx => hx) (by simp)

theorem tagLess_strictWeak (t : List AxisTag) :
    StrictWeakOn (fun (l r : Nat) => decide (t.getD r 0 < t.getD l 0)) (fun _ => True) ∧
    StrictWeakOn (fun (l r : Nat) => decide (t.getD l 0 < t.getD r 0)) (fun _ => True) := by
  constructor
  · constructor
    · intro a _; simp
    · intro a b c _ _ _ h1 h2
      simp only [decide_eq_true_eq] at h1 h2 ⊢
      exact Nat.lt_trans h2 h1
    · intro a b c _ _ _ h1 h2
      simp only [decide_eq_false_iff_not, Nat.not_lt] at h1 h2 ⊢
      exact Nat.le_trans h1 h2
  · constructor
    · intro a _; simp
    · intro a b c _ _ _ h1 h2
      simp only [decide_eq_true_eq] at h1 h2 ⊢
      exact Nat.lt_trans h1 h2
    · intro a b c _ _ _ h1 h2
      simp only [decide_eq_false_iff_not, Nat.not_lt] at h1 h2 ⊢
      exact Nat.le_trans h2 h1

/-- Claim C33: for every axis-tag sequence `t` and either memory order,
`detail::permutationToOrder(t, order)` is a permutation of `0 .. n-1`, and the tags read in
the permuted order are non-increasing for `C_ORDER` and non-decreasing for the other order.
The result depends only on the order of the tags: two tag sequences of the same length
whose tags compare alike at every pair of axes give the same permutation. -/
theorem detail_permutationToOrder_sorts_tags (t t2 : List AxisTag) (order : MemoryOrder) :
    (detail.permutationToOrder t order).Perm (List.range t.length) ∧
    ((detail.permutationToOrder t MemoryOrder.C_ORDER).map (fun k => t.getD k 0)).Pairwise
      (fun x y => y ≤ x) ∧
    ((detail.permutationToOrder t MemoryOrder.F_ORDER).map (fun k => t.getD k 0)).Pairwise
      (fun x y => x ≤ y) ∧
    (t2.length = t.length →
      (∀ i, i < t.length → ∀ j, j < t.length →
        (t.getD i 0 < t.getD j 0 ↔ t2.getD i 0 < t2.getD j 0)) →
      detail.permutationToOrder t2 order = detail.permutationToOrder t order) := by
  refine ⟨?_, ?_, ?_, ?_⟩
  · unfold detail.permutationToOrder
    simp only
    split <;> exact stdSort_perm _ _
  · rw [List.pairwise_map]
    have h := stdSort_sorted _ _ (tagLess_strictWeak t).1 (List.range t.length)
      (fun _ _ => trivial)
    simp only [detail.permutationToOrder, if_true]
    refine h.imp ?_
    intro a b hab
    simp only [decide_eq_false_iff_not, not_lt] at hab
    exact hab
  · rw [List.pairwise_map]
    have h := stdSort_sorted _ _ (tagLess_strictWeak t).2 (List.range t.length)
      (fun _ _ => trivial)
    simp only [detail.permutationToOrder, reduceCtorEq, if_false]
    refine h.imp ?_
    intro a b hab
    simp only [decide_eq_false_iff_not, not_lt] at hab
    exact hab
  · intro hlen hsame
    unfold detail.permutationToOrder
    simp only [hlen]
    split
    · apply stdSort_congr
      intro x hx y hy
      have := hsame y (List.mem_range.mp hy) x (List.mem_range.mp hx)
      simp only [this]
    · apply stdSort_congr
      intro x hx y hy
      have := hsame x (List.mem_range.mp hx) y (List.mem_range.mp hy)
      simp only [this]

theorem detail_permutationToOrder_sorts_tags_witness :
    detail.permutationToOrder [3, 6, 1] MemoryOrder.C_ORDER = [1, 0, 2] ∧
      detail.permutationToOrder [4, 5, 3] MemoryOrder.C_ORDER =
        detail.permutationToOrder [3, 6, 1] MemoryOrder.C_ORDER :=
  ⟨by decide,
    (detail_permutationToOrder_sorts_tags [3, 6, 1] [4, 5, 3] MemoryOrder.C_ORDER).2.2.2 rfl
      (by decide)⟩
theorem land_sixteen_eq_zero_iff (f : Nat) : f &&& 16 = 0 ↔ f.testBit 4 = false := by
  have h := and_two_pow_ne_zero f 4
  have e : (2 : Nat) ^ 4 = 16 := by decide
  rw [e] at h
  constructor
  · intro h0
    by_contra hb
    exact (h.mpr (by simpa using hb)) h0
  · intro hb
    by_contra h0
    rw [h.mp h0] at hb
    cases hb

theorem testBit_mask_frequency (i : Nat) :
    (2 ^ 32 - 1 - 16 : Nat).testBit i = (decide (i < 32) && !(Nat.testBit 16 i)) := by
  have h := Nat.testBit_two_pow_sub_succ (x := 16) (n := 32) (by decide) i
  have e : (2 : Nat) ^ 32 - (16 + 1) = 2 ^ 32 - 1 - 16 := by decide
  rw [e] at h
  exact h

theorem testBit_sixteen (i : Nat) : Nat.testBit 16 i = decide (4 = i) := by
  have h := Nat.testBit_two_pow (n := 4) (m := i)
  have e : (2 : Nat) ^ 4 = 16 := by decide
  rw [e] at h
  exact h

theorem clear_set_frequency (f : Nat) (h0 : f &&& 16 = 0) (h32 : f < 2 ^ 32) :
    (2 ^ 32 - 1 - 16) &&& (16 ||| f) = f := by
  apply Nat.eq_of_testBit_eq
  intro i
  rw [Nat.testBit_and, Nat.testBit_or, testBit_mask_frequency, testBit_sixteen]
  by_cases hi : 4 = i
  · subst hi
    rw [(land_sixteen_eq_zero_iff f).mp h0]
    simp
  · by_cases hlt : i < 32
    · simp [hi, hlt]
    · have : f.testBit i = false :=
        Nat.testBit_lt_two_pow (lt_of_lt_of_le h32 (Nat.pow_le_pow_right (by decide) (by omega)))
      simp [hi, hlt, this]

theorem set_clear_frequency (f : Nat) (h0 : f &&& 16 ≠ 0) (h32 : f < 2 ^ 32) :
    16 ||| ((2 ^ 32 - 1 - 16) &&& f) = f := by
  have hb : f.testBit 4 = true := by
    by_contra hb
    exact h0 ((land_sixteen_eq_zero_iff f).mpr (by simpa using hb))
  apply Nat.eq_of_testBit_eq
  intro i
  rw [Nat.testBit_or, Nat.testBit_and, testBit_mask_frequency, testBit_sixteen]
  by_cases hi : 4 = i
  · subst hi
    simp [hb]
  · by_cases hlt : i < 32
    · simp [hi, hlt]
    · have : f.testBit i = false :=
        Nat.testBit_lt_two_pow (lt_of_lt_of_le h32 (Nat.pow_le_pow_right (by decide) (by omega)))
      simp [hi, hlt, this]

theorem cleared_frequency_land (f : Nat) : ((2 ^ 32 - 1 - 16) &&& f) &&& 16 = 0 := by
  rw [land_sixteen_eq_zero_iff, Nat.testBit_and, testBit_mask_frequency, testBit_sixteen]
  simp

theorem set_frequency_land (f : Nat) : (16 ||| f) &&& 16 ≠ 0 := by
  intro h
  have := (land_sixteen_eq_zero_iff _).mp h
  rw [Nat.testBit_or, testBit_sixteen] at this
  simp at this

theorem AxisInfo.isFrequency_iff (a : AxisInfo) :
    a.isFrequency = true ↔ a.flags_ &&& 16 ≠ 0 := by
  unfold AxisInfo.isFrequency AxisInfo.isType AxisInfo.typeFlags
  by_cases h0 : a.flags_ = 0
  · rw [if_pos h0, h0]
    decide
  · rw [if_neg h0]
    simp [tags.Frequency]
theorem AxisInfo.toFrequencyDomain_ok (a : AxisInfo) (size : Nat)
    (h : a.isFrequency = false) :
    ∃ r, a.toFrequencyDomain size 1 = Except.ok r ∧ r.key_ = a.key_ ∧
      r.description_ = a.description_ ∧ r.flags_ = tags.Frequency ||| a.flags_ := by
  unfold AxisInfo.toFrequencyDomain
  simp only [if_true, h, Bool.false_eq_true, if_false]
  split <;> exact ⟨_, rfl, rfl, rfl, rfl⟩

theorem AxisInfo.fromFrequencyDomain_ok (a : AxisInfo) (size : Nat)
    (h : a.isFrequency = true) :
    ∃ r, a.fromFrequencyDomain size = Except.ok r ∧ r.key_ = a.key_ ∧
      r.description_ = a.description_ ∧
      r.flags_ = (2 ^ 32 - 1 - tags.Frequency) &&& a.flags_ := by
  unfold AxisInfo.fromFrequencyDomain AxisInfo.toFrequencyDomain
  have hs : ¬ ((-1 : Int) = 1) := by decide
  simp only [hs, if_false, h, Bool.not_true, Bool.false_eq_true]
  split <;> exact ⟨_, rfl, rfl, rfl, rfl⟩

theorem AxisInfo.eq_of_fields (r a : AxisInfo) (h1 : r.flags_ = a.flags_)
    (h2 : r.key_ = a.key_) : r.eq a = true := by
  simp [AxisInfo.eq, AxisInfo.typeFlags, AxisInfo.key, h1, h2]

/-- Claim C37: the frequency-domain round trip. For every `AxisInfo` `a` that is not a
frequency axis, `a.toFrequencyDomain()` succeeds, is a frequency axis with the key of `a`,
and `a.toFrequencyDomain().fromFrequencyDomain()` succeeds and is `== a`; for every
frequency axis `b`, `b.fromFrequencyDomain()` succeeds, is not a frequency axis, and
`b.fromFrequencyDomain().toFrequencyDomain()` succeeds and is `== b`. The flags are values
of the 32-bit type; the `size` arguments are arbitrary. -/
theorem AxisInfo_frequency_round_trip (a b : AxisInfo) (size1 size2 : Nat)
    (ha : a.flags_ < 2 ^ 32) (hb : b.flags_ < 2 ^ 32) :
    (a.isFrequency = false →
      ∃ fa, a.toFrequencyDomain size1 1 = Except.ok fa ∧ fa.isFrequency = true ∧
        fa.key = a.key ∧
        ∃ back, fa.fromFrequencyDomain size2 = Except.ok back ∧ back.eq a = true) ∧
    (b.isFrequency = true →
      ∃ nb, b.fromFrequencyDomain size1 = Except.ok nb ∧ nb.isFrequency = false ∧
        nb.key = b.key ∧
        ∃ back, nb.toFrequencyDomain size2 1 = Except.ok back ∧ back.eq b = true) := by
  constructor
  · intro hnf
    have h0 : a.flags_ &&& 16 = 0 := by
      by_contra h
      have := (AxisInfo.isFrequency_iff a).mpr h
      rw [hnf] at this
      cases this
    obtain ⟨fa, hfa, hk, _, hf⟩ := AxisInfo.toFrequencyDomain_ok a size1 hnf
    have hfreq : fa.isFrequency = true := by
      rw [AxisInfo.isFrequency_iff, hf]
      exact set_frequency_land a.flags_
    obtain ⟨back, hback, hk2, _, hf2⟩ := AxisInfo.fromFrequencyDomain_ok fa size2 hfreq
    refine ⟨fa, hfa, hfreq, hk, back, hback, ?_⟩
    apply AxisInfo.eq_of_fields
    · rw [hf2, hf]
      exact clear_set_frequency a.flags_ h0 ha
    · rw [hk2, hk]
  · intro hfreq
    have h0 : b.flags_ &&& 16 ≠ 0 := (AxisInfo.isFrequency_iff b).mp hfreq
    obtain ⟨nb, hnb, hk, _, hf⟩ := AxisInfo.fromFrequencyDomain_ok b size1 hfreq
    have hnf : nb.isFrequency = false := by
      by_contra h
      have h1 : nb.isFrequency = true := by simpa using h
      rw [AxisInfo.isFrequency_iff, hf] at h1
      exact h1 (cleared_frequency_land b.flags_)
    obtain ⟨back, hback, hk2, _, hf2⟩ := AxisInfo.toFrequencyDomain_ok nb size2 hnf
    refine ⟨nb, hnb, hnf, hk, back, hback, ?_⟩
    apply AxisInfo.eq_of_fields
    · rw [hf2, hf]
      exact set_clear_frequency b.flags_ h0 hb
    · rw [hk2, hk]

theorem AxisInfo_frequency_round_trip_witness :
    (∃ fa, (AxisInfo.mk "x" "" 0 tags.Space).toFrequencyDomain 0 1 = Except.ok fa ∧
        fa.isFrequency = true ∧ fa.key = (AxisInfo.mk "x" "" 0 tags.Space).key ∧
        ∃ back, fa.fromFrequencyDomain 0 = Except.ok back ∧
          back.eq (AxisInfo.mk "x" "" 0 tags.Space) = true) ∧
      (AxisInfo.mk "x" "" 0 tags.Space).toFrequencyDomain 0 1 =
        Except.ok (AxisInfo.mk "x" "" 0 18) :=
  ⟨(AxisInfo_frequency_round_trip (AxisInfo.mk "x" "" 0 tags.Space)
      (AxisInfo.mk "x" "" 0 18) 0 0 (by decide) (by decide)).1 (by decide), rfl⟩

/-- Claim C38: `toFrequencyDomain(size)` with the default sign 1 fails its precondition if
and only if the axis already is a frequency axis, and `fromFrequencyDomain(size)` fails if
and only if the axis is not a frequency axis. Both are `const`: they return a new
`AxisInfo`, with the key and the description of the one they are called on, which itself
stays as it is. -/
theorem AxisInfo_frequency_preconditions (a : AxisInfo) (size : Nat) :
    ((∃ msg, a.toFrequencyDomain size 1 = Except.error msg) ↔ a.isFrequency = true) ∧
    ((∃ msg, a.fromFrequencyDomain size = Except.error msg) ↔ a.isFrequency = false) ∧
    (∀ r, a.toFrequencyDomain size 1 = Except.ok r →
      r.key_ = a.key_ ∧ r.description_ = a.description_ ∧
        r.flags_ = tags.Frequency ||| a.flags_) ∧
    (∀ r, a.fromFrequencyDomain size = Except.ok r →
      r.key_ = a.key_ ∧ r.description_ = a.description_ ∧
        r.flags_ = (2 ^ 32 - 1 - tags.Frequency) &&& a.flags_) := by
  have hs : ¬ ((-1 : Int) = 1) := by decide
  cases hf : a.isFrequency with
  | false =>
    obtain ⟨r, hr, h1, h2, h3⟩ := AxisInfo.toFrequencyDomain_ok a size hf
    refine ⟨?_, ?_, ?_, ?_⟩
    · constructor
      · rintro ⟨msg, hmsg⟩
        rw [hr] at hmsg
        cases hmsg
      · intro h; cases h
    · constructor
      · intro _; rfl
      · intro _
        refine ⟨"AxisInfo::fromFrequencyDomain(): axis is not in the Fourier domain.", ?_⟩
        unfold AxisInfo.fromFrequencyDomain AxisInfo.toFrequencyDomain
        simp only [hs, if_false, hf, Bool.not_false, if_true]
    · intro r2 hr2
      rw [hr] at hr2
      cases hr2
      exact ⟨h1, h2, h3⟩
    · intro r2 hr2
      unfold AxisInfo.fromFrequencyDomain AxisInfo.toFrequencyDomain at hr2
      simp only [hs, if_false, hf, Bool.not_false, if_true] at hr2
      cases hr2
  | true =>
    obtain ⟨r, hr, h1, h2, h3⟩ := AxisInfo.fromFrequencyDomain_ok a size hf
    refine ⟨?_, ?_, ?_, ?_⟩
    · constructor
      · intro _; rfl
      · intro _
        refine ⟨"AxisInfo::toFrequencyDomain(): axis is already in the Fourier domain.", ?_⟩
        unfold AxisInfo.toFrequencyDomain
        simp only [if_true, hf]
    · constructor
      · rintro ⟨msg, hmsg⟩
        rw [hr] at hmsg
        cases hmsg
      · intro h; cases h
    · intro r2 hr2
      unfold AxisInfo.toFrequencyDomain at hr2
      simp only [if_true, hf] at hr2
      cases hr2
    · intro r2 hr2
      rw [hr] at hr2
      cases hr2
      exact ⟨h1, h2, h3⟩

theorem AxisInfo_frequency_preconditions_witness :
    (AxisInfo.mk "x" "" 0 18).toFrequencyDomain 4 1 =
        Except.error "AxisInfo::toFrequencyDomain(): axis is already in the Fourier domain." ∧
      (AxisInfo.mk "x" "" 0 2).fromFrequencyDomain 4 =
        Except.error "AxisInfo::fromFrequencyDomain(): axis is not in the Fourier domain." ∧
      (∃ msg, (AxisInfo.mk "x" "" 0 18).toFrequencyDomain 4 1 = Except.error msg) :=
  ⟨rfl, rfl,
    (AxisInfo_frequency_preconditions (AxisInfo.mk "x" "" 0 18) 4).1.mpr (by decide)⟩

/-- Claim C39: for every `N` with `0 <= N <= 4` (`0 <= N <= 5` when `with_channels` is true),
`defaultAxistags(N, with_channels, C_ORDER)` is the list of the last `N` entries of
`[t, z, y, x]` (of `[t, z, y, x, c]` when `with_channels` is true), and
`defaultAxistags(N, with_channels, F_ORDER)` is the reversal of that list; the result has
length `N`. -/
theorem defaultAxistags_value (N : Int) (with_channels : Bool)
    (hN : 0 ≤ N ∧ N ≤ (if with_channels then 5 else 4)) :
    defaultAxistags N with_channels MemoryOrder.C_ORDER =
      Except.ok
        ((if with_channels then
            [tags.axis_t, tags.axis_z, tags.axis_y, tags.axis_x, tags.axis_c]
          else [tags.axis_t, tags.axis_z, tags.axis_y, tags.axis_x]).drop
          ((if with_channels then 5 else 4) - N.toNat)) ∧
    defaultAxistags N with_channels MemoryOrder.F_ORDER =
      Except.ok
        ((if with_channels then
            [tags.axis_t, tags.axis_z, tags.axis_y, tags.axis_x, tags.axis_c]
          else [tags.axis_t, tags.axis_z, tags.axis_y, tags.axis_x]).drop
          ((if with_channels then 5 else 4) - N.toNat)).reverse ∧
    (((if with_channels then
            [tags.axis_t, tags.axis_z, tags.axis_y, tags.axis_x, tags.axis_c]
          else [tags.axis_t, tags.axis_z, tags.axis_y, tags.axis_x]).drop
          ((if with_channels then 5 else 4) - N.toNat)).length : Int) = N := by
  have hcases : N = 0 ∨ N = 1 ∨ N = 2 ∨ N = 3 ∨ N = 4 ∨ N = 5 := by
    cases with_channels <;> simp at hN <;> omega
  cases with_channels <;>
    rcases hcases with rfl | rfl | rfl | rfl | rfl | rfl <;>
    first
      | exact ⟨rfl, rfl, rfl⟩
      | (exfalso; simp at hN)

theorem defaultAxistags_value_witness :
    defaultAxistags 3 true MemoryOrder.C_ORDER =
        Except.ok [tags.axis_y, tags.axis_x, tags.axis_c] ∧
      defaultAxistags 3 false MemoryOrder.F_ORDER =
        Except.ok [tags.axis_x, tags.axis_y, tags.axis_z] ∧
      defaultAxistags 3 false MemoryOrder.F_ORDER =
        Except.ok
          ((if false then
              [tags.axis_t, tags.axis_z, tags.axis_y, tags.axis_x, tags.axis_c]
            else [tags.axis_t, tags.axis_z, tags.axis_y, tags.axis_x]).drop
            ((if false then 5 else 4) - (3 : Int).toNat)).reverse :=
  ⟨rfl, rfl, (defaultAxistags_value 3 false (by decide)).2.1⟩

/-! ## An expression-like second operand -/

theorem HandleNDChain.noMemoryOverlap_true (c : HandleNDChain) (p1 q1 : Int) :
    c.noMemoryOverlap p1 q1 = true := by
  induction c with
  | shapeHandle _ _ => rfl
  | link _ next ih => exact ih

theorem HandleNDChain.compatibleMemoryLayout_true (c : HandleNDChain) (p1 : Int)
    (strides : List Int) : c.compatibleMemoryLayout p1 strides = true := by
  induction c with
  | shapeHandle _ _ => rfl
  | link _ next ih => exact ih

/-- Claim C32: when the second operand of `genericArrayFunction` is an expression-like
operand, the temporary-copy branch is taken if and only if both of the operand's own
predicates, `noMemoryOverlap(p1, q1)` with `p1 = a1.data()` and `q1 = &a1[shape - 1] + 1`
and `compatibleMemoryLayout(p1, a1.strides())`, return false. The scalar handle and the
coordinate handle return true from both predicates for all arguments, so an operand with
the predicates of either of them is never materialised into a temporary, whatever its
`transpose` is. -/
theorem genericArrayFunctionMath_temporary_iff {H σ : Type} (ops : ArrayMathOperand H)
    (traverse : HandleND → H → List Int → σ → Option σ) (mkTemp : H → σ → ArrayND × σ)
    (a1 : ArrayND) (h2 : H) (f : Int → Int → σ → σ) (s : σ) :
    ((genericArrayFunctionMath ops traverse mkTemp a1 h2 f s).temporary = true ↔
      (ops.noMemoryOverlap h2 a1.data
          (a1.addressOf (a1.shape.map (fun n => n - 1)) + 1) = false ∧
        ops.compatibleMemoryLayout h2 a1.data a1.strides = false)) ∧
    (∀ (T : Type) (v : HandleND0 T) (p1 q1 : Int) (strides : List Int),
      v.noMemoryOverlap p1 q1 = true ∧ v.compatibleMemoryLayout p1 strides = true) ∧
    (∀ (c : HandleNDChain) (p1 q1 : Int) (strides : List Int),
      c.noMemoryOverlap p1 q1 = true ∧ c.compatibleMemoryLayout p1 strides = true) ∧
    (∀ (T : Type) (tr : HandleND0 T → List Nat → HandleND0 T)
        (trav : HandleND → HandleND0 T → List Int → σ → Option σ)
        (mk : HandleND0 T → σ → ArrayND × σ) (v : HandleND0 T),
      (genericArrayFunctionMath
        (ArrayMathOperand.mk HandleND0.noMemoryOverlap HandleND0.compatibleMemoryLayout tr)
        trav mk a1 v f s).temporary = false) ∧
    (∀ (tr : HandleNDChain → List Nat → HandleNDChain)
        (trav : HandleND → HandleNDChain → List Int → σ → Option σ)
        (mk : HandleNDChain → σ → ArrayND × σ) (c : HandleNDChain),
      (genericArrayFunctionMath
        (ArrayMathOperand.mk HandleNDChain.noMemoryOverlap
          HandleNDChain.compatibleMemoryLayout tr)
        trav mk a1 c f s).temporary = false) := by
  have key : ∀ (K : Type) (o : ArrayMathOperand K)
      (trav : HandleND → K → List Int → σ → Option σ) (mk : K → σ → ArrayND × σ) (k : K),
      (genericArrayFunctionMath o trav mk a1 k f s).temporary =
        !(o.noMemoryOverlap k a1.data (a1.addressOf (a1.shape.map (fun n => n - 1)) + 1) ||
          o.compatibleMemoryLayout k a1.data a1.strides) := by
    intro K o trav mk k
    unfold genericArrayFunctionMath
    simp only
    split
    · rename_i h
      rw [h]
      rfl
    · rename_i h
      rw [Bool.not_eq_true] at h
      rw [h]
      rfl
  refine ⟨?_, fun _ _ _ _ _ => ⟨rfl, rfl⟩, ?_, ?_, ?_⟩
  · rw [key]
    cases ops.noMemoryOverlap h2 a1.data (a1.addressOf (a1.shape.map (fun n => n - 1)) + 1) <;>
      cases ops.compatibleMemoryLayout h2 a1.data a1.strides <;> simp
  · intro c p1 q1 strides
    exact ⟨HandleNDChain.noMemoryOverlap_true c p1 q1,
      HandleNDChain.compatibleMemoryLayout_true c p1 strides⟩
  · intro T tr trav mk v
    rw [key]
    rfl
  · intro tr trav mk c
    rw [key]
    simp only [HandleNDChain.noMemoryOverlap_true, Bool.true_or, Bool.not_true]

/-! ## computeNeighborIncrements -/

theorem neighborIncrementsStep_of_false (e : List Int) (offs : List (List Int))
    (row : List Bool) (directed : Bool) (st : BorderIncrements) (j : Nat)
    (hj : ¬ row.getD j false = true) : neighborIncrementsStep e offs row directed st j = st := by
  simp only [neighborIncrementsStep, hj, Bool.false_eq_true, if_false]

theorem neighborIncrementsStep_of_true (e : List Int) (offs : List (List Int))
    (row : List Bool) (directed : Bool) (st : BorderIncrements) (j : Nat)
    (hj : row.getD j false = true) :
    (neighborIncrementsStep e offs row directed st j).indices = st.indices ++ [j] ∧
    (neighborIncrementsStep e offs row directed st j).backIndices =
      (if j < offs.length / 2 then st.backIndices ++ [j] else st.backIndices) ∧
    (neighborIncrementsStep e offs row directed st j).adjacentNodeIncrements =
      st.adjacentNodeIncrements ++
        [if st.adjacentNodeIncrements.length = 0 then offs.getD j []
          else vectorDiff (offs.getD j []) (offs.getD (st.indices.getLastD 0) [])] := by
  simp only [neighborIncrementsStep, hj, if_true, and_self]

theorem neighborIncrementsStep_indices (e : List Int) (offs : List (List Int)) (row : List Bool)
    (directed : Bool) :
    ∀ (js : List Nat) (st : BorderIncrements),
      (js.foldl (neighborIncrementsStep e offs row directed) st).indices =
          st.indices ++ js.filter (fun j => row.getD j false) ∧
        (js.foldl (neighborIncrementsStep e offs row directed) st).backIndices =
          st.backIndices ++
            (js.filter (fun j => row.getD j false)).filter
              (fun j => decide (j < offs.length / 2)) := by
  intro js
  induction js with
  | nil => intro st; exact ⟨(List.append_nil _).symm, (List.append_nil _).symm⟩
  | cons j js ih =>
    intro st
    rw [List.foldl_cons]
    obtain ⟨h1, h2⟩ := ih (neighborIncrementsStep e offs row directed st j)
    rw [h1, h2]
    by_cases hj : row.getD j false = true
    · obtain ⟨e1, e2, _⟩ := neighborIncrementsStep_of_true e offs row directed st j hj
      rw [e1, e2]
      simp only [List.filter_cons, hj, if_true, List.append_assoc, List.singleton_append,
        true_and]
      by_cases hb : j < offs.length / 2
      · simp only [hb, if_true, decide_True, List.append_assoc, List.singleton_append]
      · simp only [hb, if_false, decide_False, Bool.false_eq_true]
    · rw [neighborIncrementsStep_of_false e offs row directed st j hj]
      simp only [List.filter_cons, hj, Bool.false_eq_true, if_false, and_self]

theorem neighborIncrementsStep_nodes (e : List Int) (offs : List (List Int)) (row : List Bool)
    (directed : Bool) :
    ∀ (js : List Nat) (st : BorderIncrements),
      (st.adjacentNodeIncrements.length = st.indices.length ∧
        ∀ i, i < st.indices.length →
          st.adjacentNodeIncrements.getD i [] =
            if i = 0 then offs.getD (st.indices.getD i 0) []
            else vectorDiff (offs.getD (st.indices.getD i 0) [])
              (offs.getD (st.indices.getD (i - 1) 0) [])) →
      ((js.foldl (neighborIncrementsStep e offs row directed) st).adjacentNodeIncrements.length =
          (js.foldl (neighborIncrementsStep e offs row directed) st).indices.length ∧
        ∀ i, i < (js.foldl (neighborIncrementsStep e offs row directed) st).indices.length →
          (js.foldl (neighborIncrementsStep e offs row directed) st).adjacentNodeIncrements.getD
              i [] =
            if i = 0 then
              offs.getD ((js.foldl (neighborIncrementsStep e offs row directed) st).indices.getD
                i 0) []
            else vectorDiff
              (offs.getD ((js.foldl (neighborIncrementsStep e offs row directed) st).indices.getD
                i 0) [])
              (offs.getD ((js.foldl (neighborIncrementsStep e offs row directed) st).indices.getD
                (i - 1) 0) [])) := by
  intro js
  induction js with
  | nil => intro st h; exact h
  | cons j js ih =>
    intro st h
    rw [List.foldl_cons]
    apply ih
    obtain ⟨hl, hd⟩ := h
    by_cases hj : row.getD j false = true
    · obtain ⟨hidx, _, hnodes⟩ := neighborIncrementsStep_of_true e offs row directed st j hj
      rw [hidx, hnodes]
      refine ⟨by simp [hl], ?_⟩
      intro i hi
      have hi2 : i < st.indices.length + 1 := by simpa using hi
      by_cases hlt : i < st.indices.length
      · have h1 := hd i hlt
        have e1 : (st.adjacentNodeIncrements ++
            [if st.adjacentNodeIncrements.length = 0 then offs.getD j []
              else vectorDiff (offs.getD j []) (offs.getD (st.indices.getLastD 0) [])]).getD i []
            = st.adjacentNodeIncrements.getD i [] :=
          List.getD_append _ _ _ _ (by omega)
        have e2 : (st.indices ++ [j]).getD i 0 = st.indices.getD i 0 :=
          List.getD_append _ _ _ _ hlt
        have e3 : (st.indices ++ [j]).getD (i - 1) 0 = st.indices.getD (i - 1) 0 :=
          List.getD_append _ _ _ _ (by omega)
        rw [e1, h1, e2, e3]
      · have hieq : i = st.indices.length := by omega
        have e1 : (st.adjacentNodeIncrements ++
            [if st.adjacentNodeIncrements.length = 0 then offs.getD j []
              else vectorDiff (offs.getD j []) (offs.getD (st.indices.getLastD 0) [])]).getD i []
            = (if st.adjacentNodeIncrements.length = 0 then offs.getD j []
              else vectorDiff (offs.getD j []) (offs.getD (st.indices.getLastD 0) [])) := by
          rw [List.getD_append_right _ _ _ _ (by omega)]
          have : i - st.adjacentNodeIncrements.length = 0 := by omega
          rw [this]
          rfl
        have e2 : (st.indices ++ [j]).getD i 0 = j := by
          rw [List.getD_append_right _ _ _ _ (by omega)]
          have : i - st.indices.length = 0 := by omega
          rw [this]
          rfl
        rw [e1, e2]
        by_cases h0 : i = 0
        · have : st.adjacentNodeIncrements.length = 0 := by omega
          rw [if_pos this, if_pos h0]
        · have hne : ¬ st.adjacentNodeIncrements.length = 0 := by omega
          rw [if_neg hne, if_neg h0]
          have e3 : (st.indices ++ [j]).getD (i - 1) 0 = st.indices.getLastD 0 := by
            rw [List.getD_append _ _ _ _ (by omega)]
            have hne2 : st.indices ≠ [] := by
              intro hnil
              rw [hnil] at hieq
              exact h0 hieq
            rw [List.getLastD_eq_getLast?, List.getLast?_eq_getLast _ hne2,
              List.getLast_eq_getElem, List.getD_eq_getElem _ _ (by omega)]
            simp only [Option.getD_some]
            congr 1
            omega
          rw [e3]
    · rw [neighborIncrementsStep_of_false e offs row directed st j hj]
      exact ⟨hl, hd⟩

theorem vectorSum_snoc (n : Nat) (l : List (List Int)) (v : List Int) :
    vectorSum n (l ++ [v]) = List.zipWith (fun a b => a + b) (vectorSum n l) v := by
  simp [vectorSum, List.foldl_append]

theorem zipWith_zero_add (n : Nat) : ∀ v : List Int, v.length = n →
    List.zipWith (fun a b => a + b) (List.replicate n 0) v = v := by
  induction n with
  | zero =>
    intro v hv
    have : v = [] := List.length_eq_zero.mp hv
    subst this
    rfl
  | succ n ih =>
    intro v hv
    cases v with
    | nil => simp at hv
    | cons x v =>
      have := ih v (by simpa using hv)
      simp [List.replicate_succ, this]

theorem zipWith_add_vectorDiff (a : List Int) : ∀ b : List Int, a.length = b.length →
    List.zipWith (fun x y => x + y) a (vectorDiff b a) = b := by
  induction a with
  | nil =>
    intro b hb
    have : b = [] := List.length_eq_zero.mp hb.symm
    subst this
    rfl
  | cons x a ih =>
    intro b hb
    cases b with
    | nil => simp at hb
    | cons y b =>
      have := ih b (by simpa using hb)
      unfold vectorDiff at this ⊢
      simp [this]

/-- The sum of the first `i + 1` successive differences is the offset at the `i`-th index. -/
theorem vectorSum_of_differences (n : Nat) (offs : List (List Int)) (idx : List Nat)
    (nodes : List (List Int)) (hlen : nodes.length = idx.length)
    (hd : ∀ i, i < idx.length →
      nodes.getD i [] =
        if i = 0 then offs.getD (idx.getD i 0) []
        else vectorDiff (offs.getD (idx.getD i 0) []) (offs.getD (idx.getD (i - 1) 0) []))
    (hvl : ∀ i, i < idx.length → (offs.getD (idx.getD i 0) []).length = n) :
    ∀ i, i < idx.length → vectorSum n (nodes.take (i + 1)) = offs.getD (idx.getD i 0) [] := by
  have htake : ∀ i, i < idx.length → nodes.take (i + 1) = nodes.take i ++ [nodes.getD i []] := by
    intro i hi
    have hi2 : i < nodes.length := by omega
    rw [List.take_succ, List.getElem?_eq_getElem hi2, List.getD_eq_getElem _ _ hi2]
    rfl
  intro i
  induction i with
  | zero =>
    intro hi
    rw [htake 0 hi, vectorSum_snoc, hd 0 hi, if_pos rfl]
    show List.zipWith (fun a b => a + b) (List.replicate n 0) _ = _
    exact zipWith_zero_add n _ (hvl 0 hi)
  | succ i ih =>
    intro hi
    have h1 := ih (by omega)
    rw [htake (i + 1) hi, vectorSum_snoc, h1, hd (i + 1) hi, if_neg (by omega)]
    have e : i + 1 - 1 = i := by omega
    rw [e]
    exact zipWith_add_vectorDiff _ _ (by rw [hvl i (by omega), hvl (i + 1) hi])

/-- Claim C40: for an offset list whose vectors all have rank `n`, an existence table and
every border type `bt` of the table, `computeNeighborIncrements` produces: `indices[bt]`,
the increasing list of all `j` below `neighborOffsets.size()` with `neighborExists[bt][j]`
true; `adjacentNodeIncrements[bt]`, with one entry per index, the successive differences
of the offsets at these indices (the first entry is the first such offset), so that the sum
of its first `i + 1` entries is `neighborOffsets[indices[bt][i]]`; and `backIndices[bt]`,
the entries of `indices[bt]` that are smaller than `neighborOffsets.size() / 2`. The counts
are `unsigned int`: the table has `neighborExists.size() mod 2^32` processed rows and the
offset list fewer than `2^32` entries. -/
theorem computeNeighborIncrements_spec (emptyShape : List Int) (neighborOffsets : List (List Int))
    (neighborExists : List (List Bool)) (directed : Bool) (n bt : Nat)
    (hsize : neighborOffsets.length < 2 ^ 32)
    (hvec : ∀ v ∈ neighborOffsets, v.length = n)
    (hbt : bt < neighborExists.length % 2 ^ 32) :
    ((computeNeighborIncrements emptyShape neighborOffsets neighborExists directed).indices.getD
        bt [] =
      (List.range neighborOffsets.length).filter
        (fun j => (neighborExists.getD bt []).getD j false)) ∧
    ((computeNeighborIncrements emptyShape neighborOffsets neighborExists
        directed).indices.getD bt []).Pairwise (fun x y => x < y) ∧
    (∀ j, j ∈ (computeNeighborIncrements emptyShape neighborOffsets neighborExists
          directed).indices.getD bt [] ↔
        (j < neighborOffsets.length ∧ (neighborExists.getD bt []).getD j false = true)) ∧
    ((computeNeighborIncrements emptyShape neighborOffsets neighborExists
        directed).adjacentNodeIncrements.getD bt []).length =
      ((computeNeighborIncrements emptyShape neighborOffsets neighborExists
        directed).indices.getD bt []).length ∧
    (∀ i, i < ((computeNeighborIncrements emptyShape neighborOffsets neighborExists
          directed).indices.getD bt []).length →
      ((computeNeighborIncrements emptyShape neighborOffsets neighborExists
          directed).adjacentNodeIncrements.getD bt []).getD i [] =
        (if i = 0 then
          neighborOffsets.getD
            (((computeNeighborIncrements emptyShape neighborOffsets neighborExists
              directed).indices.getD bt []).getD i 0) []
        else
          vectorDiff
            (neighborOffsets.getD
              (((computeNeighborIncrements emptyShape neighborOffsets neighborExists
                directed).indices.getD bt []).getD i 0) [])
            (neighborOffsets.getD
              (((computeNeighborIncrements emptyShape neighborOffsets neighborExists
                directed).indices.getD bt []).getD (i - 1) 0) [])) ∧
      vectorSum n
          (((computeNeighborIncrements emptyShape neighborOffsets neighborExists
            directed).adjacentNodeIncrements.getD bt []).take (i + 1)) =
        neighborOffsets.getD
          (((computeNeighborIncrements emptyShape neighborOffsets neighborExists
            directed).indices.getD bt []).getD i 0) []) ∧
    ((computeNeighborIncrements emptyShape neighborOffsets neighborExists
        directed).backIndices.getD bt [] =
      ((computeNeighborIncrements emptyShape neighborOffsets neighborExists
        directed).indices.getD bt []).filter
          (fun j => decide (j < neighborOffsets.length / 2))) := by
  have hrow : ∀ (α : Type) (g : BorderIncrements → α) (d : α),
      (((List.range (neighborExists.length % 2 ^ 32)).map (fun bt =>
        (List.range neighborOffsets.length).foldl
          (neighborIncrementsStep emptyShape neighborOffsets (neighborExists.getD bt [])
            directed) (BorderIncrements.mk [] [] [] []))).map g).getD bt d =
        g ((List.range neighborOffsets.length).foldl
          (neighborIncrementsStep emptyShape neighborOffsets (neighborExists.getD bt [])
            directed) (BorderIncrements.mk [] [] [] [])) := by
    intro α g d
    have hb : bt < (((List.range (neighborExists.length % 2 ^ 32)).map (fun bt =>
        (List.range neighborOffsets.length).foldl
          (neighborIncrementsStep emptyShape neighborOffsets (neighborExists.getD bt [])
            directed) (BorderIncrements.mk [] [] [] []))).map g).length := by
      simpa using hbt
    rw [List.getD_eq_getElem _ _ hb]
    simp only [List.getElem_map, List.getElem_range]
  have e1 := hrow _ (fun r => r.indices) []
  have e2 := hrow _ (fun r => r.backIndices) []
  have e3 := hrow _ (fun r => r.adjacentNodeIncrements) []
  have hidx := neighborIncrementsStep_indices emptyShape neighborOffsets
    (neighborExists.getD bt []) directed (List.range neighborOffsets.length)
    (BorderIncrements.mk [] [] [] [])
  have hnodes := neighborIncrementsStep_nodes emptyShape neighborOffsets
    (neighborExists.getD bt []) directed (List.range neighborOffsets.length)
    (BorderIncrements.mk [] [] [] []) ⟨rfl, fun i hi => absurd hi (Nat.not_lt_zero i)⟩
  simp only [List.nil_append] at hidx
  have hI : (computeNeighborIncrements emptyShape neighborOffsets neighborExists
      directed).indices.getD bt [] =
      (List.range neighborOffsets.length).filter
        (fun j => (neighborExists.getD bt []).getD j false) := by
    exact e1.trans hidx.1
  have hB : (computeNeighborIncrements emptyShape neighborOffsets neighborExists
      directed).backIndices.getD bt [] =
      ((List.range neighborOffsets.length).filter
        (fun j => (neighborExists.getD bt []).getD j false)).filter
          (fun j => decide (j < neighborOffsets.length / 2)) := by
    exact e2.trans hidx.2
  have hN : (computeNeighborIncrements emptyShape neighborOffsets neighborExists
      directed).adjacentNodeIncrements.getD bt [] =
      ((List.range neighborOffsets.length).foldl
          (neighborIncrementsStep emptyShape neighborOffsets (neighborExists.getD bt [])
            directed) (BorderIncrements.mk [] [] [] [])).adjacentNodeIncrements := by
    exact e3
  rw [hidx.1] at hnodes
  have hmem : ∀ j, j ∈ (List.range neighborOffsets.length).filter
      (fun j => (neighborExists.getD bt []).getD j false) ↔
      (j < neighborOffsets.length ∧ (neighborExists.getD bt []).getD j false = true) := by
    intro j
    rw [List.mem_filter, List.mem_range]
  have hvl : ∀ i, i < ((List.range neighborOffsets.length).filter
      (fun j => (neighborExists.getD bt []).getD j false)).length →
      (neighborOffsets.getD (((List.range neighborOffsets.length).filter
        (fun j => (neighborExists.getD bt []).getD j false)).getD i 0) []).length = n := by
    intro i hi
    have hm : ((List.range neighborOffsets.length).filter
        (fun j => (neighborExists.getD bt []).getD j false)).getD i 0 <
        neighborOffsets.length := by
      rw [List.getD_eq_getElem _ _ hi]
      exact ((hmem _).mp (List.getElem_mem _)).1
    rw [List.getD_eq_getElem _ _ hm]
    exact hvec _ (List.getElem_mem _)
  rw [hI, hB, hN]
  refine ⟨rfl, (List.pairwise_lt_range _).filter _, hmem, hnodes.1, ?_, rfl⟩
  intro i hi
  exact ⟨hnodes.2 i hi, vectorSum_of_differences n neighborOffsets _ _ hnodes.1 hnodes.2 hvl i hi⟩

theorem computeNeighborIncrements_spec_witness :
    (computeNeighborIncrements [] [[-1, 0], [0, -1], [0, 1], [1, 0]]
        [[true, true, true, true], [false, true, false, true]] false).indices.getD 1 [] =
        [1, 3] ∧
      (computeNeighborIncrements [] [[-1, 0], [0, -1], [0, 1], [1, 0]]
        [[true, true, true, true], [false, true, false, true]]
        false).adjacentNodeIncrements.getD 1 [] = [[0, -1], [1, 1]] ∧
      (computeNeighborIncrements [] [[-1, 0], [0, -1], [0, 1], [1, 0]]
        [[true, true, true, true], [false, true, false, true]] false).backIndices.getD 1 [] =
        ((computeNeighborIncrements [] [[-1, 0], [0, -1], [0, 1], [1, 0]]
          [[true, true, true, true], [false, true, false, true]] false).indices.getD 1
            []).filter (fun j => decide (j < [[-1, 0], [0, -1], [0, 1], [(1 : Int), 0]].length / 2)) :=
  ⟨by decide, by decide,
    (computeNeighborIncrements_spec [] [[-1, 0], [0, -1], [0, 1], [1, 0]]
      [[true, true, true, true], [false, true, false, true]] false 2 1 (by decide) (by decide)
      (by decide)).2.2.2.2.2⟩

end vigra
